import Mathlib

/-! # A shallow embedding of `ext/kdtree/kdtree.c`

The C extension keeps a flat array of `struct kdtree_node` and an integer `root`;
`kdtree_build` sorts sub-ranges of the array in place and links the medians,
`kdtree_nearest0` / `kdtree_nearestk0` walk the links with branch-and-bound pruning,
and `kdtree_persist` / `kdtree_initialize` dump and reload the raw array.

Modelling conventions used throughout this file.

* The node store is a `List kdtree_node`; a C pointer `nodes + i` is the list index `i`.
  Reading or writing outside the allocation (undefined behaviour in C) is the explicit
  result `Err.outOfBounds`; reading or writing outside the result buffer of the k-nearest
  search is the explicit result `Err.bufferOverflow`.
* Recursion that follows stored links (the two searches) or halves a range (the build)
  is written with a `fuel` argument so that every definition is structurally recursive
  and evaluates in the kernel; exhausted fuel is the explicit result `Err.outOfFuel`,
  and the theorems below show how much fuel is enough.
* `float` is IEEE 754 binary32 with round-to-nearest-even, and every `float` operation is
  rounded on its own (no excess precision, no fused multiply-add).  A `float` value is the
  rational number it denotes; `FLT_HUGE = 2 ^ 128` stands for `+∞` and `-FLT_HUGE` for `-∞`.
  `to_float` is the conversion to `float` (of the `double` returned by `NUM2DBL`, and of the
  `int` constant `INT_MAX`, which becomes `2147483648`); `fsub`, `fmul` and `fadd` are the
  three operations of the searches.  NaN has no representation.  The callers' coordinates
  are rationals, so a NaN argument is outside the model; inside the searches NaN can only
  arise as `∞ - ∞`, whose result is represented by `+∞`, because every test the searches
  apply to it or to a value computed from it (`ad <= 0`, `ad * ad < best`, `dx < best`,
  `d < best`) fails for NaN exactly as it fails for `+∞`.
* `int` indices (`min`, `max`, `median`, `i`, `k_len`) are natural numbers.  The one sum that
  can leave the range of `int`, `min + max` in `kdtree_build`, is checked: beyond `INT_MAX`
  the behaviour of the C code is undefined and the model stops with `Err.intOverflow`.  The
  same result stands for an array too long for `int len`.  The byte counts handed to
  `read_all` / `write_all`, whose parameter is `int len`, are wrapped to 32 bits.
* Sizes are those of the usual ABIs: `int` and `float` take 4 bytes, `struct kdtree_node`
  takes 20 bytes without padding, and the part of `struct kdtree_data` before the pointer
  takes 8 bytes.  Byte order and `float` format are a parameter, the structure `Layout`.
* `qsort` is the C library's: only its contract (the result is a permutation of the
  input, ordered by the comparator) is assumed, through the structure `Qsort`.
* `ALLOC_N` returns uninitialised storage; its previous contents are a parameter.
-/

namespace Kdtree

/-! ## Data model -/

/-- A node in the tree (`struct kdtree_node`). -/
structure kdtree_node where
  x : ℚ
  y : ℚ
  id : Int
  left : Int
  right : Int
deriving DecidableEq

/-- The tree itself (`struct kdtree_data`). -/
structure kdtree_data where
  root : Int
  len : Int
  nodes : List kdtree_node
deriving DecidableEq

/-- A result node from `kdtree_nearestk0` (`struct kresult`). -/
structure kresult where
  index : Int
  distance : ℚ
deriving DecidableEq

/-- Abnormal outcomes of the embedded functions. -/
inductive Err where
  /-- the recursion budget of the model ran out (the C code would still be running) -/
  | outOfFuel
  /-- an array was indexed outside its allocation (undefined behaviour in C) -/
  | outOfBounds
  /-- the result buffer `k_list` was indexed outside its slots (undefined behaviour in C) -/
  | bufferOverflow
  /-- the `RuntimeError` "wrong magic number in kdtree file" -/
  | badMagic
  /-- the `EOFError` "end of file reached" raised by `read_all` -/
  | endOfFile
  /-- the Ruby runtime rejected a negative size (`ALLOC_N`, `IO#read`, `rb_str_new`) -/
  | negativeSize
  /-- the `TypeError` "array or IO required to init Kdtree" -/
  | typeError
  /-- the `RangeError` raised by `NUM2INT` for an integer outside the range of `int` -/
  | rangeError
  /-- an `int` computation left the range of `int` (undefined behaviour in C) -/
  | intOverflow
deriving DecidableEq

/-- The constant `INT_MAX` of a 32-bit `int`. -/
def INT_MAX : Int := 2147483647

/-- The constant `MAX_K` (`#define MAX_K 255`). -/
def MAX_K : Int := 255

/-- The slot `nodes + i`, when `i` lies inside the allocation. -/
def node_at (nodes : List kdtree_node) (i : Int) : Except Err kdtree_node :=
  if 0 ≤ i then
    match nodes[i.toNat]? with
    | some n => .ok n
    | none => .error .outOfBounds
  else .error .outOfBounds

/-! ## Single-precision arithmetic -/

/-- Rounding of a rational to the nearest integer, ties to the even one. -/
def rne (q : ℚ) : ℤ :=
  let f := ⌊q⌋
  if q - f < 1 / 2 then f else if 1 / 2 < q - f then f + 1 else if f % 2 = 0 then f else f + 1

/-- The value that stands for `+∞`: the first power of two beyond the finite `float`s. -/
def FLT_HUGE : ℚ := 2 ^ 128

/-- The number of binary digits of `n` (`0` for `0`), by halving; `fuel = n` is enough. -/
def bit_length : Nat → Nat → Nat
  | 0, _ => 0
  | fuel + 1, n => if n = 0 then 0 else bit_length fuel (n / 2) + 1

/-- The binary exponent of a positive rational: the `e` with `2 ^ e ≤ a < 2 ^ (e + 1)`. -/
def float_exp (a : ℚ) : ℤ :=
  let e0 : ℤ := (bit_length a.num.natAbs a.num.natAbs : ℤ) - (bit_length a.den a.den : ℤ)
  if (2 : ℚ) ^ e0 ≤ a then e0 else e0 - 1

/-- Rounding of a non-negative rational to binary32: 24 significant bits, exponents from
`-126` (below that the spacing stays `2 ^ -149`, the subnormal range), nearest value with
ties to even, and `+∞` from `2 ^ 128` on. -/
def round_mag (a : ℚ) : ℚ :=
  let s := max (float_exp a) (-126) - 23
  min ((rne (a / 2 ^ s) : ℚ) * 2 ^ s) FLT_HUGE

/-- The conversion of a number to `float`. -/
@[irreducible] def to_float (a : ℚ) : ℚ := if 0 ≤ a then round_mag a else - round_mag (-a)

/-- The `float` subtraction `a - b`.  The operands are `float` values; `∞ - ∞`, which is
NaN, is represented by `+∞`. -/
@[irreducible] def fsub (a b : ℚ) : ℚ :=
  if FLT_HUGE ≤ a then FLT_HUGE
  else if b ≤ -FLT_HUGE then FLT_HUGE
  else if a ≤ -FLT_HUGE then -FLT_HUGE
  else if FLT_HUGE ≤ b then -FLT_HUGE
  else to_float (a - b)

/-- The `float` multiplication `a * b`.  The searches only multiply a value by itself, so
`0 * ∞` does not occur. -/
@[irreducible] def fmul (a b : ℚ) : ℚ :=
  if FLT_HUGE ≤ |a| ∨ FLT_HUGE ≤ |b| then (if a * b < 0 then -FLT_HUGE else FLT_HUGE)
  else to_float (a * b)

/-- The `float` addition `a + b`.  The searches only add two squares, so `∞ + (-∞)` does not
occur. -/
@[irreducible] def fadd (a b : ℚ) : ℚ :=
  if FLT_HUGE ≤ a ∨ FLT_HUGE ≤ b then FLT_HUGE
  else if a ≤ -FLT_HUGE ∨ b ≤ -FLT_HUGE then -FLT_HUGE
  else to_float (a + b)

/-! ## Builder -/

/-- Comparator `comparex`. -/
def comparex (pa pb : kdtree_node) : Int :=
  if pa.x < pb.x then -1 else if pa.x > pb.x then 1 else 0

/-- Comparator `comparey`. -/
def comparey (pa pb : kdtree_node) : Int :=
  if pa.y < pb.y then -1 else if pa.y > pb.y then 1 else 0

/-- A comparator is a consistent ordering when `≤` derived from it is total and transitive. -/
def Consistent (compar : kdtree_node → kdtree_node → Int) : Prop :=
  (∀ a b, compar a b ≤ 0 ∨ compar b a ≤ 0) ∧
  (∀ a b c, compar a b ≤ 0 → compar b c ≤ 0 → compar a c ≤ 0)

/-- The contract of the C library's `qsort` on an array of nodes: the result is a
rearrangement of the input, in ascending order of the comparator.  The order of elements
that compare equal is left to the implementation. -/
structure Qsort where
  sort : (kdtree_node → kdtree_node → Int) → List kdtree_node → List kdtree_node
  perm : ∀ compar l, List.Perm (sort compar l) l
  sorted : ∀ compar l, Consistent compar →
    List.Pairwise (fun a b => compar a b ≤ 0) (sort compar l)

/-- The call `qsort(nodes + min, n, sizeof(struct kdtree_node), compar)`. -/
def qsort_range (q : Qsort) (nodes : List kdtree_node) (min n : Nat)
    (compar : kdtree_node → kdtree_node → Int) : Except Err (List kdtree_node) :=
  if min + n ≤ nodes.length then
    .ok (nodes.take min ++ q.sort compar ((nodes.drop min).take n) ++ nodes.drop (min + n))
  else .error .outOfBounds

/-- The assignment `(nodes + i)->left = v`. -/
def set_left (nodes : List kdtree_node) (i : Nat) (v : Int) : Except Err (List kdtree_node) :=
  match nodes[i]? with
  | some n => .ok (nodes.set i { n with left := v })
  | none => .error .outOfBounds

/-- The assignment `(nodes + i)->right = v`. -/
def set_right (nodes : List kdtree_node) (i : Nat) (v : Int) : Except Err (List kdtree_node) :=
  match nodes[i]? with
  | some n => .ok (nodes.set i { n with right := v })
  | none => .error .outOfBounds

/-- The recursive helper `kdtree_build(kdtreep, min, max, depth)`: returns the updated node
store together with the index of the subtree's root (`-1` for an empty range). -/
def kdtree_build (q : Qsort) :
    Nat → List kdtree_node → Nat → Nat → Nat → Except Err (List kdtree_node × Int)
  | 0, _, _, _, _ => .error .outOfFuel
  | fuel + 1, nodes, min, max, depth =>
    if max ≤ min then .ok (nodes, -1)
    else
      let compar := if depth % 2 ≠ 0 then comparex else comparey
      match qsort_range q nodes min (max - min) compar with
      | .error e => .error e
      | .ok nodes1 =>
        if INT_MAX < ((min + max : Nat) : Int) then .error .intOverflow
        else
          let median := (min + max) / 2
          match kdtree_build q fuel nodes1 min median (depth + 1) with
          | .error e => .error e
          | .ok (nodes2, l) =>
            match set_left nodes2 median l with
            | .error e => .error e
            | .ok nodes3 =>
              match kdtree_build q fuel nodes3 (median + 1) max (depth + 1) with
              | .error e => .error e
              | .ok (nodes4, r) =>
                match set_right nodes4 median r with
                | .error e => .error e
                | .ok nodes5 => .ok (nodes5, (median : Int))

/-- A caller-supplied point `[x, y, id]`. -/
structure Point where
  x : ℚ
  y : ℚ
  id : Int
deriving DecidableEq

/-- The three stores `n->x = NUM2DBL(..)`, `n->y = NUM2DBL(..)`, `n->id = NUM2INT(..)` into
the slot that held `old`: the `double` coordinates are converted to `float`, the links keep
what the slot held.  A point `p` carries the `double`s returned by `NUM2DBL` and the integer
handed to `NUM2INT`. -/
def store_point (old : kdtree_node) (p : Point) : kdtree_node :=
  { old with x := to_float p.x, y := to_float p.y, id := p.id }

/-- The loop of `kdtree_initialize` over the Ruby array: slot `i` receives the `i`-th entry
when that entry is an array of length 3 (`some p`), and keeps whatever the fresh allocation
held when the entry is skipped by `continue` (`none`).  `NUM2INT` raises `RangeError` for
an id outside the range of `int`.  The links are not written here. -/
def fill_nodes (mem : Nat → kdtree_node) :
    Nat → List (Option Point) → Except Err (List kdtree_node)
  | _, [] => .ok []
  | i, some p :: rest =>
    if p.id < -INT_MAX - 1 ∨ INT_MAX < p.id then .error .rangeError
    else
      match fill_nodes mem (i + 1) rest with
      | .error e => .error e
      | .ok nodes => .ok (store_point (mem i) p :: nodes)
  | i, none :: rest =>
    match fill_nodes mem (i + 1) rest with
    | .error e => .error e
    | .ok nodes => .ok (mem i :: nodes)

/-- The array branch of `kdtree_initialize`: `len` is the length of the Ruby array (which
has to fit `int len`), the nodes are filled in input order and `root` is the result of
`kdtree_build(kdtreep, 0, len, 0)`.  The recursion budget `len + 1` is always enough (see
`kdtree_build_spec`). -/
def kdtree_initialize_array (q : Qsort) (mem : Nat → kdtree_node)
    (points : List (Option Point)) : Except Err kdtree_data :=
  if INT_MAX < (points.length : Int) then .error .intOverflow
  else
    match fill_nodes mem 0 points with
    | .error e => .error e
    | .ok nodes =>
      match kdtree_build q (points.length + 1) nodes 0 points.length 0 with
      | .error e => .error e
      | .ok (nodes1, root) => .ok { root := root, len := points.length, nodes := nodes1 }

/-! ## Nearest-neighbour search -/

/-- The recursive helper `kdtree_nearest0`; `x` and `y` are its `float` parameters and the
pair is `(*n_index, *n_dist)`. -/
def kdtree_nearest0 (nodes : List kdtree_node) (x y : ℚ) :
    Nat → Int → Nat → Int × ℚ → Except Err (Int × ℚ)
  | 0, _, _, _ => .error .outOfFuel
  | fuel + 1, i, depth, best =>
    if i = -1 then .ok best
    else
      match node_at nodes i with
      | .error e => .error e
      | .ok n =>
        let ad := if depth % 2 ≠ 0 then fsub x n.x else fsub y n.y
        let near := if ad ≤ 0 then n.left else n.right
        let far := if ad ≤ 0 then n.right else n.left
        match kdtree_nearest0 nodes x y fuel near (depth + 1) best with
        | .error e => .error e
        | .ok best1 =>
          match (if fmul ad ad < best1.2 then
                   kdtree_nearest0 nodes x y fuel far (depth + 1) best1
                 else .ok best1) with
          | .error e => .error e
          | .ok best2 =>
            let dx := fmul (fsub x n.x) (fsub x n.x)
            if dx < best2.2 then
              let d := fadd dx (fmul (fsub y n.y) (fsub y n.y))
              if d < best2.2 then .ok (i, d) else .ok best2
            else .ok best2

/-- The method `kdtree_nearest`: `-1` when nothing was found, else the `id` of the best node.
The arguments `x` and `y` are the `double`s returned by `NUM2DBL`; they are converted to
`float` on the call of `kdtree_nearest0`, and `n_dist` starts at `(float)INT_MAX`. -/
def kdtree_nearest (fuel : Nat) (t : kdtree_data) (x y : ℚ) : Except Err Int :=
  match kdtree_nearest0 t.nodes (to_float x) (to_float y) fuel t.root 0
      (-1, to_float (INT_MAX : ℚ)) with
  | .error e => .error e
  | .ok (n_index, _) =>
    if n_index = -1 then .ok (-1)
    else
      match node_at t.nodes n_index with
      | .error e => .error e
      | .ok n => .ok n.id

/-! ## K-nearest search -/

/-- The slot `k_list + i` of the live part of the result buffer. -/
def result_at (k_list : List kresult) (i : Int) : Except Err kresult :=
  if 0 ≤ i then
    match k_list[i.toNat]? with
    | some r => .ok r
    | none => .error .bufferOverflow
  else .error .bufferOverflow

/-- The loop `while (lo < hi)` of `kdtree_nearestk0`, which looks for the spot to insert a
candidate of squared distance `d`. -/
def find_spot (k_list : List kresult) (d : ℚ) : Nat → Nat → Nat → Except Err Nat
  | 0, _, _ => .error .outOfFuel
  | fuel + 1, lo, hi =>
    if lo < hi then
      let mid := (lo + hi) / 2
      match k_list[mid]? with
      | none => .error .bufferOverflow
      | some r =>
        if r.distance < d then find_spot k_list d fuel (mid + 1) hi
        else find_spot k_list d fuel lo mid
    else .ok lo

/-- The body of `if (d < *k_dist)` in `kdtree_nearestk0`.  The list `k_list` holds the
slots `0 .. *k_len - 1` of the buffer, so `*k_len` is its length; `cap` is the number of
slots of the array the caller passed.  The `memmove` and the two stores leave slots
`0 .. *k_len` filled, which needs `*k_len < cap`; afterwards either `*k_len` grows by one,
or it stays and slot `*k_len` is dead again and `*k_dist` is reloaded from slot `k - 1`. -/
def insert_result (k : Int) (cap : Nat) (k_list : List kresult) (k_dist : ℚ) (i : Int)
    (d : ℚ) : Except Err (List kresult × ℚ) :=
  match find_spot k_list d (k_list.length + 1) 0 k_list.length with
  | .error e => .error e
  | .ok lo =>
    if k_list.length < cap then
      let k_list1 := k_list.take lo ++ { index := i, distance := d } :: k_list.drop lo
      if (k_list.length : Int) < k then .ok (k_list1, k_dist)
      else
        match result_at k_list1 (k - 1) with
        | .error e => .error e
        | .ok r => .ok (k_list1.take k_list.length, r.distance)
    else .error .bufferOverflow

/-- The recursive helper `kdtree_nearestk0`; `x` and `y` are its `float` parameters and the
pair is (`k_list[0 .. *k_len)`, `*k_dist`). -/
def kdtree_nearestk0 (nodes : List kdtree_node) (x y : ℚ) (k : Int) (cap : Nat) :
    Nat → Int → Nat → List kresult × ℚ → Except Err (List kresult × ℚ)
  | 0, _, _, _ => .error .outOfFuel
  | fuel + 1, i, depth, st =>
    if i = -1 then .ok st
    else
      match node_at nodes i with
      | .error e => .error e
      | .ok n =>
        let ad := if depth % 2 ≠ 0 then fsub x n.x else fsub y n.y
        let near := if ad ≤ 0 then n.left else n.right
        let far := if ad ≤ 0 then n.right else n.left
        match kdtree_nearestk0 nodes x y k cap fuel near (depth + 1) st with
        | .error e => .error e
        | .ok st1 =>
          match (if fmul ad ad < st1.2 then
                   kdtree_nearestk0 nodes x y k cap fuel far (depth + 1) st1
                 else .ok st1) with
          | .error e => .error e
          | .ok st2 =>
            let dx := fmul (fsub x n.x) (fsub x n.x)
            if dx < st2.2 then
              let d := fadd dx (fmul (fsub y n.y) (fsub y n.y))
              if d < st2.2 then insert_result k cap st2.1 st2.2 i d else .ok st2
            else .ok st2

/-- The clamping of `ki` at the start of `kdtree_nearestk`. -/
def clamp_k (k : Int) : Int :=
  if k < 1 then 1 else if k > MAX_K then MAX_K else k

/-- The first half of `kdtree_nearestk`: clamp `k` and run the traversal from the root on an
empty buffer of `MAX_K + 1` slots; the result is the live part of the buffer.  The arguments
`x` and `y` are the `double`s returned by `NUM2DBL`; they are converted to `float` on the
call of `kdtree_nearestk0`, and `k_dist` starts at `(float)INT_MAX`. -/
def kdtree_nearestk_list (fuel : Nat) (t : kdtree_data) (x y : ℚ) (k : Int) :
    Except Err (List kresult) :=
  match kdtree_nearestk0 t.nodes (to_float x) (to_float y) (clamp_k k) (MAX_K + 1).toNat fuel
      t.root 0 ([], to_float (INT_MAX : ℚ)) with
  | .error e => .error e
  | .ok (k_list, _) => .ok k_list

/-- The loop that converts the result buffer to a Ruby array of ids. -/
def result_ids (nodes : List kdtree_node) : List kresult → Except Err (List Int)
  | [] => .ok []
  | r :: rest =>
    match node_at nodes r.index with
    | .error e => .error e
    | .ok n =>
      match result_ids nodes rest with
      | .error e => .error e
      | .ok ids => .ok (n.id :: ids)

/-- The method `kdtree_nearestk`; `k` is the value of `NUM2INT(k)`. -/
def kdtree_nearestk (fuel : Nat) (t : kdtree_data) (x y : ℚ) (k : Int) :
    Except Err (List Int) :=
  match kdtree_nearestk_list fuel t x y k with
  | .error e => .error e
  | .ok k_list => result_ids t.nodes k_list

/-! ## Codec -/

/-- A byte of a stream. -/
abbrev Byte := Fin 256

/-- The four bytes of `KDTREE_MAGIC`, the string "KdTr". -/
def KDTREE_MAGIC : List Byte := [75, 100, 84, 114]

/-- The native object representation of the two scalar types stored in the structs: how an
`int` and a `float` are laid out in 4 bytes of memory, and how 4 bytes are read back.
Every 32-bit `int` is read back as itself. -/
structure Layout where
  int_bytes : Int → List Byte
  int_value : List Byte → Int
  float_bytes : ℚ → List Byte
  float_value : List Byte → ℚ
  int_bytes_length : ∀ v, (int_bytes v).length = 4
  float_bytes_length : ∀ v, (float_bytes v).length = 4
  int_value_bytes : ∀ v, -2147483648 ≤ v → v ≤ 2147483647 → int_value (int_bytes v) = v

/-- Conversion of a `size_t` byte count to the `int len` parameter of `read_all` and
`write_all`: the value is reduced modulo 2^32 into the range of a 32-bit `int`. -/
def to_int (v : Int) : Int :=
  (v + 2147483648) % 4294967296 - 2147483648

/-- The helper `read_all(io, buf, len)` on the unread rest `io` of the stream: `IO#read`
rejects a negative length, and a result that is `nil` or shorter than `len` raises
`EOFError`.  Returns the bytes copied to `buf` and the rest of the stream. -/
def read_all (io : List Byte) (len : Int) : Except Err (List Byte × List Byte) :=
  if len < 0 then .error .negativeSize
  else if io.length < len.toNat then .error .endOfFile
  else .ok (io.take len.toNat, io.drop len.toNat)

/-- The helper `write_all(io, buf, len)`: appends the first `len` bytes of the memory at
`buf` to the stream; `rb_str_new` rejects a negative length. -/
def write_all (io : List Byte) (buf : List Byte) (len : Int) : Except Err (List Byte) :=
  if len < 0 then .error .negativeSize
  else if buf.length < len.toNat then .error .outOfBounds
  else .ok (io ++ buf.take len.toNat)

/-- The 20 bytes of one `struct kdtree_node` in memory: `x`, `y`, `id`, `left`, `right`. -/
def node_bytes (L : Layout) (n : kdtree_node) : List Byte :=
  L.float_bytes n.x ++ L.float_bytes n.y ++ L.int_bytes n.id ++ L.int_bytes n.left ++
    L.int_bytes n.right

/-- The memory of the node array. -/
def nodes_bytes (L : Layout) : List kdtree_node → List Byte
  | [] => []
  | n :: rest => node_bytes L n ++ nodes_bytes L rest

/-- The node held by 20 bytes of memory. -/
def node_of_bytes (L : Layout) (b : List Byte) : kdtree_node :=
  { x := L.float_value (b.take 4)
    y := L.float_value ((b.drop 4).take 4)
    id := L.int_value ((b.drop 8).take 4)
    left := L.int_value ((b.drop 12).take 4)
    right := L.int_value ((b.drop 16).take 4) }

/-- The `len` nodes held by `20 * len` bytes of memory. -/
def nodes_of_bytes (L : Layout) : Nat → List Byte → List kdtree_node
  | 0, _ => []
  | len + 1, b => node_of_bytes L (b.take 20) :: nodes_of_bytes L len (b.drop 20)

/-- The method `kdtree_persist`: the tag, then the first 8 bytes of `struct kdtree_data`
(`root` and `len`), then `sizeof(struct kdtree_node) * len` bytes of the node array, the
count being converted to `int`.  Returns the stream after the writes. -/
def kdtree_persist (L : Layout) (t : kdtree_data) (io : List Byte) : Except Err (List Byte) :=
  match write_all io KDTREE_MAGIC 4 with
  | .error e => .error e
  | .ok io1 =>
    match write_all io1 (L.int_bytes t.root ++ L.int_bytes t.len) 8 with
    | .error e => .error e
    | .ok io2 => write_all io2 (nodes_bytes L t.nodes) (to_int (20 * t.len))

/-- The stream branch of `kdtree_initialize`.  `junk i` is the byte that the fresh
allocation of the node array holds at offset `i`; it survives wherever `read_all` copies
fewer bytes than the array has. -/
def kdtree_initialize_io (L : Layout) (junk : Nat → Byte) (io : List Byte) :
    Except Err kdtree_data :=
  match read_all io 4 with
  | .error e => .error e
  | .ok (buf, io1) =>
    if KDTREE_MAGIC ≠ buf then .error .badMagic
    else
      match read_all io1 8 with
      | .error e => .error e
      | .ok (hdr, io2) =>
        let root := L.int_value (hdr.take 4)
        let len := L.int_value (hdr.drop 4)
        if len < 0 then .error .negativeSize
        else
          match read_all io2 (to_int (20 * len)) with
          | .error e => .error e
          | .ok (raw, _) =>
            let fresh := (List.range (20 * len.toNat)).map junk
            .ok { root := root, len := len,
                  nodes := nodes_of_bytes L len.toNat (raw ++ fresh.drop raw.length) }

/-- The argument of `Kdtree.new`: a Ruby array, an object that responds to `read` (given
by the bytes it yields), or anything else. -/
inductive InitArg where
  | array (points : List (Option Point))
  | io (bytes : List Byte)
  | other

/-- The method `kdtree_initialize`. -/
def kdtree_initialize (q : Qsort) (L : Layout) (mem : Nat → kdtree_node) (junk : Nat → Byte) :
    InitArg → Except Err kdtree_data
  | .array points => kdtree_initialize_array q mem points
  | .io bytes => kdtree_initialize_io L junk bytes
  | .other => .error .typeError

/-! ## Reference notions used to state the properties -/

/-- Squared Euclidean distance from the query `(x, y)` to a node, exactly. -/
def dist2 (x y : ℚ) (n : kdtree_node) : ℚ :=
  (x - n.x) * (x - n.x) + (y - n.y) * (y - n.y)

/-- Squared distance from the `float` query `(x, y)` to a node as the searches compute it:
`dx + (y - n->y) * (y - n->y)` with `dx = (x - n->x) * (x - n->x)`, in `float` arithmetic. -/
def fdist2 (x y : ℚ) (n : kdtree_node) : ℚ :=
  fadd (fmul (fsub x n.x) (fsub x n.x)) (fmul (fsub y n.y) (fsub y n.y))

/-- A point as the node store holds it: the coordinates converted to `float`. -/
def stored (p : Point) : Point :=
  { x := to_float p.x, y := to_float p.y, id := p.id }

/-- The node store after the loop of `kdtree_initialize`, when no id is out of range. -/
def filled (mem : Nat → kdtree_node) : Nat → List (Option Point) → List kdtree_node
  | _, [] => []
  | i, some p :: rest => store_point (mem i) p :: filled mem (i + 1) rest
  | i, none :: rest => mem i :: filled mem (i + 1) rest

/-- Squared Euclidean distance from the query `(x, y)` to an input point, exactly. -/
def point_dist2 (x y : ℚ) (p : Point) : ℚ :=
  (x - p.x) * (x - p.x) + (y - p.y) * (y - p.y)

/-- Squared distance from the `float` query `(x, y)` to a point as the searches compute it,
in `float` arithmetic. -/
def point_fdist2 (x y : ℚ) (p : Point) : ℚ :=
  fadd (fmul (fsub x p.x) (fsub x p.x)) (fmul (fsub y p.y) (fsub y p.y))

/-- Decides whether every id of an input array fits `int`. -/
def ids_fit (points : List (Option Point)) : Bool :=
  points.all (fun o =>
    match o with
    | some p => decide (-2147483648 ≤ p.id ∧ p.id ≤ 2147483647)
    | none => true)

/-- The coordinate a node at depth `depth` splits on: `x` at odd depth, `y` at even depth
(`compar = (depth % 2) ? comparex : comparey`). -/
def split_coord (depth : Nat) (n : kdtree_node) : ℚ :=
  if depth % 2 ≠ 0 then n.x else n.y

/-- The comparator chosen by `kdtree_build` at depth `depth`. -/
def depth_compar (depth : Nat) : kdtree_node → kdtree_node → Int :=
  if depth % 2 ≠ 0 then comparex else comparey

/-- The index reached from link `i` by following `path` (`false` = `left`, `true` = `right`);
`none` when the walk meets `-1` or leaves the node store. -/
def descend (nodes : List kdtree_node) : Int → List Bool → Option Nat
  | i, [] =>
    match node_at nodes i with
    | .ok _ => some i.toNat
    | .error _ => none
  | i, b :: path =>
    match node_at nodes i with
    | .ok n => descend nodes (if b then n.right else n.left) path
    | .error _ => none

/-- The caller-visible part of a node: coordinates and id, without the links. -/
def payload (n : kdtree_node) : Point :=
  { x := n.x, y := n.y, id := n.id }

/-- The slots `min .. max - 1` of a node store. -/
def slice (nodes : List kdtree_node) (min max : Nat) : List kdtree_node :=
  (nodes.drop min).take (max - min)

/-- The number of nodes of the subtree that hangs from link `i` (`-1` is the empty subtree),
counted along the links with a recursion budget. -/
def tree_size (nodes : List kdtree_node) : Nat → Int → Nat
  | 0, _ => 0
  | fuel + 1, i =>
    match node_at nodes i with
    | .error _ => 0
    | .ok n => tree_size nodes fuel n.left + 1 + tree_size nodes fuel n.right

/-- The height of the subtree that hangs from link `i`: the number of nodes on its longest
walk (`0` for the empty subtree), measured along the links with a recursion budget. -/
def tree_height (nodes : List kdtree_node) : Nat → Int → Nat
  | 0, _ => 0
  | fuel + 1, i =>
    match node_at nodes i with
    | .error _ => 0
    | .ok n => max (tree_height nodes fuel n.left) (tree_height nodes fuel n.right) + 1

/-- The shape `kdtree_build` leaves in the slots `min .. max - 1`: `root` is `-1` for an
empty range and the median slot otherwise, the median splits the range on the coordinate
of its depth, and its links are the roots of the two half ranges. -/
inductive Built (nodes : List kdtree_node) : Nat → Nat → Nat → Int → Prop
  | empty (min max depth : Nat) (h : max ≤ min) : Built nodes min max depth (-1)
  | node (min max depth : Nat) (n : kdtree_node) (h : min < max)
      (hn : nodes[(min + max) / 2]? = some n)
      (hl : Built nodes min ((min + max) / 2) (depth + 1) n.left)
      (hr : Built nodes ((min + max) / 2 + 1) max (depth + 1) n.right)
      (hlo : ∀ j m, min ≤ j → j < (min + max) / 2 → nodes[j]? = some m →
        split_coord depth m ≤ split_coord depth n)
      (hhi : ∀ j m, (min + max) / 2 < j → j < max → nodes[j]? = some m →
        split_coord depth n ≤ split_coord depth m) :
      Built nodes min max depth (((min + max) / 2 : Nat) : Int)

/-! ## Invariants and postconditions used in the proofs -/

/-- What one call of `kdtree_build` on the range `min .. max - 1` does to the node store:
the store keeps its length, slots outside the range are untouched, the range holds the
same coordinates and ids as before (links aside), and the range has the built shape. -/
structure BuildPost (nodes nodes1 : List kdtree_node) (min max depth : Nat) (root : Int) :
    Prop where
  length_eq : nodes1.length = nodes.length
  frame : ∀ j, j < min ∨ max ≤ j → nodes1[j]? = nodes[j]?
  perm : List.Perm ((slice nodes1 min max).map payload) ((slice nodes min max).map payload)
  built : Built nodes1 min max depth root

/-- What a visit of the slots selected by `S` does to the running best `(n_index, n_dist)`
of `kdtree_nearest0`: the distance never grows, it ends no larger than the computed squared
distance of any visited slot, and the pair is either unchanged or names a visited slot
together with its computed squared distance, which was strictly below the distance on
entry. -/
def NearestPost (nodes : List kdtree_node) (x y : ℚ) (S : Nat → Prop) (best best1 : Int × ℚ) :
    Prop :=
  best1.2 ≤ best.2 ∧
  (∀ j m, S j → nodes[j]? = some m → best1.2 ≤ fdist2 x y m) ∧
  (best1 = best ∨
    ∃ j m, S j ∧ nodes[j]? = some m ∧ best1 = ((j : Int), fdist2 x y m) ∧ fdist2 x y m < best.2)

/-- The result buffer is in order: squared distances never decrease from slot to slot. -/
def SortedResults (k_list : List kresult) : Prop :=
  List.Pairwise (fun a b : kresult => a.distance ≤ b.distance) k_list

/-- The state `(k_list[0 .. *k_len), *k_dist)` that `kdtree_nearestk0` maintains for a
request of `k` results: at most `k` live slots, in ascending order of distance, each
naming a slot of the node store together with that node's computed squared distance to the
query. -/
structure KInv (nodes : List kdtree_node) (x y : ℚ) (k : Int) (st : List kresult × ℚ) :
    Prop where
  len_le : (st.1.length : Int) ≤ k
  sorted : SortedResults st.1
  entries : ∀ r ∈ st.1, ∃ (j : Nat) (n : kdtree_node),
    r.index = (j : Int) ∧ nodes[j]? = some n ∧ r.distance = fdist2 x y n

/-- The threshold side of the k-nearest state `(k_list[0 .. *k_len), *k_dist)`: every live
slot is within the threshold and below `(float)INT_MAX`, the threshold never exceeds
`(float)INT_MAX`, and it still is `(float)INT_MAX` while fewer than `k` slots are live. -/
structure KBound (k : Int) (st : List kresult × ℚ) : Prop where
  within : ∀ r ∈ st.1, r.distance ≤ st.2
  below_max : ∀ r ∈ st.1, r.distance < to_float (INT_MAX : ℚ)
  le_max : st.2 ≤ to_float (INT_MAX : ℚ)
  unfilled : (st.1.length : Int) < k → st.2 = to_float (INT_MAX : ℚ)

/-- What a visit of the slots selected by `S` does to the k-nearest state: the threshold
never grows; every visited node is in the buffer or no closer than the threshold; every
earlier entry is still in the buffer or no closer than the threshold; every entry is an
earlier one or a visited node with its squared distance; and no slot is entered twice. -/
structure KPost (nodes : List kdtree_node) (x y : ℚ) (S : Nat → Prop)
    (st st1 : List kresult × ℚ) : Prop where
  dist_le : st1.2 ≤ st.2
  seen : ∀ j n, S j → nodes[j]? = some n →
    ({ index := (j : Int), distance := fdist2 x y n } : kresult) ∈ st1.1 ∨ st1.2 ≤ fdist2 x y n
  kept : ∀ r ∈ st.1, r ∈ st1.1 ∨ st1.2 ≤ r.distance
  source : ∀ r ∈ st1.1, r ∈ st.1 ∨
    ∃ j n, S j ∧ nodes[j]? = some n ∧ r = { index := (j : Int), distance := fdist2 x y n }
  nodup : (∀ r ∈ st.1, ∀ j, S j → r.index ≠ (j : Int)) →
    (st.1.map kresult.index).Nodup → (st1.1.map kresult.index).Nodup

/-- A value that fits a 32-bit `int`. -/
def IsInt32 (v : Int) : Prop :=
  -2147483648 ≤ v ∧ v ≤ 2147483647

/-- A node whose fields are values of their C types: the coordinates are values of the
machine's `float` format (they survive a trip through memory) and the integers fit `int`. -/
def StorableNode (L : Layout) (n : kdtree_node) : Prop :=
  L.float_value (L.float_bytes n.x) = n.x ∧ L.float_value (L.float_bytes n.y) = n.y ∧
  IsInt32 n.id ∧ IsInt32 n.left ∧ IsInt32 n.right

/-- An index as the C struct can hold it: `len` counts the allocated nodes and every field
is a value of its C type. -/
def StorableIndex (L : Layout) (t : kdtree_data) : Prop :=
  t.len = (t.nodes.length : Int) ∧ IsInt32 t.root ∧ IsInt32 t.len ∧
  ∀ n ∈ t.nodes, StorableNode L n

/-! ## Reference instances and concrete inputs -/

instance instDecidableEqExcept {ε α : Type} [DecidableEq ε] [DecidableEq α] :
    DecidableEq (Except ε α)
  | .ok a, .ok b =>
    if h : a = b then isTrue (by rw [h]) else isFalse (fun h2 => h (Except.ok.inj h2))
  | .error a, .error b =>
    if h : a = b then isTrue (by rw [h]) else isFalse (fun h2 => h (Except.error.inj h2))
  | .ok _, .error _ => isFalse (fun h => by cases h)
  | .error _, .ok _ => isFalse (fun h => by cases h)

/-- A reference implementation of the `qsort` contract (insertion sort), used to run the
model on concrete inputs. -/
def insertion_qsort : Qsort where
  sort := fun compar l => List.insertionSort (fun a b => compar a b ≤ 0) l
  perm := fun compar l => List.perm_insertionSort _ l
  sorted := fun compar l h => by
    haveI : IsTotal kdtree_node (fun a b => compar a b ≤ 0) := ⟨h.1⟩
    haveI : IsTrans kdtree_node (fun a b => compar a b ≤ 0) := ⟨h.2⟩
    exact List.sorted_insertionSort _ l

/-- A fresh allocation whose slots all hold zeroes. -/
def zero_mem : Nat → kdtree_node := fun _ => ⟨0, 0, 0, 0, 0⟩

/-- A fresh allocation of bytes that all hold zero. -/
def zero_junk : Nat → Byte := fun _ => 0

/-- The bytes of a 32-bit `int` on a little-endian two's complement machine. -/
def le_int_bytes (v : Int) : List Byte :=
  let u := (v % 4294967296).toNat
  [Fin.ofNat u, Fin.ofNat (u / 256), Fin.ofNat (u / 65536), Fin.ofNat (u / 16777216)]

/-- The 32-bit `int` held by 4 little-endian two's complement bytes. -/
def le_int_value (b : List Byte) : Int :=
  let u : Nat := (b.getD 0 0).val + 256 * (b.getD 1 0).val + 65536 * (b.getD 2 0).val +
    16777216 * (b.getD 3 0).val
  if u < 2147483648 then (u : Int) else (u : Int) - 4294967296

/-- A reference layout used to run the codec on concrete inputs: little-endian two's
complement `int`s.  The `float` format of the machine is not modelled; the stand-in stores
the integral part of the value as an `int`. -/
def le_layout : Layout where
  int_bytes := le_int_bytes
  int_value := le_int_value
  float_bytes := fun v => le_int_bytes ⌊v⌋
  float_value := fun b => (le_int_value b : ℚ)
  int_bytes_length := fun _ => rfl
  float_bytes_length := fun _ => rfl
  int_value_bytes := fun v h1 h2 => by
    simp only [le_int_bytes, le_int_value, List.getD_cons_zero, List.getD_cons_succ,
      Fin.ofNat, List.getD_eq_getElem?_getD]
    simp only [List.getElem?_cons_zero, List.getElem?_cons_succ, Option.getD_some]
    split_ifs <;> omega

/-- The three points of the example in the class documentation. -/
def doc_points : List (Option Point) :=
  [some ⟨47.6, -122.3, 1⟩, some ⟨45.5, -122.8, 2⟩, some ⟨40.7, -74.0, 3⟩]

/-- The index that `kdtree_initialize_array` builds from `doc_points` (with the reference
sort): sorted on `y`, the median (id 1) is the root and the other two are its leaves. -/
def doc_index : kdtree_data :=
  { root := 1, len := 3,
    nodes := [⟨to_float 45.5, to_float (-122.8), 2, -1, -1⟩,
      ⟨to_float 47.6, to_float (-122.3), 1, 0, 2⟩, ⟨to_float 40.7, to_float (-74.0), 3, -1, -1⟩] }

/-- A small index with integral coordinates, as the stand-in `float` format of `le_layout`
stores them exactly. -/
def small_index : kdtree_data :=
  { root := 1, len := 3,
    nodes := [⟨45, -122, 2, -1, -1⟩, ⟨47, -121, 1, 0, 2⟩, ⟨40, -74, 3, -1, -1⟩] }

/-- A fresh allocation whose slots all hold the left-over record `(1, 1, 99)`. -/
def stale_mem : Nat → kdtree_node := fun _ => ⟨1, 1, 99, 0, 0⟩

/-- An input array with one well-formed point followed by a 2-element entry. -/
def mixed_points : List (Option Point) := [some ⟨0, 0, 1⟩, none]

/-- A 32-byte stream with the tag, `root = 0`, `len = 1` and one node `(0, 0, id 7)` whose
`left` and `right` links both name the node itself. -/
def cyclic_stream : List Byte :=
  [75, 100, 84, 114, 0, 0, 0, 0, 1, 0, 0, 0,
   0, 0, 0, 0, 0, 0, 0, 0, 7, 0, 0, 0, 0, 0, 0, 0, 0, 0, 0, 0]

/-- A 12-byte stream with the tag, `root = 5` and `len = 0`. -/
def dangling_stream : List Byte :=
  [75, 100, 84, 114, 5, 0, 0, 0, 0, 0, 0, 0]

/-- Three points with integral coordinates; they build `small_index`. -/
def small_points : List (Option Point) :=
  [some ⟨47, -121, 1⟩, some ⟨45, -122, 2⟩, some ⟨40, -74, 3⟩]

/-- Two points that differ in `y`. -/
def two_points : List (Option Point) := [some ⟨0, 1, 1⟩, some ⟨0, 2, 2⟩]

/-- Two points at the same distance from the origin. -/
def tie_points : List (Option Point) := [some ⟨0, 1, 1⟩, some ⟨0, -1, 2⟩]

/-- The index that `kdtree_initialize_array` builds from `tie_points`. -/
def tie_index : kdtree_data :=
  { root := 1, len := 2, nodes := [⟨0, -1, 2, -1, -1⟩, ⟨0, 1, 1, 0, -1⟩] }

/-! ## Theorems: single-precision arithmetic -/

theorem bit_length_zero (fuel : Nat) : bit_length fuel 0 = 0 := by
  cases fuel <;> simp [bit_length]

theorem bit_length_spec : ∀ (fuel n : Nat), n ≤ fuel → 0 < n →
    2 ^ (bit_length fuel n - 1) ≤ n ∧ n < 2 ^ bit_length fuel n ∧ 0 < bit_length fuel n := by
  intro fuel
  induction fuel with
  | zero => intro n h1 h2; omega
  | succ fuel ih =>
    intro n h1 h2
    have hn : n ≠ 0 := by omega
    simp only [bit_length, if_neg hn, Nat.add_sub_cancel]
    by_cases h : n / 2 = 0
    · rw [h, bit_length_zero]
      have : n = 1 := by omega
      subst this
      simp
    · obtain ⟨a, b, c⟩ := ih (n / 2) (by omega) (by omega)
      refine ⟨?_, ?_, by omega⟩
      · have e : 2 ^ bit_length fuel (n / 2) = 2 ^ (bit_length fuel (n / 2) - 1) * 2 := by
          rw [← pow_succ]
          congr 1
          omega
        rw [e]
        omega
      · rw [pow_succ]
        omega

theorem log_two_eq (a : ℚ) (ha : 0 < a) (e : ℤ) (h1 : (2 : ℚ) ^ e ≤ a)
    (h2 : a < (2 : ℚ) ^ (e + 1)) : Int.log 2 a = e := by
  have c : ((2 : ℕ) : ℚ) = 2 := by norm_num
  apply le_antisymm
  · have := (Int.lt_zpow_iff_log_lt (R := ℚ) (b := 2) (by norm_num) ha).mp (by rw [c]; exact h2)
    omega
  · exact (Int.zpow_le_iff_le_log (R := ℚ) (b := 2) (by norm_num) ha).mp (by rw [c]; exact h1)

theorem float_exp_eq_log (a : ℚ) (ha : 0 < a) : float_exp a = Int.log 2 a := by
  have hnum : 0 < a.num := Rat.num_pos.mpr ha
  obtain ⟨n, hn⟩ : ∃ n : ℕ, a.num = (n : ℤ) := ⟨a.num.natAbs, by omega⟩
  have hn0 : 0 < n := by omega
  have hna : a.num.natAbs = n := by omega
  obtain ⟨n1, n2, n3⟩ := bit_length_spec n n le_rfl hn0
  obtain ⟨d1, d2, d3⟩ := bit_length_spec a.den a.den le_rfl a.den_pos
  have hval : a = (n : ℚ) / (a.den : ℚ) := by
    have := (Rat.num_div_den a).symm
    rw [hn, Int.cast_natCast] at this
    exact this
  have hden : (0 : ℚ) < a.den := by exact_mod_cast a.den_pos
  -- bounds in ℚ
  have q1 : ((2 : ℚ) ^ (bit_length n n - 1)) ≤ n := by exact_mod_cast n1
  have q2 : (n : ℚ) < (2 : ℚ) ^ (bit_length n n) := by exact_mod_cast n2
  have q3 : ((2 : ℚ) ^ (bit_length a.den a.den - 1)) ≤ a.den := by exact_mod_cast d1
  have q4 : (a.den : ℚ) < (2 : ℚ) ^ (bit_length a.den a.den) := by exact_mod_cast d2
  generalize hbn : bit_length n n = bn at *
  generalize hbd : bit_length a.den a.den = bd at *
  have two_pos : ∀ k : ℕ, (0 : ℚ) < 2 ^ k := fun k => by positivity
  have hlow : (2 : ℚ) ^ ((bn : ℤ) - bd - 1) ≤ a := by
    have e : (2 : ℚ) ^ ((bn : ℤ) - bd - 1) = 2 ^ (bn - 1) / 2 ^ bd := by
      rw [show (bn : ℤ) - bd - 1 = ((bn - 1 : ℕ) : ℤ) - (bd : ℤ) by omega,
        zpow_sub₀ (by norm_num), zpow_natCast, zpow_natCast]
    rw [e, hval, div_le_div_iff₀ (two_pos _) hden]
    calc (2 : ℚ) ^ (bn - 1) * a.den ≤ n * a.den := by
          exact mul_le_mul_of_nonneg_right q1 hden.le
      _ ≤ n * 2 ^ bd := by
          exact mul_le_mul_of_nonneg_left q4.le (by positivity)
  have hhigh : a < (2 : ℚ) ^ ((bn : ℤ) - bd + 1) := by
    have e : (2 : ℚ) ^ ((bn : ℤ) - bd + 1) = 2 ^ bn / 2 ^ (bd - 1) := by
      rw [show (bn : ℤ) - bd + 1 = (bn : ℤ) - ((bd - 1 : ℕ) : ℤ) by omega,
        zpow_sub₀ (by norm_num), zpow_natCast, zpow_natCast]
    rw [e, hval, div_lt_div_iff₀ hden (two_pos _)]
    calc (n : ℚ) * 2 ^ (bd - 1) ≤ n * a.den := by
          exact mul_le_mul_of_nonneg_left q3 (by positivity)
      _ < 2 ^ bn * a.den := by
          exact mul_lt_mul_of_pos_right q2 hden
  unfold float_exp
  rw [hna]
  simp only [hbn, hbd]
  split_ifs with h
  · exact (log_two_eq a ha _ h (by
      rw [show (bn : ℤ) - bd + 1 = (bn : ℤ) - bd + 1 from rfl]; exact hhigh)).symm
  · refine (log_two_eq a ha _ hlow ?_).symm
    rw [show (bn : ℤ) - bd - 1 + 1 = (bn : ℤ) - bd by ring]
    exact not_le.mp h

theorem floor_le_rne (q : ℚ) : ⌊q⌋ ≤ rne q := by
  unfold rne
  simp only []
  split_ifs <;> omega

theorem rne_le_floor_add_one (q : ℚ) : rne q ≤ ⌊q⌋ + 1 := by
  unfold rne
  simp only []
  split_ifs <;> omega

theorem rne_intCast (n : ℤ) : rne (n : ℚ) = n := by
  unfold rne
  simp only [Int.floor_intCast, sub_self]
  rw [if_pos (by norm_num)]

theorem rne_mono {x y : ℚ} (h : x ≤ y) : rne x ≤ rne y := by
  have hf : ⌊x⌋ ≤ ⌊y⌋ := Int.floor_mono h
  rcases lt_or_eq_of_le hf with hlt | heq
  · calc rne x ≤ ⌊x⌋ + 1 := rne_le_floor_add_one x
      _ ≤ ⌊y⌋ := by omega
      _ ≤ rne y := floor_le_rne y
  · unfold rne
    simp only []
    rw [← heq]
    have hxy : x - ⌊x⌋ ≤ y - ⌊x⌋ := by linarith
    split_ifs <;> first | omega | (exfalso; linarith)

theorem rne_nonneg {x : ℚ} (h : 0 ≤ x) : 0 ≤ rne x := by
  have := rne_mono h
  rwa [show (0 : ℚ) = ((0 : ℤ) : ℚ) by norm_num, rne_intCast] at this

theorem FLT_HUGE_pos : (0 : ℚ) < FLT_HUGE := by
  unfold FLT_HUGE
  positivity

theorem round_mag_zero : round_mag 0 = 0 := by decide!

theorem round_mag_nonneg {a : ℚ} (h : 0 ≤ a) : 0 ≤ round_mag a := by
  unfold round_mag
  simp only []
  refine le_min ?_ FLT_HUGE_pos.le
  have h1 : (0 : ℚ) ≤ a / 2 ^ (max (float_exp a) (-126) - 23) := by positivity
  have h2 : (0 : ℚ) ≤ (rne (a / 2 ^ (max (float_exp a) (-126) - 23)) : ℚ) := by
    exact_mod_cast rne_nonneg h1
  positivity

theorem round_mag_le_huge (a : ℚ) : round_mag a ≤ FLT_HUGE := by
  unfold round_mag
  exact min_le_right _ _

/-- The unclamped rounding of a positive number lies between the powers of two around it. -/
theorem round_grid_bounds (a : ℚ) (ha : 0 < a) :
    (rne (a / 2 ^ (max (float_exp a) (-126) - 23)) : ℚ) * 2 ^ (max (float_exp a) (-126) - 23) ≤
        2 ^ (max (float_exp a) (-126) + 1) ∧
    (-126 ≤ float_exp a →
      (2 : ℚ) ^ (float_exp a) ≤
        (rne (a / 2 ^ (max (float_exp a) (-126) - 23)) : ℚ) *
          2 ^ (max (float_exp a) (-126) - 23)) := by
  have hlog := float_exp_eq_log a ha
  have c : ((2 : ℕ) : ℚ) = 2 := by norm_num
  have hup : a < (2 : ℚ) ^ (float_exp a + 1) := by
    have := Int.lt_zpow_succ_log_self (R := ℚ) (b := 2) (by norm_num) a
    rw [c, ← hlog] at this
    exact this
  have hlo : (2 : ℚ) ^ (float_exp a) ≤ a := by
    have := Int.zpow_log_le_self (R := ℚ) (b := 2) (by norm_num) ha
    rw [c, ← hlog] at this
    exact this
  generalize float_exp a = e at *
  have hpos : ∀ k : ℤ, (0 : ℚ) < 2 ^ k := fun k => by positivity
  constructor
  · have h1 : a / 2 ^ (max e (-126) - 23) ≤ ((2 ^ 24 : ℤ) : ℚ) := by
      rw [div_le_iff₀ (hpos _)]
      have : ((2 ^ 24 : ℤ) : ℚ) * 2 ^ (max e (-126) - 23) = 2 ^ (max e (-126) + 1) := by
        rw [show max e (-126) + 1 = 24 + (max e (-126) - 23) by ring, zpow_add₀ (by norm_num)]
        norm_num
      rw [this]
      calc a ≤ 2 ^ (e + 1) := hup.le
        _ ≤ 2 ^ (max e (-126) + 1) := zpow_le_zpow_right₀ (by norm_num) (by omega)
    have h2 := rne_mono h1
    rw [rne_intCast] at h2
    have h3 : (rne (a / 2 ^ (max e (-126) - 23)) : ℚ) ≤ ((2 ^ 24 : ℤ) : ℚ) := by exact_mod_cast h2
    calc (rne (a / 2 ^ (max e (-126) - 23)) : ℚ) * 2 ^ (max e (-126) - 23)
        ≤ ((2 ^ 24 : ℤ) : ℚ) * 2 ^ (max e (-126) - 23) :=
          mul_le_mul_of_nonneg_right h3 (hpos _).le
      _ = 2 ^ (max e (-126) + 1) := by
        rw [show max e (-126) + 1 = 24 + (max e (-126) - 23) by ring, zpow_add₀ (by norm_num)]
        norm_num
  · intro he
    rw [max_eq_left he]
    have h1 : ((2 ^ 23 : ℤ) : ℚ) ≤ a / 2 ^ (e - 23) := by
      rw [le_div_iff₀ (hpos _)]
      have : ((2 ^ 23 : ℤ) : ℚ) * 2 ^ (e - 23) = 2 ^ e := by
        rw [show e = 23 + (e - 23) by ring, zpow_add₀ (by norm_num)]
        norm_num
      rw [this]
      exact hlo
    have h2 := rne_mono h1
    rw [rne_intCast] at h2
    have h3 : ((2 ^ 23 : ℤ) : ℚ) ≤ (rne (a / 2 ^ (e - 23)) : ℚ) := by exact_mod_cast h2
    calc (2 : ℚ) ^ e = ((2 ^ 23 : ℤ) : ℚ) * 2 ^ (e - 23) := by
          rw [show (2 : ℚ) ^ e = 2 ^ (23 + (e - 23)) by ring_nf, zpow_add₀ (by norm_num)]
          norm_num
      _ ≤ (rne (a / 2 ^ (e - 23)) : ℚ) * 2 ^ (e - 23) :=
          mul_le_mul_of_nonneg_right h3 (hpos _).le

theorem round_mag_mono {a b : ℚ} (ha : 0 ≤ a) (h : a ≤ b) : round_mag a ≤ round_mag b := by
  rcases eq_or_lt_of_le ha with h0 | hpos
  · rw [← h0, round_mag_zero]
    exact round_mag_nonneg (le_trans ha h)
  have hbpos : 0 < b := lt_of_lt_of_le hpos h
  have hea := float_exp_eq_log a hpos
  have heb := float_exp_eq_log b hbpos
  have hmono : float_exp a ≤ float_exp b := by
    rw [hea, heb]
    exact Int.log_mono_right hpos h
  have ga := round_grid_bounds a hpos
  have gb := round_grid_bounds b hbpos
  unfold round_mag
  simp only []
  refine min_le_min ?_ le_rfl
  rcases eq_or_lt_of_le (max_le_max hmono (le_refl (-126 : ℤ))) with heq | hlt
  · rw [heq]
    have hp : (0 : ℚ) < 2 ^ (max (float_exp b) (-126) - 23) := by positivity
    have h1 : a / 2 ^ (max (float_exp b) (-126) - 23) ≤ b / 2 ^ (max (float_exp b) (-126) - 23) :=
      div_le_div_of_nonneg_right h hp.le
    have h2 : (rne (a / 2 ^ (max (float_exp b) (-126) - 23)) : ℚ) ≤
        (rne (b / 2 ^ (max (float_exp b) (-126) - 23)) : ℚ) := by exact_mod_cast rne_mono h1
    exact mul_le_mul_of_nonneg_right h2 hp.le
  · have hb126 : -126 ≤ float_exp b := by
      by_contra hc
      rw [max_eq_right (by omega : float_exp b ≤ -126)] at hlt
      have := le_max_right (float_exp a) (-126)
      omega
    rw [max_eq_left hb126] at hlt
    calc _ ≤ (2 : ℚ) ^ (max (float_exp a) (-126) + 1) := ga.1
      _ ≤ 2 ^ (float_exp b) := zpow_le_zpow_right₀ (by norm_num) (by omega)
      _ ≤ _ := by
        have := gb.2 hb126
        rw [max_eq_left hb126]
        rw [max_eq_left hb126] at this
        exact this

theorem round_mag_huge : round_mag FLT_HUGE = FLT_HUGE := by decide!

/-- Every number `m * 2 ^ t` with at most 24 significant bits and `t` no smaller than the
exponent of the smallest subnormal is left unchanged by the rounding. -/
theorem round_mag_grid (m : ℕ) (t : ℤ) (hm : m ≤ 2 ^ 24) (ht : -149 ≤ t)
    (hv : (m : ℚ) * 2 ^ t < FLT_HUGE) : round_mag ((m : ℚ) * 2 ^ t) = (m : ℚ) * 2 ^ t := by
  rcases Nat.eq_zero_or_pos m with h0 | hpos
  · subst h0
    simp only [Nat.cast_zero, zero_mul]
    exact round_mag_zero
  have hp : ∀ k : ℤ, (0 : ℚ) < 2 ^ k := fun k => by positivity
  have hvpos : (0 : ℚ) < (m : ℚ) * 2 ^ t := by
    have : (0 : ℚ) < m := by exact_mod_cast hpos
    exact mul_pos this (hp t)
  have hlog := float_exp_eq_log _ hvpos
  have c : ((2 : ℕ) : ℚ) = 2 := by norm_num
  -- the value is an integer multiple of its own quantum
  have hint : ∃ z : ℤ, (m : ℚ) * 2 ^ t =
      (z : ℚ) * 2 ^ (max (float_exp ((m : ℚ) * 2 ^ t)) (-126) - 23) := by
    rcases lt_or_eq_of_le hm with hlt | heq
    · have hlt2 : (m : ℚ) * 2 ^ t < 2 ^ (24 + t) := by
        rw [zpow_add₀ (by norm_num)]
        have h24 : (2 : ℚ) ^ (24 : ℤ) = ((2 ^ 24 : ℕ) : ℚ) := by norm_num
        have : (m : ℚ) < 2 ^ (24 : ℤ) := by
          rw [h24]
          exact_mod_cast hlt
        exact mul_lt_mul_of_pos_right this (hp t)
      have h1 : Int.log 2 ((m : ℚ) * 2 ^ t) < 24 + t :=
        (Int.lt_zpow_iff_log_lt (R := ℚ) (b := 2) (by norm_num) hvpos).mp (by rw [c]; exact hlt2)
      rw [← hlog] at h1
      generalize float_exp ((m : ℚ) * 2 ^ t) = e at h1
      have hs : max e (-126) - 23 ≤ t := by
        rcases max_cases e (-126) with ⟨h, _⟩ | ⟨h, _⟩ <;> omega
      obtain ⟨k, hk⟩ : ∃ k : ℕ, t = (max e (-126) - 23) + k :=
        ⟨(t - (max e (-126) - 23)).toNat, by omega⟩
      refine ⟨(m : ℤ) * 2 ^ k, ?_⟩
      rw [hk, zpow_add₀ (by norm_num), zpow_natCast]
      push_cast
      ring
    · have hval : (m : ℚ) * 2 ^ t = 2 ^ (24 + t) := by
        rw [zpow_add₀ (by norm_num), heq]
        norm_num
      have h1 : Int.log 2 ((m : ℚ) * 2 ^ t) = 24 + t := by
        rw [hval]
        have := Int.log_zpow (R := ℚ) (b := 2) (by norm_num) (24 + t)
        rw [c] at this
        exact this
      rw [← hlog] at h1
      rw [h1, max_eq_left (by omega)]
      refine ⟨2 ^ 23, ?_⟩
      rw [hval, show 24 + t - 23 = t + 1 by ring, show 24 + t = 23 + (t + 1) by ring,
        zpow_add₀ (by norm_num)]
      norm_num
  obtain ⟨z, hz⟩ := hint
  unfold round_mag
  simp only []
  generalize max (float_exp ((m : ℚ) * 2 ^ t)) (-126) - 23 = s at hz
  rw [hz, mul_div_assoc, div_self (hp s).ne', mul_one, rne_intCast, ← hz]
  exact min_eq_left hv.le

theorem round_mag_idem {a : ℚ} (ha : 0 ≤ a) : round_mag (round_mag a) = round_mag a := by
  rcases eq_or_lt_of_le ha with h0 | hpos
  · rw [← h0, round_mag_zero, round_mag_zero]
  have hb := (round_grid_bounds a hpos).1
  have hp : ∀ k : ℤ, (0 : ℚ) < 2 ^ k := fun k => by positivity
  have hq : (0 : ℚ) ≤ a / 2 ^ (max (float_exp a) (-126) - 23) := by positivity
  have hn := rne_nonneg hq
  have he : -126 ≤ max (float_exp a) (-126) := le_max_right _ _
  have hr : round_mag a =
      min ((rne (a / 2 ^ (max (float_exp a) (-126) - 23)) : ℚ) *
        2 ^ (max (float_exp a) (-126) - 23)) FLT_HUGE := rfl
  generalize max (float_exp a) (-126) = e at hb hn he hr
  obtain ⟨m, hm⟩ : ∃ m : ℕ, rne (a / 2 ^ (e - 23)) = (m : ℤ) :=
    ⟨(rne (a / 2 ^ (e - 23))).toNat, by omega⟩
  rw [hm] at hb hr
  rw [Int.cast_natCast] at hb hr
  by_cases hsat : FLT_HUGE ≤ (m : ℚ) * 2 ^ (e - 23)
  · rw [hr, min_eq_right hsat]
    exact round_mag_huge
  · rw [hr, min_eq_left (not_le.mp hsat).le]
    refine round_mag_grid m (e - 23) ?_ (by omega) (not_le.mp hsat)
    have h1 : (m : ℚ) * 2 ^ (e - 23) ≤ ((2 ^ 24 : ℕ) : ℚ) * 2 ^ (e - 23) := by
      calc (m : ℚ) * 2 ^ (e - 23) ≤ 2 ^ (e + 1) := hb
        _ = ((2 ^ 24 : ℕ) : ℚ) * 2 ^ (e - 23) := by
          rw [show e + 1 = 24 + (e - 23) by ring, zpow_add₀ (by norm_num)]
          norm_num
    have h2 := le_of_mul_le_mul_right h1 (hp _)
    exact_mod_cast h2

theorem to_float_zero : to_float 0 = 0 := by decide!

theorem to_float_le_huge (a : ℚ) : to_float a ≤ FLT_HUGE := by
  unfold to_float
  split_ifs with h
  · exact round_mag_le_huge a
  · have := round_mag_nonneg (show (0 : ℚ) ≤ -a by linarith)
    have := FLT_HUGE_pos
    linarith

theorem neg_huge_le_to_float (a : ℚ) : -FLT_HUGE ≤ to_float a := by
  unfold to_float
  split_ifs with h
  · have := round_mag_nonneg h
    have := FLT_HUGE_pos
    linarith
  · have := round_mag_le_huge (-a)
    linarith

theorem to_float_mono {a b : ℚ} (h : a ≤ b) : to_float a ≤ to_float b := by
  unfold to_float
  split_ifs with ha hb hb
  · exact round_mag_mono ha h
  · exact absurd (le_trans ha h) hb
  · have := round_mag_nonneg (show (0 : ℚ) ≤ -a by linarith)
    have := round_mag_nonneg hb
    linarith
  · have := round_mag_mono (show (0 : ℚ) ≤ -b by linarith) (show -b ≤ -a by linarith)
    linarith

theorem to_float_idem (a : ℚ) : to_float (to_float a) = to_float a := by
  by_cases ha : 0 ≤ a
  · have e : to_float a = round_mag a := by
      unfold to_float
      exact if_pos ha
    rw [e]
    have h2 : to_float (round_mag a) = round_mag (round_mag a) := by
      unfold to_float
      exact if_pos (round_mag_nonneg ha)
    rw [h2, round_mag_idem ha]
  · have hna : (0 : ℚ) ≤ -a := by linarith
    have e : to_float a = -round_mag (-a) := by
      unfold to_float
      exact if_neg ha
    rw [e]
    rcases eq_or_lt_of_le (round_mag_nonneg hna) with h0 | hpos
    · rw [← h0, neg_zero, to_float_zero]
    · have hneg : ¬ (0 : ℚ) ≤ -round_mag (-a) := by linarith
      have h2 : to_float (-round_mag (-a)) = -round_mag (- -round_mag (-a)) := by
        unfold to_float
        exact if_neg hneg
      rw [h2, neg_neg, round_mag_idem hna]

theorem to_float_nonneg {a : ℚ} (h : 0 ≤ a) : 0 ≤ to_float a := by
  have := to_float_mono h
  rwa [to_float_zero] at this

theorem to_float_huge : to_float FLT_HUGE = FLT_HUGE := by decide!

theorem to_float_neg_huge : to_float (-FLT_HUGE) = -FLT_HUGE := by decide!

/-- The difference grows when the subtrahend shrinks. -/
theorem fsub_anti (a : ℚ) {b c : ℚ} (h : b ≤ c) : fsub a c ≤ fsub a b := by
  have hh := FLT_HUGE_pos
  have u1 := to_float_le_huge (a - c)
  have u2 := neg_huge_le_to_float (a - b)
  have u3 := to_float_le_huge (a - b)
  have u4 := neg_huge_le_to_float (a - c)
  have m := to_float_mono (show a - c ≤ a - b by linarith)
  unfold fsub
  split_ifs <;> linarith

theorem fmul_self_nonneg (a : ℚ) : 0 ≤ fmul a a := by
  unfold fmul
  have h := mul_self_nonneg a
  split_ifs
  · linarith
  · exact FLT_HUGE_pos.le
  · exact to_float_nonneg h

theorem fmul_le_huge (a b : ℚ) : fmul a b ≤ FLT_HUGE := by
  unfold fmul
  have := FLT_HUGE_pos
  split_ifs
  · linarith
  · exact le_rfl
  · exact to_float_le_huge _

/-- Squares are ordered like magnitudes. -/
theorem fmul_self_mono {a b : ℚ} (h : |a| ≤ |b|) : fmul a a ≤ fmul b b := by
  have hb := mul_self_nonneg b
  by_cases hbig : FLT_HUGE ≤ |b|
  · have e : fmul b b = FLT_HUGE := by
      unfold fmul
      rw [if_pos (Or.inl hbig), if_neg (by linarith)]
    rw [e]
    exact fmul_le_huge a a
  · have ha : ¬ FLT_HUGE ≤ |a| := fun hc => hbig (le_trans hc h)
    unfold fmul
    rw [if_neg (not_or.mpr ⟨ha, ha⟩), if_neg (not_or.mpr ⟨hbig, hbig⟩)]
    apply to_float_mono
    rw [← abs_mul_abs_self a, ← abs_mul_abs_self b]
    exact mul_le_mul h h (abs_nonneg a) (abs_nonneg b)

theorem to_float_fmul (a b : ℚ) : to_float (fmul a b) = fmul a b := by
  unfold fmul
  split_ifs
  · exact to_float_neg_huge
  · exact to_float_huge
  · exact to_float_idem _

theorem to_float_fsub (a b : ℚ) : to_float (fsub a b) = fsub a b := by
  unfold fsub
  split_ifs
  · exact to_float_huge
  · exact to_float_huge
  · exact to_float_neg_huge
  · exact to_float_neg_huge
  · exact to_float_idem _

theorem to_float_fadd (a b : ℚ) : to_float (fadd a b) = fadd a b := by
  unfold fadd
  split_ifs
  · exact to_float_huge
  · exact to_float_neg_huge
  · exact to_float_idem _

/-- Adding a non-negative value to a `float` does not make it smaller. -/
theorem le_fadd_left {a b : ℚ} (ha : to_float a = a) (hb : 0 ≤ b) : a ≤ fadd a b := by
  have h1 : a ≤ FLT_HUGE := by rw [← ha]; exact to_float_le_huge a
  have hh := FLT_HUGE_pos
  unfold fadd
  split_ifs with c1 c2
  · exact h1
  · rcases c2 with c | c
    · exact c
    · linarith
  · calc a = to_float a := ha.symm
      _ ≤ to_float (a + b) := to_float_mono (by linarith)

theorem le_fadd_right {a b : ℚ} (ha : 0 ≤ a) (hb : to_float b = b) : b ≤ fadd a b := by
  have h1 : b ≤ FLT_HUGE := by rw [← hb]; exact to_float_le_huge b
  have hh := FLT_HUGE_pos
  unfold fadd
  split_ifs with c1 c2
  · exact h1
  · rcases c2 with c | c
    · linarith
    · exact c
  · calc b = to_float b := hb.symm
      _ ≤ to_float (a + b) := to_float_mono (by linarith)

/-! ## Theorems: comparators -/

theorem comparex_le (a b : kdtree_node) : comparex a b ≤ 0 ↔ a.x ≤ b.x := by
  unfold comparex
  split_ifs with h1 h2
  · simp [le_of_lt h1]
  · simp [not_le.mpr h2]
  · simp [not_lt.mp h2]

theorem comparey_le (a b : kdtree_node) : comparey a b ≤ 0 ↔ a.y ≤ b.y := by
  unfold comparey
  split_ifs with h1 h2
  · simp [le_of_lt h1]
  · simp [not_le.mpr h2]
  · simp [not_lt.mp h2]

theorem depth_compar_le (depth : Nat) (a b : kdtree_node) :
    depth_compar depth a b ≤ 0 ↔ split_coord depth a ≤ split_coord depth b := by
  unfold depth_compar split_coord
  split_ifs
  · exact comparex_le a b
  · exact comparey_le a b

theorem consistent_depth_compar (depth : Nat) : Consistent (depth_compar depth) := by
  constructor
  · intro a b
    rw [depth_compar_le, depth_compar_le]
    exact le_total _ _
  · intro a b c
    rw [depth_compar_le, depth_compar_le, depth_compar_le]
    exact le_trans

/-! ## Theorems: slices of the node store -/

theorem getElem?_slice (nodes : List kdtree_node) (a b i : Nat) :
    (slice nodes a b)[i]? = if i < b - a then nodes[a + i]? else none := by
  unfold slice
  rw [List.getElem?_take, List.getElem?_drop]

theorem length_slice (nodes : List kdtree_node) (a b : Nat) (hb : b ≤ nodes.length) :
    (slice nodes a b).length = b - a := by
  unfold slice
  rw [List.length_take, List.length_drop]
  omega

theorem mem_slice (nodes : List kdtree_node) (a b : Nat) (m : kdtree_node) :
    m ∈ slice nodes a b ↔ ∃ j, a ≤ j ∧ j < b ∧ nodes[j]? = some m := by
  rw [List.mem_iff_getElem?]
  constructor
  · rintro ⟨i, hi⟩
    rw [getElem?_slice] at hi
    split_ifs at hi with h
    exact ⟨a + i, by omega, by omega, hi⟩
  · rintro ⟨j, h1, h2, h3⟩
    refine ⟨j - a, ?_⟩
    rw [getElem?_slice, if_pos (by omega)]
    rw [show a + (j - a) = j by omega]
    exact h3

theorem slice_congr (l1 l2 : List kdtree_node) (a b : Nat)
    (h : ∀ j, a ≤ j → j < b → l1[j]? = l2[j]?) : slice l1 a b = slice l2 a b := by
  apply List.ext_getElem?
  intro i
  rw [getElem?_slice, getElem?_slice]
  split_ifs with hi
  · exact h _ (by omega) (by omega)
  · rfl

theorem slice_append (l : List kdtree_node) (a m b : Nat) (h1 : a ≤ m) (h2 : m ≤ b) :
    slice l a b = slice l a m ++ slice l m b := by
  unfold slice
  have e : b - a = (m - a) + (b - m) := by omega
  rw [e, List.take_add, List.drop_drop]
  rw [show a + (m - a) = m by omega]

theorem slice_singleton (l : List kdtree_node) (m : Nat) (n : kdtree_node)
    (h : l[m]? = some n) : slice l m (m + 1) = [n] := by
  apply List.ext_getElem?
  intro i
  rw [getElem?_slice]
  rcases i with _ | i
  · simp [h]
  · simp

theorem slice_split (l : List kdtree_node) (a m b : Nat) (n : kdtree_node) (h1 : a ≤ m)
    (h2 : m < b) (h : l[m]? = some n) :
    slice l a b = slice l a m ++ n :: slice l (m + 1) b := by
  rw [slice_append l a m b h1 (by omega), slice_append l m (m + 1) b (by omega) (by omega),
    slice_singleton l m n h]
  rfl

theorem split_coord_payload (depth : Nat) (a b : kdtree_node) (h : payload a = payload b) :
    split_coord depth a = split_coord depth b := by
  have hx : a.x = b.x := congrArg Point.x h
  have hy : a.y = b.y := congrArg Point.y h
  unfold split_coord
  rw [hx, hy]

/-! ## Theorems: the builder -/

theorem slice_middle (A S B : List kdtree_node) (a b : Nat) (hA : A.length = a)
    (hS : S.length = b - a) : slice (A ++ (S ++ B)) a b = S := by
  unfold slice
  have e1 : List.drop a (A ++ (S ++ B)) = S ++ B := by
    have := List.drop_left A (S ++ B)
    rw [hA] at this
    exact this
  rw [e1]
  have := List.take_left S B
  rw [hS] at this
  exact this

theorem qsort_range_spec (q : Qsort) (nodes : List kdtree_node) (min max : Nat)
    (compar : kdtree_node → kdtree_node → Int) (h : min ≤ max) (hmax : max ≤ nodes.length) :
    ∃ nodes1, qsort_range q nodes min (max - min) compar = .ok nodes1 ∧
      nodes1.length = nodes.length ∧
      (∀ j, j < min ∨ max ≤ j → nodes1[j]? = nodes[j]?) ∧
      slice nodes1 min max = q.sort compar (slice nodes min max) := by
  have hlen : (q.sort compar (slice nodes min max)).length = max - min := by
    rw [(q.perm compar _).length_eq, length_slice nodes min max hmax]
  have htake : (List.take min nodes).length = min := by
    rw [List.length_take]; omega
  refine ⟨List.take min nodes ++ (q.sort compar (slice nodes min max) ++ List.drop max nodes),
    ?_, ?_, ?_, ?_⟩
  · unfold qsort_range
    rw [if_pos (by omega), show min + (max - min) = max by omega, List.append_assoc]
    rfl
  · simp only [List.length_append, List.length_drop, htake, hlen]
    omega
  · intro j hj
    rcases hj with hj | hj
    · rw [List.getElem?_append_left (by omega)]
      exact List.getElem?_take_of_lt hj
    · rw [List.getElem?_append_right (by omega), List.getElem?_append_right (by omega)]
      rw [List.getElem?_drop, htake, hlen]
      congr 1
      omega
  · exact slice_middle _ _ _ min max htake hlen

theorem Built.congr {nodes nodes1 : List kdtree_node} {min max depth : Nat} {root : Int}
    (hb : Built nodes min max depth root)
    (h : ∀ j, min ≤ j → j < max → nodes1[j]? = nodes[j]?) : Built nodes1 min max depth root := by
  induction hb with
  | empty min max depth hle => exact Built.empty min max depth hle
  | node min max depth n hlt hn hl hr hlo hhi ihl ihr =>
    have hmed1 : min ≤ (min + max) / 2 := by omega
    have hmed2 : (min + max) / 2 < max := by omega
    refine Built.node min max depth n hlt ?_ ?_ ?_ ?_ ?_
    · rw [h _ hmed1 hmed2]; exact hn
    · exact ihl (fun j h1 h2 => h j h1 (by omega))
    · exact ihr (fun j h1 h2 => h j (by omega) h2)
    · intro j m h1 h2 h3
      rw [h j h1 (by omega)] at h3
      exact hlo j m h1 h2 h3
    · intro j m h1 h2 h3
      rw [h j (by omega) h2] at h3
      exact hhi j m h1 h2 h3

theorem set_left_spec (nodes : List kdtree_node) (i : Nat) (v : Int) (n : kdtree_node)
    (h : nodes[i]? = some n) :
    set_left nodes i v = .ok (nodes.set i { n with left := v }) := by
  unfold set_left
  rw [h]

theorem set_right_spec (nodes : List kdtree_node) (i : Nat) (v : Int) (n : kdtree_node)
    (h : nodes[i]? = some n) :
    set_right nodes i v = .ok (nodes.set i { n with right := v }) := by
  unfold set_right
  rw [h]

theorem getElem?_set_other (nodes : List kdtree_node) (i j : Nat) (n : kdtree_node)
    (h : j ≠ i) : (nodes.set i n)[j]? = nodes[j]? :=
  List.getElem?_set_ne (Ne.symm h)

theorem getElem?_set_same (nodes : List kdtree_node) (i : Nat) (n m : kdtree_node)
    (h : nodes[i]? = some m) : (nodes.set i n)[i]? = some n := by
  have hi : i < nodes.length := by
    rcases List.getElem?_eq_some.mp h with ⟨hi, _⟩
    exact hi
  rw [List.getElem?_set, if_pos rfl, if_pos hi]

theorem getElem?_isSome_of_lt (nodes : List kdtree_node) (i : Nat) (h : i < nodes.length) :
    ∃ n, nodes[i]? = some n :=
  ⟨nodes[i], List.getElem?_eq_getElem h⟩

theorem lt_length_of_getElem? {nodes : List kdtree_node} {i : Nat} {n : kdtree_node}
    (h : nodes[i]? = some n) : i < nodes.length := by
  rcases List.getElem?_eq_some.mp h with ⟨hi, _⟩
  exact hi

theorem pairwise_slice {R : kdtree_node → kdtree_node → Prop} {nodes : List kdtree_node}
    {a b : Nat} (hp : List.Pairwise R (slice nodes a b)) (i j : Nat) (mi mj : kdtree_node)
    (h1 : a ≤ i) (h2 : i < j) (h3 : j < b) (hi : nodes[i]? = some mi)
    (hj : nodes[j]? = some mj) : R mi mj := by
  have ei : (slice nodes a b)[i - a]? = some mi := by
    rw [getElem?_slice, if_pos (by omega), show a + (i - a) = i by omega]; exact hi
  have ej : (slice nodes a b)[j - a]? = some mj := by
    rw [getElem?_slice, if_pos (by omega), show a + (j - a) = j by omega]; exact hj
  rcases List.getElem?_eq_some.mp ei with ⟨hi1, hi2⟩
  rcases List.getElem?_eq_some.mp ej with ⟨hj1, hj2⟩
  have := List.pairwise_iff_getElem.mp hp (i - a) (j - a) hi1 hj1 (by omega)
  rw [hi2, hj2] at this
  exact this

theorem payload_mem_of_perm {l1 l2 : List kdtree_node}
    (hp : List.Perm (l1.map payload) (l2.map payload)) {m : kdtree_node} (hm : m ∈ l1) :
    ∃ m2, m2 ∈ l2 ∧ payload m2 = payload m := by
  have h1 : payload m ∈ l1.map payload := List.mem_map_of_mem payload hm
  have h2 : payload m ∈ l2.map payload := hp.mem_iff.mp h1
  rcases List.mem_map.mp h2 with ⟨m2, hm2, e⟩
  exact ⟨m2, hm2, e⟩

/-- One call of `kdtree_build` on a range inside the store that ends at or below slot
`2 ^ 30` (so that `min + max` fits `int`) returns, given a recursion budget larger than the
range, and leaves the range in the built shape. -/
theorem kdtree_build_spec (q : Qsort) :
    ∀ (fuel : Nat) (nodes : List kdtree_node) (min max depth : Nat),
      max ≤ nodes.length → max ≤ 1073741824 → max - min < fuel →
      ∃ nodes1 root, kdtree_build q fuel nodes min max depth = .ok (nodes1, root) ∧
        BuildPost nodes nodes1 min max depth root := by
  intro fuel
  induction fuel with
  | zero => intro _ _ _ _ _ _ h; omega
  | succ fuel ih =>
    intro nodes min max depth hmax hbound hfuel
    by_cases hle : max ≤ min
    · refine ⟨nodes, -1, ?_, ⟨rfl, fun _ _ => rfl, List.Perm.refl _, Built.empty _ _ _ hle⟩⟩
      simp only [kdtree_build, if_pos hle]
    · have hlt : min < max := by omega
      obtain ⟨nodes1, hq, hlen1, hframe1, hslice1⟩ :=
        qsort_range_spec q nodes min max (depth_compar depth) (by omega) hmax
      have hm1 : min ≤ (min + max) / 2 := by omega
      have hm2 : (min + max) / 2 < max := by omega
      have hov : ¬ INT_MAX < ((min + max : Nat) : Int) := by
        unfold INT_MAX
        omega
      obtain ⟨nodes2, l, hb2, post2⟩ :=
        ih nodes1 min ((min + max) / 2) (depth + 1) (by omega) (by omega) (by omega)
      obtain ⟨n2, hn2⟩ := getElem?_isSome_of_lt nodes2 ((min + max) / 2)
        (by rw [post2.length_eq]; omega)
      have hs3 := set_left_spec nodes2 ((min + max) / 2) l n2 hn2
      have hlen3 : (nodes2.set ((min + max) / 2) { n2 with left := l }).length = nodes.length := by
        rw [List.length_set, post2.length_eq, hlen1]
      obtain ⟨nodes4, r, hb4, post4⟩ :=
        ih (nodes2.set ((min + max) / 2) { n2 with left := l }) ((min + max) / 2 + 1) max
          (depth + 1) (by omega) (by omega) (by omega)
      have hn4 : nodes4[(min + max) / 2]? = some { n2 with left := l } := by
        rw [post4.frame _ (Or.inl (by omega))]
        exact getElem?_set_same _ _ _ _ hn2
      have hs5 := set_right_spec nodes4 ((min + max) / 2) r _ hn4
      have hn1 : nodes1[(min + max) / 2]? = some n2 := by
        rw [← post2.frame _ (Or.inr (le_refl _))]; exact hn2
      -- the final store
      have F3 : (nodes4.set ((min + max) / 2) { n2 with left := l, right := r })[(min + max) / 2]? =
          some { n2 with left := l, right := r } := getElem?_set_same _ _ _ _ hn4
      have F1 : ∀ j, j < (min + max) / 2 →
          (nodes4.set ((min + max) / 2) { n2 with left := l, right := r })[j]? = nodes2[j]? := by
        intro j hj
        rw [getElem?_set_other _ _ _ _ (by omega), post4.frame _ (Or.inl (by omega)),
          getElem?_set_other _ _ _ _ (by omega)]
      have F2 : ∀ j, (min + max) / 2 < j →
          (nodes4.set ((min + max) / 2) { n2 with left := l, right := r })[j]? = nodes4[j]? := by
        intro j hj
        rw [getElem?_set_other _ _ _ _ (by omega)]
      have G : ∀ j, (min + max) / 2 < j →
          (nodes2.set ((min + max) / 2) { n2 with left := l })[j]? = nodes1[j]? := by
        intro j hj
        rw [getElem?_set_other _ _ _ _ (by omega), post2.frame _ (Or.inr (by omega))]
      have hsorted : List.Pairwise (fun a b => depth_compar depth a b ≤ 0) (slice nodes1 min max) := by
        rw [hslice1]
        exact q.sorted _ _ (consistent_depth_compar depth)
      refine ⟨nodes4.set ((min + max) / 2) { n2 with left := l, right := r },
        (((min + max) / 2 : Nat) : Int), ?_, ⟨?_, ?_, ?_, ?_⟩⟩
      · have hq2 : qsort_range q nodes min (max - min)
            (if depth % 2 ≠ 0 then comparex else comparey) = .ok nodes1 := hq
        simp only [kdtree_build, if_neg hle, hq2, if_neg hov, hb2, hs3, hb4, hs5]
      · rw [List.length_set, post4.length_eq, hlen3]
      · intro j hj
        have hne : j ≠ (min + max) / 2 := by omega
        rw [getElem?_set_other _ _ _ _ hne, post4.frame _ (by omega),
          getElem?_set_other _ _ _ _ hne, post2.frame _ (by omega), hframe1 _ hj]
      · rw [slice_split _ min ((min + max) / 2) max _ hm1 hm2 F3]
        have e1 := slice_congr _ nodes2 min ((min + max) / 2) (fun j _ h2 => F1 j h2)
        have e2 := slice_congr _ nodes4 ((min + max) / 2 + 1) max (fun j h1 _ => F2 j (by omega))
        have e3 := slice_congr _ nodes1 ((min + max) / 2 + 1) max (fun j h1 _ => G j (by omega))
        rw [e1, e2]
        have p4 := post4.perm
        rw [e3] at p4
        have hsplit1 := slice_split nodes1 min ((min + max) / 2) max n2 hm1 hm2 hn1
        have hp : List.Perm ((slice nodes1 min max).map payload)
            ((slice nodes min max).map payload) := by
          rw [hslice1]
          exact (q.perm _ _).map payload
        refine List.Perm.trans ?_ hp
        rw [hsplit1]
        simp only [List.map_append, List.map_cons]
        exact List.Perm.append post2.perm (List.Perm.cons _ p4)
      · refine Built.node min max depth { n2 with left := l, right := r } hlt F3 ?_ ?_ ?_ ?_
        · exact post2.built.congr (fun j _ h2 => F1 j h2)
        · exact post4.built.congr (fun j h1 _ => F2 j (by omega))
        · intro j m h1 h2 hm
          rw [F1 j h2] at hm
          have hmem : m ∈ slice nodes2 min ((min + max) / 2) :=
            (mem_slice _ _ _ _).mpr ⟨j, h1, h2, hm⟩
          obtain ⟨m1, hm1mem, hpay⟩ := payload_mem_of_perm post2.perm hmem
          obtain ⟨j1, hj1a, hj1b, hj1⟩ := (mem_slice _ _ _ _).mp hm1mem
          have hc := pairwise_slice hsorted j1 ((min + max) / 2) m1 n2 hj1a hj1b hm2 hj1 hn1
          rw [depth_compar_le] at hc
          rw [← split_coord_payload depth m1 m hpay]
          exact hc
        · intro j m h1 h2 hm
          rw [F2 j h1] at hm
          have hmem : m ∈ slice nodes4 ((min + max) / 2 + 1) max :=
            (mem_slice _ _ _ _).mpr ⟨j, by omega, h2, hm⟩
          obtain ⟨m1, hm1mem, hpay⟩ := payload_mem_of_perm post4.perm hmem
          obtain ⟨j1, hj1a, hj1b, hj1⟩ := (mem_slice _ _ _ _).mp hm1mem
          rw [G j1 (by omega)] at hj1
          have hc := pairwise_slice hsorted ((min + max) / 2) j1 n2 m1 hm1 (by omega) hj1b hn1 hj1
          rw [depth_compar_le] at hc
          rw [← split_coord_payload depth m1 m hpay]
          exact hc

/-! ## Theorems: nearest-neighbour search -/

theorem NearestPost.refl (nodes : List kdtree_node) (x y : ℚ) (S : Nat → Prop) (best : Int × ℚ)
    (h : ∀ j m, S j → nodes[j]? = some m → best.2 ≤ fdist2 x y m) :
    NearestPost nodes x y S best best :=
  ⟨le_refl _, h, Or.inl rfl⟩

theorem NearestPost.trans {nodes : List kdtree_node} {x y : ℚ} {S1 S2 S : Nat → Prop}
    {b0 b1 b2 : Int × ℚ} (h1 : NearestPost nodes x y S1 b0 b1)
    (h2 : NearestPost nodes x y S2 b1 b2) (hS : ∀ j, S j ↔ S1 j ∨ S2 j) :
    NearestPost nodes x y S b0 b2 := by
  obtain ⟨a1, a2, a3⟩ := h1
  obtain ⟨c1, c2, c3⟩ := h2
  refine ⟨le_trans c1 a1, ?_, ?_⟩
  · intro j m hj hm
    rcases (hS j).mp hj with hj | hj
    · exact le_trans c1 (a2 j m hj hm)
    · exact c2 j m hj hm
  · rcases c3 with e | ⟨j, m, hj, hm, e, hlt⟩
    · rw [e]
      rcases a3 with e0 | ⟨j, m, hj, hm, e0, hlt⟩
      · exact Or.inl e0
      · exact Or.inr ⟨j, m, (hS j).mpr (Or.inl hj), hm, e0, hlt⟩
    · exact Or.inr ⟨j, m, (hS j).mpr (Or.inr hj), hm, e, lt_of_lt_of_le hlt a1⟩

theorem node_at_natCast (nodes : List kdtree_node) (i : Nat) (n : kdtree_node)
    (h : nodes[i]? = some n) : node_at nodes (i : Int) = .ok n := by
  unfold node_at
  rw [if_pos (Int.natCast_nonneg i), Int.toNat_natCast, h]

theorem natCast_ne_neg_one (i : Nat) : ((i : Nat) : Int) ≠ -1 := by omega

/-- The computed squared distance is no smaller than its `x` part. -/
theorem fdist2_ge_dx (x y : ℚ) (m : kdtree_node) :
    fmul (fsub x m.x) (fsub x m.x) ≤ fdist2 x y m :=
  le_fadd_left (to_float_fmul _ _) (fmul_self_nonneg _)

/-- The computed squared distance is no smaller than its `y` part. -/
theorem fdist2_ge_dy (x y : ℚ) (m : kdtree_node) :
    fmul (fsub y m.y) (fsub y m.y) ≤ fdist2 x y m :=
  le_fadd_right (fmul_self_nonneg _) (to_float_fmul _ _)

/-- Pruning, right side: when the query is not beyond the splitting line of `n`
(`ad ≤ 0`), a node whose split coordinate is no smaller than that of `n` has a computed
squared distance of at least `ad * ad`. -/
theorem far_bound_right (x y : ℚ) (depth : Nat) (n m : kdtree_node)
    (had : (if depth % 2 ≠ 0 then fsub x n.x else fsub y n.y) ≤ 0)
    (hc : split_coord depth n ≤ split_coord depth m) :
    fmul (if depth % 2 ≠ 0 then fsub x n.x else fsub y n.y)
      (if depth % 2 ≠ 0 then fsub x n.x else fsub y n.y) ≤ fdist2 x y m := by
  unfold split_coord at hc
  by_cases hodd : depth % 2 ≠ 0
  · rw [if_pos hodd] at had ⊢
    rw [if_pos hodd, if_pos hodd] at hc
    have h1 := fsub_anti x hc
    refine le_trans (fmul_self_mono ?_) (fdist2_ge_dx x y m)
    rw [abs_of_nonpos had, abs_of_nonpos (le_trans h1 had)]
    linarith
  · rw [if_neg hodd] at had ⊢
    rw [if_neg hodd, if_neg hodd] at hc
    have h1 := fsub_anti y hc
    refine le_trans (fmul_self_mono ?_) (fdist2_ge_dy x y m)
    rw [abs_of_nonpos had, abs_of_nonpos (le_trans h1 had)]
    linarith

/-- Pruning, left side: when the query is beyond the splitting line of `n` (`ad > 0`), a
node whose split coordinate is no larger than that of `n` has a computed squared distance of
at least `ad * ad`. -/
theorem far_bound_left (x y : ℚ) (depth : Nat) (n m : kdtree_node)
    (had : ¬ (if depth % 2 ≠ 0 then fsub x n.x else fsub y n.y) ≤ 0)
    (hc : split_coord depth m ≤ split_coord depth n) :
    fmul (if depth % 2 ≠ 0 then fsub x n.x else fsub y n.y)
      (if depth % 2 ≠ 0 then fsub x n.x else fsub y n.y) ≤ fdist2 x y m := by
  unfold split_coord at hc
  by_cases hodd : depth % 2 ≠ 0
  · rw [if_pos hodd] at had ⊢
    rw [if_pos hodd, if_pos hodd] at hc
    have h1 := fsub_anti x hc
    have h0 := not_le.mp had
    refine le_trans (fmul_self_mono ?_) (fdist2_ge_dx x y m)
    rw [abs_of_pos h0, abs_of_pos (lt_of_lt_of_le h0 h1)]
    exact h1
  · rw [if_neg hodd] at had ⊢
    rw [if_neg hodd, if_neg hodd] at hc
    have h1 := fsub_anti y hc
    have h0 := not_le.mp had
    refine le_trans (fmul_self_mono ?_) (fdist2_ge_dy x y m)
    rw [abs_of_pos h0, abs_of_pos (lt_of_lt_of_le h0 h1)]
    exact h1

/-- The last step of `kdtree_nearest0`: the node's own distance against the running best. -/
theorem nearest_own_post (nodes : List kdtree_node) (x y : ℚ) (i : Nat) (n : kdtree_node)
    (hn : nodes[i]? = some n) (best : Int × ℚ) :
    NearestPost nodes x y (fun j => j = i) best
      (if fmul (fsub x n.x) (fsub x n.x) < best.2 then
        (if fadd (fmul (fsub x n.x) (fsub x n.x)) (fmul (fsub y n.y) (fsub y n.y)) < best.2 then
          ((i : Int), fadd (fmul (fsub x n.x) (fsub x n.x)) (fmul (fsub y n.y) (fsub y n.y)))
         else best)
       else best) := by
  have hd : fdist2 x y n =
      fadd (fmul (fsub x n.x) (fsub x n.x)) (fmul (fsub y n.y) (fsub y n.y)) := rfl
  have hdx := fdist2_ge_dx x y n
  have only : ∀ j m, j = i → nodes[j]? = some m → m = n := by
    intro j m hj hm
    rw [hj, hn] at hm
    exact (Option.some.inj hm).symm
  split_ifs with h1 h2
  · refine ⟨le_of_lt h2, ?_, Or.inr ⟨i, n, rfl, hn, rfl, h2⟩⟩
    intro j m hj hm
    rw [only j m hj hm]
    exact le_refl _
  · refine NearestPost.refl _ _ _ _ _ ?_
    intro j m hj hm
    rw [only j m hj hm, hd]
    exact not_lt.mp h2
  · refine NearestPost.refl _ _ _ _ _ ?_
    intro j m hj hm
    rw [only j m hj hm]
    exact le_trans (not_lt.mp h1) hdx

theorem kdtree_nearest0_spec (nodes : List kdtree_node) (x y : ℚ) {min max depth : Nat}
    {root : Int} (hb : Built nodes min max depth root) :
    ∀ (fuel : Nat) (best : Int × ℚ), max - min < fuel →
      ∃ best1, kdtree_nearest0 nodes x y fuel root depth best = .ok best1 ∧
        NearestPost nodes x y (fun j => min ≤ j ∧ j < max) best best1 := by
  induction hb with
  | empty min max depth hle =>
    intro fuel best hfuel
    obtain ⟨fuel, rfl⟩ : ∃ f, fuel = f + 1 := ⟨fuel - 1, by omega⟩
    refine ⟨best, ?_, NearestPost.refl _ _ _ _ _ ?_⟩
    · simp only [kdtree_nearest0, if_true]
    · intro j m hj; omega
  | node min max depth n hlt hn hl hr hlo hhi ihl ihr =>
    intro fuel best hfuel
    obtain ⟨fuel, rfl⟩ : ∃ f, fuel = f + 1 := ⟨fuel - 1, by omega⟩
    have hm1 : min ≤ (min + max) / 2 := by omega
    have hm2 : (min + max) / 2 < max := by omega
    have hnode := node_at_natCast nodes _ n hn
    have hne := natCast_ne_neg_one ((min + max) / 2)
    have hown := nearest_own_post nodes x y _ n hn
    have hsplit : ∀ j, (min ≤ j ∧ j < max) ↔
        ((min ≤ j ∧ j < (min + max) / 2) ∨ ((min + max) / 2 + 1 ≤ j ∧ j < max)) ∨
          j = (min + max) / 2 := by
      intro j; omega
    have hsplit2 : ∀ j, (min ≤ j ∧ j < max) ↔
        (((min + max) / 2 + 1 ≤ j ∧ j < max) ∨ (min ≤ j ∧ j < (min + max) / 2)) ∨
          j = (min + max) / 2 := by
      intro j; omega
    by_cases had : (if depth % 2 ≠ 0 then fsub x n.x else fsub y n.y) ≤ 0
    · -- near is the left half, far the right half
      obtain ⟨b1, hb1, p1⟩ := ihl fuel best (by omega)
      have hfar : ∀ j m, ((min + max) / 2 + 1 ≤ j ∧ j < max) → nodes[j]? = some m →
          fmul (if depth % 2 ≠ 0 then fsub x n.x else fsub y n.y)
            (if depth % 2 ≠ 0 then fsub x n.x else fsub y n.y) ≤ fdist2 x y m := by
        intro j m hj hm
        exact far_bound_right x y depth n m had (hhi j m (by omega) hj.2 hm)
      by_cases hpr : fmul (if depth % 2 ≠ 0 then fsub x n.x else fsub y n.y)
          (if depth % 2 ≠ 0 then fsub x n.x else fsub y n.y) < b1.2
      · obtain ⟨b2, hb2, p2⟩ := ihr fuel b1 (by omega)
        refine ⟨_, ?_, NearestPost.trans (NearestPost.trans p1 p2 (fun j => Iff.rfl)) (hown b2)
          hsplit⟩
        simp only [kdtree_nearest0, if_neg hne, hnode, if_pos had, hb1, if_pos hpr, hb2]
        split_ifs <;> rfl
      · have p2 : NearestPost nodes x y (fun j => (min + max) / 2 + 1 ≤ j ∧ j < max) b1 b1 :=
          NearestPost.refl _ _ _ _ _
            (fun j m hj hm => le_trans (not_lt.mp hpr) (hfar j m hj hm))
        refine ⟨_, ?_, NearestPost.trans (NearestPost.trans p1 p2 (fun j => Iff.rfl)) (hown b1)
          hsplit⟩
        simp only [kdtree_nearest0, if_neg hne, hnode, if_pos had, hb1, if_neg hpr]
        split_ifs <;> rfl
    · -- near is the right half, far the left half
      obtain ⟨b1, hb1, p1⟩ := ihr fuel best (by omega)
      have hfar : ∀ j m, (min ≤ j ∧ j < (min + max) / 2) → nodes[j]? = some m →
          fmul (if depth % 2 ≠ 0 then fsub x n.x else fsub y n.y)
            (if depth % 2 ≠ 0 then fsub x n.x else fsub y n.y) ≤ fdist2 x y m := by
        intro j m hj hm
        exact far_bound_left x y depth n m had (hlo j m hj.1 hj.2 hm)
      by_cases hpr : fmul (if depth % 2 ≠ 0 then fsub x n.x else fsub y n.y)
          (if depth % 2 ≠ 0 then fsub x n.x else fsub y n.y) < b1.2
      · obtain ⟨b2, hb2, p2⟩ := ihl fuel b1 (by omega)
        refine ⟨_, ?_, NearestPost.trans (NearestPost.trans p1 p2 (fun j => Iff.rfl)) (hown b2)
          hsplit2⟩
        simp only [kdtree_nearest0, if_neg hne, hnode, if_neg had, hb1, if_pos hpr, hb2]
        split_ifs <;> rfl
      · have p2 : NearestPost nodes x y (fun j => min ≤ j ∧ j < (min + max) / 2) b1 b1 :=
          NearestPost.refl _ _ _ _ _
            (fun j m hj hm => le_trans (not_lt.mp hpr) (hfar j m hj hm))
        refine ⟨_, ?_, NearestPost.trans (NearestPost.trans p1 p2 (fun j => Iff.rfl)) (hown b1)
          hsplit2⟩
        simp only [kdtree_nearest0, if_neg hne, hnode, if_neg had, hb1, if_neg hpr]
        split_ifs <;> rfl

/-! ## Theorems: the array branch of `kdtree_initialize` -/

theorem filled_length (mem : Nat → kdtree_node) :
    ∀ (points : List (Option Point)) (i : Nat), (filled mem i points).length = points.length
  | [], _ => rfl
  | some _ :: rest, i => by
    simp only [filled, List.length_cons, filled_length mem rest (i + 1)]
  | none :: rest, i => by
    simp only [filled, List.length_cons, filled_length mem rest (i + 1)]

theorem filled_payload (mem : Nat → kdtree_node) :
    ∀ (pts : List Point) (i : Nat), (filled mem i (pts.map some)).map payload = pts.map stored
  | [], _ => rfl
  | p :: rest, i => by
    simp only [List.map_cons, filled, filled_payload mem rest (i + 1)]
    rfl

/-- The loop of `kdtree_initialize` finishes when every id fits `int`. -/
theorem fill_nodes_ok (mem : Nat → kdtree_node) :
    ∀ (points : List (Option Point)) (i : Nat), (∀ p, some p ∈ points → IsInt32 p.id) →
      fill_nodes mem i points = .ok (filled mem i points)
  | [], _, _ => rfl
  | some p :: rest, i, h => by
    have hp := h p (List.mem_cons_self _ _)
    have hr := fill_nodes_ok mem rest (i + 1) (fun p hp => h p (List.mem_cons_of_mem _ hp))
    have hc : ¬ (p.id < -INT_MAX - 1 ∨ INT_MAX < p.id) := by
      unfold IsInt32 at hp
      unfold INT_MAX
      omega
    simp only [fill_nodes, if_neg hc, hr, filled]
  | none :: rest, i, h => by
    have hr := fill_nodes_ok mem rest (i + 1) (fun p hp => h p (List.mem_cons_of_mem _ hp))
    simp only [fill_nodes, hr, filled]

/-- The loop of `kdtree_initialize` raises `RangeError` when some id does not fit `int`. -/
theorem fill_nodes_range_error (mem : Nat → kdtree_node) :
    ∀ (points : List (Option Point)) (i : Nat), (∃ p, some p ∈ points ∧ ¬ IsInt32 p.id) →
      fill_nodes mem i points = .error .rangeError
  | [], _, h => by
    obtain ⟨p, hp, _⟩ := h
    exact absurd hp (List.not_mem_nil _)
  | some p0 :: rest, i, h => by
    by_cases hc : p0.id < -INT_MAX - 1 ∨ INT_MAX < p0.id
    · simp only [fill_nodes, if_pos hc]
    · have hrest : ∃ p, some p ∈ rest ∧ ¬ IsInt32 p.id := by
        obtain ⟨p, hp, hbad⟩ := h
        rcases List.mem_cons.mp hp with e | hmem
        · exfalso
          cases e
          apply hbad
          unfold IsInt32
          unfold INT_MAX at hc
          omega
        · exact ⟨p, hmem, hbad⟩
      simp only [fill_nodes, if_neg hc, fill_nodes_range_error mem rest (i + 1) hrest]
  | none :: rest, i, h => by
    have hrest : ∃ p, some p ∈ rest ∧ ¬ IsInt32 p.id := by
      obtain ⟨p, hp, hbad⟩ := h
      rcases List.mem_cons.mp hp with e | hmem
      · cases e
      · exact ⟨p, hmem, hbad⟩
    simp only [fill_nodes, fill_nodes_range_error mem rest (i + 1) hrest]

theorem slice_all (nodes : List kdtree_node) : slice nodes 0 nodes.length = nodes := by
  unfold slice
  simp

/-- The array branch of `kdtree_initialize` returns an index for every array of at most
`2 ^ 30` entries whose ids fit `int`: `len` is the length of the input array, the store has
`len` slots holding the coordinates and ids that the input loop wrote (in some order), and
the links have the built shape from `root`. -/
theorem kdtree_initialize_array_spec (q : Qsort) (mem : Nat → kdtree_node)
    (points : List (Option Point)) (hlen : points.length ≤ 1073741824)
    (hid : ∀ p, some p ∈ points → IsInt32 p.id) :
    ∃ t, kdtree_initialize_array q mem points = .ok t ∧
      t.len = points.length ∧ t.nodes.length = points.length ∧
      List.Perm (t.nodes.map payload) ((filled mem 0 points).map payload) ∧
      Built t.nodes 0 points.length 0 t.root := by
  have hfl := filled_length mem points 0
  have hfill := fill_nodes_ok mem points 0 hid
  obtain ⟨nodes1, root, hb, post⟩ :=
    kdtree_build_spec q (points.length + 1) (filled mem 0 points) 0 points.length 0
      (by omega) hlen (by omega)
  have hov : ¬ INT_MAX < (points.length : Int) := by
    unfold INT_MAX
    omega
  refine ⟨{ root := root, len := points.length, nodes := nodes1 }, ?_, rfl, ?_, ?_, post.built⟩
  · simp only [kdtree_initialize_array, if_neg hov, hfill, hb]
  · show nodes1.length = points.length
    rw [post.length_eq, hfl]
  · have hp := post.perm
    have e1 : slice nodes1 0 points.length = nodes1 := by
      have := slice_all nodes1
      rw [post.length_eq, hfl] at this
      exact this
    have e2 : slice (filled mem 0 points) 0 points.length = filled mem 0 points := by
      have := slice_all (filled mem 0 points)
      rw [hfl] at this
      exact this
    rw [e1, e2] at hp
    exact hp

/-- On a store in the built shape, `kdtree_nearest` returns given a recursion budget larger
than the store: `-1` when no node has a computed squared distance below `(float)INT_MAX`,
and otherwise the id of a node whose computed squared distance is the smallest of the
store. -/
theorem kdtree_nearest_spec (t : kdtree_data) (x y : ℚ) (fuel : Nat)
    (hb : Built t.nodes 0 t.nodes.length 0 t.root) (hfuel : t.nodes.length < fuel) :
    ((∀ m ∈ t.nodes, to_float (INT_MAX : ℚ) ≤ fdist2 (to_float x) (to_float y) m) ∧
      kdtree_nearest fuel t x y = .ok (-1)) ∨
    (∃ n ∈ t.nodes, fdist2 (to_float x) (to_float y) n < to_float (INT_MAX : ℚ) ∧
      (∀ m ∈ t.nodes,
        fdist2 (to_float x) (to_float y) n ≤ fdist2 (to_float x) (to_float y) m) ∧
      kdtree_nearest fuel t x y = .ok n.id) := by
  obtain ⟨best1, h0, p1, p2, p3⟩ :=
    kdtree_nearest0_spec t.nodes (to_float x) (to_float y) hb fuel
      (-1, to_float (INT_MAX : ℚ)) (by omega)
  have hall : ∀ m ∈ t.nodes, best1.2 ≤ fdist2 (to_float x) (to_float y) m := by
    intro m hm
    rcases List.mem_iff_getElem?.mp hm with ⟨j, hj⟩
    exact p2 j m ⟨Nat.zero_le _, lt_length_of_getElem? hj⟩ hj
  rcases p3 with e | ⟨j, m, hj, hm, e, hlt⟩
  · left
    rw [e] at hall h0
    refine ⟨hall, ?_⟩
    simp only [kdtree_nearest, h0, if_true]
  · right
    rw [e] at hall h0
    refine ⟨m, List.mem_iff_getElem?.mpr ⟨j, hm⟩, hlt, hall, ?_⟩
    simp only [kdtree_nearest, h0, if_neg (natCast_ne_neg_one j), node_at_natCast _ _ _ hm]

/-! ## Theorems: k-nearest search -/

/-- The binary search returns the first slot whose distance is not below `d`. -/
theorem find_spot_spec (k_list : List kresult) (d : ℚ) (hs : SortedResults k_list) :
    ∀ (fuel lo hi : Nat), lo ≤ hi → hi ≤ k_list.length → hi - lo < fuel →
      (∀ i r, i < lo → k_list[i]? = some r → r.distance < d) →
      (∀ i r, hi ≤ i → k_list[i]? = some r → d ≤ r.distance) →
      ∃ pos, find_spot k_list d fuel lo hi = .ok pos ∧ pos ≤ k_list.length ∧
        (∀ i r, i < pos → k_list[i]? = some r → r.distance < d) ∧
        (∀ i r, pos ≤ i → k_list[i]? = some r → d ≤ r.distance) := by
  intro fuel
  induction fuel with
  | zero => intro _ _ _ _ h; omega
  | succ fuel ih =>
    intro lo hi hle hhi hfuel hlo hup
    by_cases hlt : lo < hi
    · have hmid1 : lo ≤ (lo + hi) / 2 := by omega
      have hmid2 : (lo + hi) / 2 < hi := by omega
      have hmidlen : (lo + hi) / 2 < k_list.length := by omega
      have hr : k_list[(lo + hi) / 2]? = some (k_list[(lo + hi) / 2]) :=
        List.getElem?_eq_getElem hmidlen
      by_cases hc : (k_list[(lo + hi) / 2]).distance < d
      · obtain ⟨pos, h1, h2, h3, h4⟩ := ih ((lo + hi) / 2 + 1) hi (by omega) hhi (by omega)
          (by
            intro i r hi1 hir
            rcases Nat.lt_or_ge i ((lo + hi) / 2) with h | h
            · rcases List.getElem?_eq_some.mp hir with ⟨hil, hie⟩
              have := List.pairwise_iff_getElem.mp hs i ((lo + hi) / 2) hil hmidlen h
              rw [hie] at this
              exact lt_of_le_of_lt this hc
            · have e : i = (lo + hi) / 2 := by omega
              rw [e, hr] at hir
              rw [← Option.some.inj hir]
              exact hc)
          hup
        refine ⟨pos, ?_, h2, h3, h4⟩
        simp only [find_spot, if_pos hlt, hr, if_pos hc, h1]
      · obtain ⟨pos, h1, h2, h3, h4⟩ := ih lo ((lo + hi) / 2) hmid1 (by omega) (by omega) hlo
          (by
            intro i r hi1 hir
            rcases Nat.eq_or_lt_of_le hi1 with h | h
            · rw [← h, hr] at hir
              rw [← Option.some.inj hir]
              exact not_lt.mp hc
            · rcases List.getElem?_eq_some.mp hir with ⟨hil, hie⟩
              have := List.pairwise_iff_getElem.mp hs ((lo + hi) / 2) i hmidlen hil h
              rw [hie] at this
              exact le_trans (not_lt.mp hc) this)
        refine ⟨pos, ?_, h2, h3, h4⟩
        simp only [find_spot, if_pos hlt, hr, if_neg hc, h1]
    · have e : lo = hi := by omega
      subst e
      refine ⟨lo, ?_, hhi, hlo, hup⟩
      simp only [find_spot, if_neg hlt]

theorem find_spot_start (k_list : List kresult) (d : ℚ) (hs : SortedResults k_list) :
    ∃ pos, find_spot k_list d (k_list.length + 1) 0 k_list.length = .ok pos ∧
      pos ≤ k_list.length ∧
      (∀ r ∈ k_list.take pos, r.distance < d) ∧ (∀ r ∈ k_list.drop pos, d ≤ r.distance) := by
  obtain ⟨pos, h1, h2, h3, h4⟩ := find_spot_spec k_list d hs (k_list.length + 1) 0 k_list.length
    (Nat.zero_le _) (le_refl _) (by omega) (fun i r h _ => absurd h (Nat.not_lt_zero i))
    (fun i r h hir => absurd (lt_of_lt_of_le (List.getElem?_eq_some.mp hir).1 h) (lt_irrefl _))
  refine ⟨pos, h1, h2, ?_, ?_⟩
  · intro r hr
    rcases List.mem_iff_getElem?.mp hr with ⟨i, hi⟩
    rw [List.getElem?_take] at hi
    split_ifs at hi with hlt
    exact h3 i r hlt hi
  · intro r hr
    rcases List.mem_iff_getElem?.mp hr with ⟨i, hi⟩
    rw [List.getElem?_drop] at hi
    exact h4 (pos + i) r (by omega) hi

theorem sorted_insert (k_list : List kresult) (pos : Nat) (e : kresult)
    (hs : SortedResults k_list) (h1 : ∀ r ∈ k_list.take pos, r.distance < e.distance)
    (h2 : ∀ r ∈ k_list.drop pos, e.distance ≤ r.distance) :
    SortedResults (k_list.take pos ++ e :: k_list.drop pos) := by
  unfold SortedResults at hs ⊢
  rw [List.pairwise_append]
  refine ⟨hs.sublist (List.take_sublist _ _), ?_, ?_⟩
  · rw [List.pairwise_cons]
    exact ⟨h2, hs.sublist (List.drop_sublist _ _)⟩
  · intro a ha b hb
    rcases List.mem_cons.mp hb with hb | hb
    · rw [hb]; exact le_of_lt (h1 a ha)
    · exact le_trans (le_of_lt (h1 a ha)) (h2 b hb)

theorem mem_insert_iff (k_list : List kresult) (pos : Nat) (e r : kresult) :
    r ∈ k_list.take pos ++ e :: k_list.drop pos ↔ r = e ∨ r ∈ k_list := by
  rw [List.mem_append, List.mem_cons]
  constructor
  · rintro (h | h | h)
    · exact Or.inr (List.mem_of_mem_take h)
    · exact Or.inl h
    · exact Or.inr (List.mem_of_mem_drop h)
  · rintro (h | h)
    · exact Or.inr (Or.inl h)
    · rw [← List.take_append_drop pos k_list, List.mem_append] at h
      rcases h with h | h
      · exact Or.inl h
      · exact Or.inr (Or.inr h)

theorem length_insert (k_list : List kresult) (pos : Nat) (e : kresult)
    (h : pos ≤ k_list.length) :
    (k_list.take pos ++ e :: k_list.drop pos).length = k_list.length + 1 := by
  simp only [List.length_append, List.length_cons, List.length_take, List.length_drop]
  omega

/-- The insertion step keeps the buffer invariant; it returns exactly when the buffer that
was passed has a free slot after the live ones. -/
theorem insert_result_spec (nodes : List kdtree_node) (x y : ℚ) (k : Int) (cap : Nat)
    (st : List kresult × ℚ) (i : Nat) (n : kdtree_node) (hk : 1 ≤ k)
    (hinv : KInv nodes x y k st) (hn : nodes[i]? = some n) :
    ∃ st1, insert_result k cap st.1 st.2 (i : Int) (fdist2 x y n) =
        (if st.1.length < cap then .ok st1 else .error .bufferOverflow) ∧
      KInv nodes x y k st1 := by
  obtain ⟨pos, hf, hpos, hbefore, hafter⟩ := find_spot_start st.1 (fdist2 x y n) hinv.sorted
  have hlen := length_insert st.1 pos { index := (i : Int), distance := fdist2 x y n } hpos
  have hsorted := sorted_insert st.1 pos { index := (i : Int), distance := fdist2 x y n }
    hinv.sorted hbefore hafter
  have hent : ∀ r ∈ st.1.take pos ++ { index := (i : Int), distance := fdist2 x y n } ::
      st.1.drop pos, ∃ (j : Nat) (m : kdtree_node),
        r.index = (j : Int) ∧ nodes[j]? = some m ∧ r.distance = fdist2 x y m := by
    intro r hr
    rcases (mem_insert_iff _ _ _ _).mp hr with h | h
    · exact ⟨i, n, by rw [h], hn, by rw [h]⟩
    · exact hinv.entries r h
  have hins : insert_result k cap st.1 st.2 (i : Int) (fdist2 x y n) =
      (if st.1.length < cap then
        (if (st.1.length : Int) < k then
          .ok (st.1.take pos ++ { index := (i : Int), distance := fdist2 x y n } ::
            st.1.drop pos, st.2)
        else
          match result_at (st.1.take pos ++ { index := (i : Int), distance := fdist2 x y n } ::
              st.1.drop pos) (k - 1) with
          | .error e => .error e
          | .ok r => .ok ((st.1.take pos ++ { index := (i : Int), distance := fdist2 x y n } ::
              st.1.drop pos).take st.1.length, r.distance))
       else .error .bufferOverflow) := by
    simp only [insert_result, hf]
  rw [hins]
  generalize st.1.take pos ++ { index := (i : Int), distance := fdist2 x y n } :: st.1.drop pos
    = L1 at hlen hsorted hent
  by_cases hgrow : (st.1.length : Int) < k
  · refine ⟨(L1, st.2), ?_, ⟨?_, hsorted, hent⟩⟩
    · rw [if_pos hgrow]
    · show (L1.length : Int) ≤ k
      rw [hlen]
      push_cast
      omega
  · have hfull : (st.1.length : Int) = k := le_antisymm hinv.len_le (not_lt.mp hgrow)
    have hidx : (k - 1).toNat < L1.length := by
      rw [hlen]; omega
    have hres : result_at L1 (k - 1) = .ok (L1[(k - 1).toNat]) := by
      unfold result_at
      rw [if_pos (by omega), List.getElem?_eq_getElem hidx]
    refine ⟨(L1.take st.1.length, (L1[(k - 1).toNat]).distance), ?_, ⟨?_, ?_, ?_⟩⟩
    · rw [if_neg hgrow, hres]
    · show ((List.take st.1.length L1).length : Int) ≤ k
      rw [List.length_take, hlen]
      have : min st.1.length (st.1.length + 1) = st.1.length := by omega
      rw [this, hfull]
    · exact hsorted.sublist (List.take_sublist _ _)
    · intro r hr
      exact hent r (List.mem_of_mem_take hr)

theorem node_at_ok {nodes : List kdtree_node} {i : Int} {n : kdtree_node}
    (h : node_at nodes i = .ok n) : ∃ j : Nat, i = (j : Int) ∧ nodes[j]? = some n := by
  unfold node_at at h
  split_ifs at h with h0
  split at h
  · rename_i m hm
    refine ⟨i.toNat, (Int.toNat_of_nonneg h0).symm, ?_⟩
    rw [hm]
    cases h
    rfl
  · cases h

/-- Whatever the node store holds, a traversal that returns leaves the buffer invariant
in place. -/
theorem kdtree_nearestk0_inv (nodes : List kdtree_node) (x y : ℚ) (k : Int) (cap : Nat)
    (hk : 1 ≤ k) :
    ∀ (fuel : Nat) (i : Int) (depth : Nat) (st st1 : List kresult × ℚ),
      kdtree_nearestk0 nodes x y k cap fuel i depth st = .ok st1 →
      KInv nodes x y k st → KInv nodes x y k st1 := by
  intro fuel
  induction fuel with
  | zero =>
    intro i depth st st1 h _
    simp only [kdtree_nearestk0] at h
    cases h
  | succ fuel ih =>
    intro i depth st st1 h hinv
    rw [kdtree_nearestk0] at h
    by_cases hi : i = -1
    · rw [if_pos hi] at h
      cases h; exact hinv
    · rw [if_neg hi] at h
      cases hnode : node_at nodes i with
      | error e => rw [hnode] at h; cases h
      | ok n =>
        rw [hnode] at h
        obtain ⟨j, hj, hjn⟩ := node_at_ok hnode
        simp only [] at h
        generalize (if depth % 2 ≠ 0 then fsub x n.x else fsub y n.y) = ad at h
        generalize (if ad ≤ 0 then n.left else n.right) = near at h
        generalize (if ad ≤ 0 then n.right else n.left) = far at h
        cases h2 : kdtree_nearestk0 nodes x y k cap fuel near (depth + 1) st with
        | error e => rw [h2] at h; cases h
        | ok st2 =>
          rw [h2] at h
          simp only [] at h
          have inv2 := ih _ _ _ _ h2 hinv
          cases h3 : (if fmul ad ad < st2.2 then
              kdtree_nearestk0 nodes x y k cap fuel far (depth + 1) st2 else .ok st2) with
          | error e => rw [h3] at h; cases h
          | ok st3 =>
            rw [h3] at h
            simp only [] at h
            have inv3 : KInv nodes x y k st3 := by
              by_cases hp : fmul ad ad < st2.2
              · rw [if_pos hp] at h3
                exact ih _ _ _ _ h3 inv2
              · rw [if_neg hp] at h3
                cases h3; exact inv2
            by_cases hdx : fmul (fsub x n.x) (fsub x n.x) < st3.2
            · rw [if_pos hdx] at h
              by_cases hd : fadd (fmul (fsub x n.x) (fsub x n.x)) (fmul (fsub y n.y) (fsub y n.y)) < st3.2
              · rw [if_pos hd] at h
                obtain ⟨st4, h4, inv4⟩ := insert_result_spec nodes x y k cap st3 j n hk inv3 hjn
                rw [hj] at h
                have e : fadd (fmul (fsub x n.x) (fsub x n.x)) (fmul (fsub y n.y) (fsub y n.y)) = fdist2 x y n := rfl
                rw [e, h4] at h
                by_cases hc : st3.1.length < cap
                · rw [if_pos hc] at h
                  cases h
                  exact inv4
                · rw [if_neg hc] at h
                  cases h
              · rw [if_neg hd] at h
                cases h; exact inv3
            · rw [if_neg hdx] at h
              cases h; exact inv3

/-- On a range in the built shape the traversal returns, given a recursion budget larger
than the range and a buffer with more than `k` slots. -/
theorem kdtree_nearestk0_ok (nodes : List kdtree_node) (x y : ℚ) (k : Int) (cap : Nat)
    (hk : 1 ≤ k) (hcap : k < (cap : Int)) {min max depth : Nat} {root : Int}
    (hb : Built nodes min max depth root) :
    ∀ (fuel : Nat) (st : List kresult × ℚ), max - min < fuel → KInv nodes x y k st →
      ∃ st1, kdtree_nearestk0 nodes x y k cap fuel root depth st = .ok st1 := by
  induction hb with
  | empty min max depth hle =>
    intro fuel st hfuel _
    obtain ⟨fuel, rfl⟩ : ∃ f, fuel = f + 1 := ⟨fuel - 1, by omega⟩
    exact ⟨st, by simp only [kdtree_nearestk0, if_true]⟩
  | node min max depth n hlt hn hl hr hlo hhi ihl ihr =>
    intro fuel st hfuel hinv
    obtain ⟨fuel, rfl⟩ : ∃ f, fuel = f + 1 := ⟨fuel - 1, by omega⟩
    have hnode := node_at_natCast nodes _ n hn
    have hne := natCast_ne_neg_one ((min + max) / 2)
    have hsub : ∀ lnk : Int, lnk = n.left ∨ lnk = n.right → ∀ st : List kresult × ℚ,
        KInv nodes x y k st →
        ∃ st1, kdtree_nearestk0 nodes x y k cap fuel lnk (depth + 1) st = .ok st1 := by
      intro lnk hl st hst
      rcases hl with e | e
      · rw [e]; exact ihl fuel st (by omega) hst
      · rw [e]; exact ihr fuel st (by omega) hst
    rw [kdtree_nearestk0, if_neg hne, hnode]
    simp only []
    generalize (if depth % 2 ≠ 0 then fsub x n.x else fsub y n.y) = ad
    have hnear : (if ad ≤ 0 then n.left else n.right) = n.left ∨
        (if ad ≤ 0 then n.left else n.right) = n.right := by
      split_ifs
      · exact Or.inl rfl
      · exact Or.inr rfl
    have hfar : (if ad ≤ 0 then n.right else n.left) = n.left ∨
        (if ad ≤ 0 then n.right else n.left) = n.right := by
      split_ifs
      · exact Or.inr rfl
      · exact Or.inl rfl
    generalize (if ad ≤ 0 then n.left else n.right) = near at hnear
    generalize (if ad ≤ 0 then n.right else n.left) = far at hfar
    obtain ⟨st2, h2⟩ := hsub near hnear st hinv
    have inv2 := kdtree_nearestk0_inv nodes x y k cap hk _ _ _ _ _ h2 hinv
    rw [h2]
    simp only []
    have h3 : ∃ st3, (if fmul ad ad < st2.2 then
        kdtree_nearestk0 nodes x y k cap fuel far (depth + 1) st2 else .ok st2) = .ok st3 ∧
        KInv nodes x y k st3 := by
      by_cases hp : fmul ad ad < st2.2
      · rw [if_pos hp]
        obtain ⟨st3, h3⟩ := hsub far hfar st2 inv2
        exact ⟨st3, h3, kdtree_nearestk0_inv nodes x y k cap hk _ _ _ _ _ h3 inv2⟩
      · rw [if_neg hp]
        exact ⟨st2, rfl, inv2⟩
    obtain ⟨st3, h3, inv3⟩ := h3
    rw [h3]
    simp only []
    by_cases hdx : fmul (fsub x n.x) (fsub x n.x) < st3.2
    · rw [if_pos hdx]
      by_cases hd : fadd (fmul (fsub x n.x) (fsub x n.x)) (fmul (fsub y n.y) (fsub y n.y)) < st3.2
      · rw [if_pos hd]
        obtain ⟨st4, h4, _⟩ := insert_result_spec nodes x y k cap st3 _ n hk inv3 hn
        have e : fadd (fmul (fsub x n.x) (fsub x n.x)) (fmul (fsub y n.y) (fsub y n.y)) = fdist2 x y n := rfl
        have hc : st3.1.length < cap := by
          have := inv3.len_le
          omega
        rw [e, h4, if_pos hc]
        exact ⟨st4, rfl⟩
      · rw [if_neg hd]
        exact ⟨st3, rfl⟩
    · rw [if_neg hdx]
      exact ⟨st3, rfl⟩

theorem clamp_k_bounds (k : Int) : 1 ≤ clamp_k k ∧ clamp_k k ≤ 255 := by
  unfold clamp_k MAX_K
  split_ifs <;> omega

theorem KInv.init (nodes : List kdtree_node) (x y : ℚ) (k : Int) (kd : ℚ) (hk : 0 ≤ k) :
    KInv nodes x y k ([], kd) :=
  ⟨by simpa using hk, List.Pairwise.nil, fun r hr => absurd hr (List.not_mem_nil r)⟩

/-- The ids of a buffer whose entries all name slots of the store. -/
theorem result_ids_spec (nodes : List kdtree_node) (x y : ℚ) :
    ∀ (k_list : List kresult),
      (∀ r ∈ k_list, ∃ (j : Nat) (n : kdtree_node),
        r.index = (j : Int) ∧ nodes[j]? = some n ∧ r.distance = fdist2 x y n) →
      ∃ ns : List kdtree_node, result_ids nodes k_list = .ok (ns.map kdtree_node.id) ∧
        List.Forall₂ (fun r n => node_at nodes r.index = .ok n ∧ r.distance = fdist2 x y n)
          k_list ns
  | [], _ => ⟨[], rfl, List.Forall₂.nil⟩
  | r :: rest, h => by
    obtain ⟨j, n, hj, hn, hd⟩ := h r (List.mem_cons_self _ _)
    obtain ⟨ns, hns, hall⟩ := result_ids_spec nodes x y rest
      (fun r hr => h r (List.mem_cons_of_mem _ hr))
    have hnode : node_at nodes r.index = .ok n := by
      rw [hj]; exact node_at_natCast nodes j n hn
    refine ⟨n :: ns, ?_, List.Forall₂.cons ⟨hnode, hd⟩ hall⟩
    simp only [result_ids, hnode, hns, List.map_cons]

theorem kdtree_nearestk_list_inv (t : kdtree_data) (fuel : Nat) (x y : ℚ) (k : Int)
    (k_list : List kresult) (h : kdtree_nearestk_list fuel t x y k = .ok k_list) :
    ∃ kd, KInv t.nodes (to_float x) (to_float y) (clamp_k k) (k_list, kd) := by
  unfold kdtree_nearestk_list at h
  split at h
  · cases h
  · rename_i l kd h0
    cases h
    exact ⟨kd, kdtree_nearestk0_inv t.nodes (to_float x) (to_float y) (clamp_k k) _ (clamp_k_bounds k).1 _ _ _ _ _ h0
      (KInv.init _ _ _ _ _ (by have := (clamp_k_bounds k).1; omega))⟩

theorem kdtree_nearestk_list_ok (t : kdtree_data) (fuel : Nat) (x y : ℚ) (k : Int)
    (hb : Built t.nodes 0 t.nodes.length 0 t.root) (hfuel : t.nodes.length < fuel) :
    ∃ k_list, kdtree_nearestk_list fuel t x y k = .ok k_list := by
  have hcap : clamp_k k < (((MAX_K + 1).toNat : Nat) : Int) := by
    have := (clamp_k_bounds k).2
    unfold MAX_K
    omega
  obtain ⟨st1, h1⟩ := kdtree_nearestk0_ok t.nodes (to_float x) (to_float y) (clamp_k k) (MAX_K + 1).toNat
    (clamp_k_bounds k).1 hcap hb fuel ([], to_float (INT_MAX : ℚ)) (by omega)
    (KInv.init _ _ _ _ _ (by have := (clamp_k_bounds k).1; omega))
  refine ⟨st1.1, ?_⟩
  unfold kdtree_nearestk_list
  rw [h1]

theorem pairwise_of_forall₂ {nodes : List kdtree_node} {x y : ℚ} :
    ∀ {k_list : List kresult} {ns : List kdtree_node},
      List.Forall₂ (fun r n => node_at nodes r.index = .ok n ∧ r.distance = fdist2 x y n)
        k_list ns →
      SortedResults k_list → List.Pairwise (fun a b => fdist2 x y a ≤ fdist2 x y b) ns := by
  intro k_list ns hf
  induction hf with
  | nil => intro _; exact List.Pairwise.nil
  | @cons r n rest ns1 hab hrest ih =>
    intro hs
    unfold SortedResults at hs
    rw [List.pairwise_cons] at hs ⊢
    refine ⟨?_, ih hs.2⟩
    intro b hb
    obtain ⟨r2, hr2, _, hd2⟩ : ∃ r2, r2 ∈ rest ∧ node_at nodes r2.index = .ok b ∧
        r2.distance = fdist2 x y b := by
      clear ih hs
      induction hrest with
      | nil => cases hb
      | @cons r3 n3 rest3 ns3 hcd _ ih2 =>
        rcases List.mem_cons.mp hb with e | hmem
        · exact ⟨r3, List.mem_cons_self _ _, by rw [e]; exact hcd.1, by rw [e]; exact hcd.2⟩
        · obtain ⟨r2, h1, h2, h3⟩ := ih2 hmem
          exact ⟨r2, List.mem_cons_of_mem _ h1, h2, h3⟩
    rw [← hab.2, ← hd2]
    exact hs.1 r2 hr2

/-- An insertion into a buffer that is in ascending order leaves it in ascending order. -/
theorem insert_result_sorted (k : Int) (cap : Nat) (k_list : List kresult) (k_dist : ℚ)
    (i : Int) (d : ℚ) (st1 : List kresult × ℚ) (hs : SortedResults k_list)
    (h : insert_result k cap k_list k_dist i d = .ok st1) : SortedResults st1.1 := by
  obtain ⟨pos, hf, hpos, hbefore, hafter⟩ := find_spot_start k_list d hs
  have hsorted := sorted_insert k_list pos { index := i, distance := d } hs hbefore hafter
  simp only [insert_result, hf] at h
  split_ifs at h with h1 h2
  · cases h; exact hsorted
  · split at h
    · cases h
    · cases h
      exact hsorted.sublist (List.take_sublist _ _)

/-! ## Theorems: the shape of the built tree -/

theorem node_at_neg_one (nodes : List kdtree_node) : node_at nodes (-1) = .error .outOfBounds := by
  unfold node_at
  rw [if_neg (by omega)]

theorem descend_nil_natCast (nodes : List kdtree_node) (i : Nat) (n : kdtree_node)
    (h : nodes[i]? = some n) : descend nodes (i : Int) [] = some i := by
  simp only [descend, node_at_natCast nodes i n h, Int.toNat_natCast]

theorem descend_cons_natCast (nodes : List kdtree_node) (i : Nat) (n : kdtree_node)
    (h : nodes[i]? = some n) (b : Bool) (path : List Bool) :
    descend nodes (i : Int) (b :: path) =
      descend nodes (if b then n.right else n.left) path := by
  simp only [descend, node_at_natCast nodes i n h]

theorem descend_neg_one (nodes : List kdtree_node) (path : List Bool) :
    descend nodes (-1) path = none := by
  cases path with
  | nil => simp only [descend, node_at_neg_one]
  | cons b p => simp only [descend, node_at_neg_one]

theorem descend_append (nodes : List kdtree_node) :
    ∀ (p : List Bool) (i : Int) (j : Nat) (r : List Bool),
      descend nodes i p = some j → descend nodes i (p ++ r) = descend nodes (j : Int) r
  | [], i, j, r, h => by
    simp only [descend] at h
    split at h
    · rename_i n hn
      obtain ⟨j2, hj2, _⟩ := node_at_ok hn
      cases h
      rw [List.nil_append, hj2, Int.toNat_natCast]
    · cases h
  | b :: p, i, j, r, h => by
    simp only [descend] at h
    split at h
    · rename_i n hn
      simp only [List.cons_append, descend, hn]
      exact descend_append nodes p _ j r h
    · cases h

/-- Every walk that starts at the root of a built range ends inside the range. -/
theorem Built.descend_mem {nodes : List kdtree_node} {min max depth : Nat} {root : Int}
    (hb : Built nodes min max depth root) :
    ∀ (path : List Bool) (j : Nat), descend nodes root path = some j → min ≤ j ∧ j < max := by
  induction hb with
  | empty min max depth hle =>
    intro path j h
    rw [descend_neg_one] at h
    cases h
  | node min max depth n hlt hn hl hr hlo hhi ihl ihr =>
    intro path j h
    cases path with
    | nil =>
      rw [descend_nil_natCast nodes _ n hn] at h
      cases h
      omega
    | cons b p =>
      rw [descend_cons_natCast nodes _ n hn] at h
      cases b with
      | false =>
        have := ihl p j h
        omega
      | true =>
        have := ihr p j h
        omega

/-- The root of a built range is `-1` when the range is empty and a slot of the range
otherwise. -/
theorem Built.root_mem {nodes : List kdtree_node} {min max depth : Nat} {root : Int}
    (hb : Built nodes min max depth root) :
    (root = -1 ∧ max ≤ min) ∨ ∃ j : Nat, root = (j : Int) ∧ min ≤ j ∧ j < max := by
  induction hb with
  | empty min max depth hle => exact Or.inl ⟨rfl, hle⟩
  | node min max depth n hlt hn hl hr hlo hhi _ _ => exact Or.inr ⟨_, rfl, by omega, by omega⟩

/-- The links of every slot of a built range are `-1` or another slot of the range. -/
theorem Built.links {nodes : List kdtree_node} {min max depth : Nat} {root : Int}
    (hb : Built nodes min max depth root) :
    ∀ (i : Nat) (n : kdtree_node), min ≤ i → i < max → nodes[i]? = some n →
      (n.left = -1 ∨ ∃ j : Nat, n.left = (j : Int) ∧ min ≤ j ∧ j < max ∧ j ≠ i) ∧
      (n.right = -1 ∨ ∃ j : Nat, n.right = (j : Int) ∧ min ≤ j ∧ j < max ∧ j ≠ i) := by
  induction hb with
  | empty min max depth hle => intro i n h1 h2; omega
  | node min max depth n hlt hn hl hr hlo hhi ihl ihr =>
    intro i m h1 h2 hm
    rcases Nat.lt_trichotomy i ((min + max) / 2) with hlt2 | heq | hgt
    · obtain ⟨a, b⟩ := ihl i m h1 hlt2 hm
      constructor
      · rcases a with a | ⟨j, e, c1, c2, c3⟩
        · exact Or.inl a
        · exact Or.inr ⟨j, e, c1, by omega, c3⟩
      · rcases b with b | ⟨j, e, c1, c2, c3⟩
        · exact Or.inl b
        · exact Or.inr ⟨j, e, c1, by omega, c3⟩
    · rw [heq, hn] at hm
      cases hm
      constructor
      · rcases hl.root_mem with ⟨e, _⟩ | ⟨j, e, c1, c2⟩
        · exact Or.inl e
        · exact Or.inr ⟨j, e, c1, by omega, by omega⟩
      · rcases hr.root_mem with ⟨e, _⟩ | ⟨j, e, c1, c2⟩
        · exact Or.inl e
        · exact Or.inr ⟨j, e, by omega, c2, by omega⟩
    · obtain ⟨a, b⟩ := ihr i m (by omega) h2 hm
      constructor
      · rcases a with a | ⟨j, e, c1, c2, c3⟩
        · exact Or.inl a
        · exact Or.inr ⟨j, e, by omega, c2, c3⟩
      · rcases b with b | ⟨j, e, c1, c2, c3⟩
        · exact Or.inl b
        · exact Or.inr ⟨j, e, by omega, c2, c3⟩

/-- Every slot of a built range is reached from the root of the range by exactly one walk. -/
theorem Built.unique_path {nodes : List kdtree_node} {min max depth : Nat} {root : Int}
    (hb : Built nodes min max depth root) :
    ∀ j : Nat, min ≤ j → j < max → ∃! path, descend nodes root path = some j := by
  induction hb with
  | empty min max depth hle => intro j h1 h2; omega
  | node min max depth n hlt hn hl hr hlo hhi ihl ihr =>
    intro j h1 h2
    have key : ∀ (path : List Bool), descend nodes (((min + max) / 2 : Nat) : Int) path = some j →
        (path = [] ∧ j = (min + max) / 2) ∨
        (∃ p, path = false :: p ∧ descend nodes n.left p = some j ∧ j < (min + max) / 2) ∨
        (∃ p, path = true :: p ∧ descend nodes n.right p = some j ∧ (min + max) / 2 < j) := by
      intro path h
      cases path with
      | nil =>
        rw [descend_nil_natCast nodes _ n hn] at h
        cases h
        exact Or.inl ⟨rfl, rfl⟩
      | cons b p =>
        rw [descend_cons_natCast nodes _ n hn] at h
        cases b with
        | false =>
          exact Or.inr (Or.inl ⟨p, rfl, h, (hl.descend_mem p j h).2⟩)
        | true =>
          have := (hr.descend_mem p j h).1
          exact Or.inr (Or.inr ⟨p, rfl, h, by omega⟩)
    rcases Nat.lt_trichotomy j ((min + max) / 2) with hlt2 | heq | hgt
    · obtain ⟨p, hp, huniq⟩ := ihl j h1 hlt2
      refine ⟨false :: p, ?_, ?_⟩
      · show descend nodes _ (false :: p) = some j
        rw [descend_cons_natCast nodes _ n hn]
        exact hp
      · intro path h
        rcases key path h with ⟨_, e⟩ | ⟨p2, e, hd, _⟩ | ⟨p2, e, hd, hj⟩
        · omega
        · rw [e, huniq p2 hd]
        · omega
    · refine ⟨[], ?_, ?_⟩
      · show descend nodes _ [] = some j
        rw [descend_nil_natCast nodes _ n hn, heq]
      · intro path h
        rcases key path h with ⟨e, _⟩ | ⟨p2, e, hd, hj⟩ | ⟨p2, e, hd, hj⟩
        · exact e
        · omega
        · omega
    · obtain ⟨p, hp, huniq⟩ := ihr j (by omega) h2
      refine ⟨true :: p, ?_, ?_⟩
      · show descend nodes _ (true :: p) = some j
        rw [descend_cons_natCast nodes _ n hn]
        exact hp
      · intro path h
        rcases key path h with ⟨_, e⟩ | ⟨p2, e, hd, hj⟩ | ⟨p2, e, hd, _⟩
        · omega
        · omega
        · rw [e, huniq p2 hd]

theorem to_int_of_int32 (v : Int) (h : IsInt32 v) : to_int v = v := by
  unfold to_int
  unfold IsInt32 at h
  omega

theorem read_all_ok (io : List Byte) (len : Int) (h0 : 0 ≤ len) (h : len.toNat ≤ io.length) :
    read_all io len = .ok (io.take len.toNat, io.drop len.toNat) := by
  unfold read_all
  rw [if_neg (by omega), if_neg (by omega)]

theorem read_all_eof (io : List Byte) (len : Int) (h0 : 0 ≤ len) (h : io.length < len.toNat) :
    read_all io len = .error .endOfFile := by
  unfold read_all
  rw [if_neg (by omega), if_pos h]

theorem write_all_ok (io buf : List Byte) (len : Int) (h0 : 0 ≤ len)
    (h : len.toNat = buf.length) : write_all io buf len = .ok (io ++ buf) := by
  unfold write_all
  rw [if_neg (by omega), if_neg (by omega), h, List.take_length]

theorem node_bytes_length (L : Layout) (n : kdtree_node) : (node_bytes L n).length = 20 := by
  simp only [node_bytes, List.length_append, L.int_bytes_length, L.float_bytes_length]

theorem nodes_bytes_length (L : Layout) :
    ∀ nodes : List kdtree_node, (nodes_bytes L nodes).length = 20 * nodes.length
  | [] => rfl
  | n :: rest => by
    simp only [nodes_bytes, List.length_append, node_bytes_length, nodes_bytes_length L rest,
      List.length_cons]
    omega

theorem take_append_eq (a b : List Byte) (n : Nat) (h : a.length = n) :
    (a ++ b).take n = a := by
  rw [← h]; exact List.take_left a b

theorem drop_append_eq (a b : List Byte) (n : Nat) (h : a.length = n) :
    (a ++ b).drop n = b := by
  rw [← h]; exact List.drop_left a b

theorem node_of_bytes_node_bytes (L : Layout) (n : kdtree_node) (h : StorableNode L n) :
    node_of_bytes L (node_bytes L n) = n := by
  obtain ⟨hx, hy, hid, hl, hr⟩ := h
  have lx := L.float_bytes_length n.x
  have ly := L.float_bytes_length n.y
  have li := L.int_bytes_length n.id
  have ll := L.int_bytes_length n.left
  have lr := L.int_bytes_length n.right
  have e1 : (node_bytes L n).take 4 = L.float_bytes n.x := by
    simp only [node_bytes, List.append_assoc]
    exact take_append_eq _ _ 4 lx
  have d1 : (node_bytes L n).drop 4 = L.float_bytes n.y ++ (L.int_bytes n.id ++
      (L.int_bytes n.left ++ L.int_bytes n.right)) := by
    simp only [node_bytes, List.append_assoc]
    exact drop_append_eq _ _ 4 lx
  have d2 : (node_bytes L n).drop 8 = L.int_bytes n.id ++
      (L.int_bytes n.left ++ L.int_bytes n.right) := by
    rw [show 8 = 4 + 4 from rfl, ← List.drop_drop, d1]
    exact drop_append_eq _ _ 4 ly
  have d3 : (node_bytes L n).drop 12 = L.int_bytes n.left ++ L.int_bytes n.right := by
    rw [show 12 = 8 + 4 from rfl, ← List.drop_drop, d2]
    exact drop_append_eq _ _ 4 li
  have d4 : (node_bytes L n).drop 16 = L.int_bytes n.right := by
    rw [show 16 = 12 + 4 from rfl, ← List.drop_drop, d3]
    exact drop_append_eq _ _ 4 ll
  have e2 : ((node_bytes L n).drop 4).take 4 = L.float_bytes n.y := by
    rw [d1]; exact take_append_eq _ _ 4 ly
  have e3 : ((node_bytes L n).drop 8).take 4 = L.int_bytes n.id := by
    rw [d2]; exact take_append_eq _ _ 4 li
  have e4 : ((node_bytes L n).drop 12).take 4 = L.int_bytes n.left := by
    rw [d3]; exact take_append_eq _ _ 4 ll
  have e5 : ((node_bytes L n).drop 16).take 4 = L.int_bytes n.right := by
    rw [d4, ← lr]; exact List.take_length _
  unfold node_of_bytes
  rw [e1, e2, e3, e4, e5, hx, hy, L.int_value_bytes _ hid.1 hid.2,
    L.int_value_bytes _ hl.1 hl.2, L.int_value_bytes _ hr.1 hr.2]

theorem nodes_of_bytes_nodes_bytes (L : Layout) :
    ∀ (nodes : List kdtree_node) (rest : List Byte), (∀ n ∈ nodes, StorableNode L n) →
      nodes_of_bytes L nodes.length (nodes_bytes L nodes ++ rest) = nodes
  | [], _, _ => rfl
  | n :: tail, rest, h => by
    have hl := node_bytes_length L n
    simp only [nodes_bytes, List.length_cons, nodes_of_bytes, List.append_assoc]
    rw [take_append_eq _ _ 20 hl, drop_append_eq _ _ 20 hl,
      node_of_bytes_node_bytes L n (h n (List.mem_cons_self _ _)),
      nodes_of_bytes_nodes_bytes L tail rest (fun m hm => h m (List.mem_cons_of_mem _ hm))]

/-- For an index whose node array takes at most `INT_MAX` bytes, `kdtree_persist` appends the
tag, `root`, `len` and the node records in store order, which is `12 + 20 * len` bytes. -/
theorem kdtree_persist_spec (L : Layout) (t : kdtree_data) (io : List Byte)
    (hlen : t.len = (t.nodes.length : Int)) (hsize : 20 * t.len ≤ 2147483647) :
    kdtree_persist L t io = .ok (io ++ (KDTREE_MAGIC ++ (L.int_bytes t.root ++ L.int_bytes t.len
        ++ nodes_bytes L t.nodes))) ∧
      ((KDTREE_MAGIC ++ (L.int_bytes t.root ++ L.int_bytes t.len ++
        nodes_bytes L t.nodes)).length : Int) = 12 + 20 * t.len := by
  have h1 : write_all io KDTREE_MAGIC 4 = .ok (io ++ KDTREE_MAGIC) :=
    write_all_ok io KDTREE_MAGIC 4 (by omega) rfl
  have h2 : write_all (io ++ KDTREE_MAGIC) (L.int_bytes t.root ++ L.int_bytes t.len) 8 =
      .ok (io ++ KDTREE_MAGIC ++ (L.int_bytes t.root ++ L.int_bytes t.len)) :=
    write_all_ok _ _ 8 (by omega)
      (by simp only [List.length_append, L.int_bytes_length]; rfl)
  have h3 : to_int (20 * t.len) = 20 * t.len :=
    to_int_of_int32 _ ⟨by omega, hsize⟩
  have h4 : write_all (io ++ KDTREE_MAGIC ++ (L.int_bytes t.root ++ L.int_bytes t.len))
      (nodes_bytes L t.nodes) (20 * t.len) =
      .ok (io ++ KDTREE_MAGIC ++ (L.int_bytes t.root ++ L.int_bytes t.len) ++
        nodes_bytes L t.nodes) :=
    write_all_ok _ _ _ (by omega) (by rw [nodes_bytes_length, hlen]; omega)
  constructor
  · simp only [kdtree_persist, h1, h2, h3]
    rw [h4]
    simp only [List.append_assoc]
  · simp only [List.length_append, L.int_bytes_length, nodes_bytes_length, KDTREE_MAGIC,
      List.length_cons, List.length_nil]
    rw [hlen]
    push_cast
    omega

theorem kdtree_initialize_io_short_tag (L : Layout) (junk : Nat → Byte) (io : List Byte)
    (h : io.length < 4) : kdtree_initialize_io L junk io = .error .endOfFile := by
  unfold kdtree_initialize_io
  rw [read_all_eof io 4 (by omega) h]

theorem kdtree_initialize_io_bad_tag (L : Layout) (junk : Nat → Byte) (io : List Byte)
    (h : 4 ≤ io.length) (htag : io.take 4 ≠ KDTREE_MAGIC) :
    kdtree_initialize_io L junk io = .error .badMagic := by
  unfold kdtree_initialize_io
  rw [read_all_ok io 4 (by omega) h]
  simp only []
  rw [if_pos (fun e => htag e.symm)]

theorem kdtree_initialize_io_short_header (L : Layout) (junk : Nat → Byte) (io : List Byte)
    (htag : io.take 4 = KDTREE_MAGIC) (h : io.length < 12) :
    kdtree_initialize_io L junk io = .error .endOfFile := by
  have h4 : 4 ≤ io.length := by
    have := congrArg List.length htag
    rw [List.length_take] at this
    simp only [KDTREE_MAGIC, List.length_cons, List.length_nil] at this
    omega
  unfold kdtree_initialize_io
  rw [read_all_ok io 4 (by omega) h4]
  simp only []
  rw [if_neg (fun e => e htag.symm), read_all_eof _ 8 (by omega)
    (by rw [List.length_drop]; omega)]

/-- The header fields of a stream of at least 12 bytes. -/
theorem kdtree_initialize_io_header (L : Layout) (junk : Nat → Byte) (io : List Byte)
    (htag : io.take 4 = KDTREE_MAGIC) (h : 12 ≤ io.length) :
    kdtree_initialize_io L junk io =
      (if L.int_value (((io.drop 4).take 8).drop 4) < 0 then .error .negativeSize
       else
        match read_all ((io.drop 4).drop 8)
            (to_int (20 * L.int_value (((io.drop 4).take 8).drop 4))) with
        | .error e => .error e
        | .ok (raw, _) =>
          .ok { root := L.int_value (((io.drop 4).take 8).take 4),
                len := L.int_value (((io.drop 4).take 8).drop 4),
                nodes := nodes_of_bytes L (L.int_value (((io.drop 4).take 8).drop 4)).toNat
                  (raw ++ ((List.range
                    (20 * (L.int_value (((io.drop 4).take 8).drop 4)).toNat)).map junk).drop
                      raw.length) }) := by
  unfold kdtree_initialize_io
  rw [read_all_ok io 4 (by omega) (by omega)]
  simp only []
  rw [if_neg (fun e => e htag.symm), read_all_ok _ 8 (by omega)
    (by rw [List.length_drop]; omega)]
  rfl

theorem kdtree_initialize_io_short_nodes (L : Layout) (junk : Nat → Byte) (io : List Byte)
    (htag : io.take 4 = KDTREE_MAGIC) (h : 12 ≤ io.length)
    (h0 : 0 ≤ L.int_value (((io.drop 4).take 8).drop 4))
    (hsize : 20 * L.int_value (((io.drop 4).take 8).drop 4) ≤ 2147483647)
    (hshort : (io.length : Int) < 12 + 20 * L.int_value (((io.drop 4).take 8).drop 4)) :
    kdtree_initialize_io L junk io = .error .endOfFile := by
  rw [kdtree_initialize_io_header L junk io htag h, if_neg (by omega),
    to_int_of_int32 _ ⟨by omega, hsize⟩,
    read_all_eof _ _ (by omega) (by simp only [List.length_drop]; omega)]

/-- Reloading what `kdtree_persist` wrote: for an index the C struct can hold, whose node
array takes at most `INT_MAX` bytes, the stream branch of `kdtree_initialize` returns an
equal index. -/
theorem kdtree_initialize_io_persist (L : Layout) (junk : Nat → Byte) (t : kdtree_data)
    (hst : StorableIndex L t) (hsize : 20 * t.len ≤ 2147483647) :
    ∃ bytes, kdtree_persist L t [] = .ok bytes ∧ kdtree_initialize_io L junk bytes = .ok t := by
  obtain ⟨hlen, hroot, hlen32, hnodes⟩ := hst
  obtain ⟨hp, hpl⟩ := kdtree_persist_spec L t [] hlen hsize
  refine ⟨_, hp, ?_⟩
  rw [List.nil_append]
  have lr := L.int_bytes_length t.root
  have ll := L.int_bytes_length t.len
  have hlen0 : 0 ≤ t.len := by rw [hlen]; exact Int.natCast_nonneg _
  have d4 : (KDTREE_MAGIC ++ (L.int_bytes t.root ++ L.int_bytes t.len ++
      nodes_bytes L t.nodes)).drop 4 =
      L.int_bytes t.root ++ L.int_bytes t.len ++ nodes_bytes L t.nodes :=
    drop_append_eq _ _ 4 rfl
  have hl8 : (L.int_bytes t.root ++ L.int_bytes t.len).length = 8 := by
    simp only [List.length_append, lr, ll]
  have t8 : (L.int_bytes t.root ++ L.int_bytes t.len ++ nodes_bytes L t.nodes).take 8 =
      L.int_bytes t.root ++ L.int_bytes t.len := take_append_eq _ _ 8 hl8
  have d8 : (L.int_bytes t.root ++ L.int_bytes t.len ++ nodes_bytes L t.nodes).drop 8 =
      nodes_bytes L t.nodes := drop_append_eq _ _ 8 hl8
  have e1 : (L.int_bytes t.root ++ L.int_bytes t.len).take 4 = L.int_bytes t.root :=
    take_append_eq _ _ 4 lr
  have e2 : (L.int_bytes t.root ++ L.int_bytes t.len).drop 4 = L.int_bytes t.len :=
    drop_append_eq _ _ 4 lr
  have hnl := nodes_bytes_length L t.nodes
  have hr : read_all (nodes_bytes L t.nodes) (20 * t.len) = .ok (nodes_bytes L t.nodes, []) := by
    have hn : (20 * t.len).toNat = (nodes_bytes L t.nodes).length := by rw [hnl, hlen]; omega
    rw [read_all_ok _ _ (by omega) (by omega), hn, List.take_length, List.drop_length]
  rw [kdtree_initialize_io_header L junk _ (take_append_eq _ _ 4 rfl)
    (by have := hpl; omega)]
  rw [d4, t8, d8, e1, e2, L.int_value_bytes _ hroot.1 hroot.2,
    L.int_value_bytes _ hlen32.1 hlen32.2, if_neg (by omega),
    to_int_of_int32 _ ⟨by omega, hsize⟩, hr]
  simp only []
  have hdrop : ((List.range (20 * t.len.toNat)).map junk).drop (nodes_bytes L t.nodes).length
      = [] := by
    apply List.drop_eq_nil_of_le
    rw [List.length_map, List.length_range, hnl, hlen]
    omega
  have htn : t.len.toNat = t.nodes.length := by rw [hlen]; exact Int.toNat_natCast _
  rw [hdrop, htn, nodes_of_bytes_nodes_bytes L t.nodes [] hnodes]

/-! ## Theorems: walks, continued -/

theorem descend_nil_inv {nodes : List kdtree_node} {l : Int} {j : Nat}
    (h : descend nodes l [] = some j) : l = (j : Int) ∧ ∃ m, nodes[j]? = some m := by
  simp only [descend] at h
  split at h
  · rename_i m hm
    obtain ⟨j2, hj2, hm2⟩ := node_at_ok hm
    cases h
    rw [hj2, Int.toNat_natCast]
    exact ⟨rfl, m, hm2⟩
  · cases h

theorem descend_snoc (nodes : List kdtree_node) :
    ∀ (P : List Bool) (r : Int) (b : Bool) (j : Nat), descend nodes r (P ++ [b]) = some j →
      ∃ (i : Nat) (m : kdtree_node), descend nodes r P = some i ∧ nodes[i]? = some m ∧
        (if b then m.right else m.left) = (j : Int)
  | [], r, b, j, h => by
    simp only [List.nil_append, descend] at h
    split at h
    · rename_i m hm
      obtain ⟨i, hi, hmi⟩ := node_at_ok hm
      split at h
      · rename_i m2 hm2
        obtain ⟨j2, hj2, _⟩ := node_at_ok hm2
        cases h
        refine ⟨i, m, ?_, hmi, ?_⟩
        · rw [hi]; exact descend_nil_natCast nodes i m hmi
        · rw [hj2, Int.toNat_natCast]
      · cases h
    · cases h
  | b0 :: P, r, b, j, h => by
    simp only [List.cons_append, descend] at h
    split at h
    · rename_i m hm
      obtain ⟨i, m2, h1, h2, h3⟩ := descend_snoc nodes P _ b j h
      refine ⟨i, m2, ?_, h2, h3⟩
      simp only [descend, hm]
      exact h1
    · cases h

/-! ## Theorems: the codec at and below the `int` limit -/

theorem kdtree_persist_negative (L : Layout) (t : kdtree_data) (io : List Byte)
    (h : to_int (20 * t.len) < 0) : kdtree_persist L t io = .error .negativeSize := by
  have h1 : write_all io KDTREE_MAGIC 4 = .ok (io ++ KDTREE_MAGIC) :=
    write_all_ok io KDTREE_MAGIC 4 (by omega) rfl
  have h2 : write_all (io ++ KDTREE_MAGIC) (L.int_bytes t.root ++ L.int_bytes t.len) 8 =
      .ok (io ++ KDTREE_MAGIC ++ (L.int_bytes t.root ++ L.int_bytes t.len)) :=
    write_all_ok _ _ 8 (by omega)
      (by simp only [List.length_append, L.int_bytes_length]; rfl)
  simp only [kdtree_persist, h1, h2]
  unfold write_all
  rw [if_pos h]

theorem kdtree_persist_wrapped (L : Layout) (t : kdtree_data) (io : List Byte) (c : Nat)
    (h : to_int (20 * t.len) = (c : Int)) (hc : c ≤ 20 * t.nodes.length) :
    kdtree_persist L t io = .ok (io ++ KDTREE_MAGIC ++
      (L.int_bytes t.root ++ L.int_bytes t.len) ++ (nodes_bytes L t.nodes).take c) := by
  have h1 : write_all io KDTREE_MAGIC 4 = .ok (io ++ KDTREE_MAGIC) :=
    write_all_ok io KDTREE_MAGIC 4 (by omega) rfl
  have h2 : write_all (io ++ KDTREE_MAGIC) (L.int_bytes t.root ++ L.int_bytes t.len) 8 =
      .ok (io ++ KDTREE_MAGIC ++ (L.int_bytes t.root ++ L.int_bytes t.len)) :=
    write_all_ok _ _ 8 (by omega)
      (by simp only [List.length_append, L.int_bytes_length]; rfl)
  simp only [kdtree_persist, h1, h2, h]
  unfold write_all
  rw [if_neg (by omega), Int.toNat_natCast, if_neg (by rw [nodes_bytes_length]; omega)]

theorem small_index_storable : StorableIndex le_layout small_index := by
  unfold StorableIndex StorableNode IsInt32
  decide!

/-- Round trip below the `int` limit: for every index the C struct can hold whose node
array takes at most `INT_MAX` bytes (`len ≤ 107374182`), `kdtree_persist` on an empty stream
succeeds and the stream branch of `kdtree_initialize` on the written bytes succeeds with an
index of the same `len`, `root` and node array; `kdtree_nearest` and `kdtree_nearestk` then
agree on the two indexes for every query, `k` and recursion budget. -/
theorem persist_roundtrip (L : Layout) (junk : Nat → Byte) (t : kdtree_data)
    (hst : StorableIndex L t) (hsize : 20 * t.len ≤ 2147483647) :
    ∃ bytes t2, kdtree_persist L t [] = .ok bytes ∧
      kdtree_initialize_io L junk bytes = .ok t2 ∧
      t2.len = t.len ∧ t2.root = t.root ∧ t2.nodes = t.nodes ∧
      ∀ (fuel : Nat) (x y : ℚ) (k : Int),
        kdtree_nearest fuel t2 x y = kdtree_nearest fuel t x y ∧
        kdtree_nearestk fuel t2 x y k = kdtree_nearestk fuel t x y k := by
  obtain ⟨bytes, h1, h2⟩ := kdtree_initialize_io_persist L junk t hst hsize
  exact ⟨bytes, t, h1, h2, rfl, rfl, rfl, fun _ _ _ _ => ⟨rfl, rfl⟩⟩

theorem persist_roundtrip_example :
    ∃ bytes t2, kdtree_persist le_layout small_index [] = .ok bytes ∧
      kdtree_initialize_io le_layout zero_junk bytes = .ok t2 ∧
      t2.len = small_index.len ∧ t2.root = small_index.root ∧ t2.nodes = small_index.nodes ∧
      ∀ (fuel : Nat) (x y : ℚ) (k : Int),
        kdtree_nearest fuel t2 x y = kdtree_nearest fuel small_index x y ∧
        kdtree_nearestk fuel t2 x y k = kdtree_nearestk fuel small_index x y k :=
  persist_roundtrip le_layout zero_junk small_index small_index_storable (by decide)

/-- Load errors below the `int` limit: for every stream given to the stream branch of
`kdtree_initialize`, when its first 4 bytes are not the tag it fails with the bad-magic
error; when the tag matches and the stream holds fewer than 12 bytes, or holds the 12
header bytes, declares a `len` between `0` and `107374182` (`20 * len` fits an `int`) and
holds fewer than `12 + 20 * len` bytes, it fails with the end-of-stream error. -/
theorem deserialize_errors (L : Layout) (junk : Nat → Byte) (io : List Byte) :
    (4 ≤ io.length → io.take 4 ≠ KDTREE_MAGIC →
      kdtree_initialize_io L junk io = .error .badMagic) ∧
    (io.take 4 = KDTREE_MAGIC → io.length < 12 →
      kdtree_initialize_io L junk io = .error .endOfFile) ∧
    (io.take 4 = KDTREE_MAGIC → 12 ≤ io.length →
      0 ≤ L.int_value ((io.drop 8).take 4) →
      20 * L.int_value ((io.drop 8).take 4) ≤ 2147483647 →
      (io.length : Int) < 12 + 20 * L.int_value ((io.drop 8).take 4) →
      kdtree_initialize_io L junk io = .error .endOfFile) := by
  have e : ((io.drop 4).take 8).drop 4 = (io.drop 8).take 4 := by
    rw [List.drop_take, List.drop_drop]
  refine ⟨kdtree_initialize_io_bad_tag L junk io, kdtree_initialize_io_short_header L junk io,
    ?_⟩
  intro htag hlen h0 hsize hshort
  rw [← e] at h0 hsize hshort
  exact kdtree_initialize_io_short_nodes L junk io htag hlen h0 hsize hshort

theorem deserialize_errors_example :
    kdtree_initialize_io le_layout zero_junk [0, 0, 0, 0] = .error .badMagic ∧
    kdtree_initialize_io le_layout zero_junk KDTREE_MAGIC = .error .endOfFile ∧
    kdtree_initialize_io le_layout zero_junk
      (KDTREE_MAGIC ++ le_int_bytes 0 ++ le_int_bytes 1) = .error .endOfFile :=
  ⟨(deserialize_errors le_layout zero_junk [0, 0, 0, 0]).1 (by decide) (by decide),
   (deserialize_errors le_layout zero_junk KDTREE_MAGIC).2.1 (by decide) (by decide),
   (deserialize_errors le_layout zero_junk
      (KDTREE_MAGIC ++ le_int_bytes 0 ++ le_int_bytes 1)).2.2 (by decide) (by decide)
      (by decide) (by decide) (by decide)⟩

/-- File layout below the `int` limit: for every index whose `len` counts its nodes and
whose node array takes at most `INT_MAX` bytes (`len ≤ 107374182`), `kdtree_persist` appends
to the stream exactly `12 + 20 * len` bytes: the 4 tag bytes, then `root` and `len` in 4
bytes each, then the node records in store order, each being `x`, `y`, `id`, `left`,
`right` in 4 bytes apiece. -/
theorem persist_layout (L : Layout) (t : kdtree_data) (io : List Byte)
    (hlen : t.len = (t.nodes.length : Int)) (hsize : 20 * t.len ≤ 2147483647) :
    kdtree_persist L t io = .ok (io ++ (KDTREE_MAGIC ++ (L.int_bytes t.root ++ L.int_bytes t.len
        ++ nodes_bytes L t.nodes))) ∧
    ((KDTREE_MAGIC ++ (L.int_bytes t.root ++ L.int_bytes t.len ++
        nodes_bytes L t.nodes)).length : Int) = 12 + 20 * t.len ∧
    KDTREE_MAGIC = [75, 100, 84, 114] ∧
    (L.int_bytes t.root).length = 4 ∧ (L.int_bytes t.len).length = 4 ∧
    nodes_bytes L t.nodes = (t.nodes.map (fun n =>
      L.float_bytes n.x ++ L.float_bytes n.y ++ L.int_bytes n.id ++ L.int_bytes n.left ++
        L.int_bytes n.right)).flatten ∧
    (∀ n : kdtree_node, (L.float_bytes n.x).length = 4 ∧ (L.float_bytes n.y).length = 4 ∧
      (L.int_bytes n.id).length = 4 ∧ (L.int_bytes n.left).length = 4 ∧
      (L.int_bytes n.right).length = 4) := by
  obtain ⟨h1, h2⟩ := kdtree_persist_spec L t io hlen hsize
  refine ⟨h1, h2, rfl, L.int_bytes_length _, L.int_bytes_length _, ?_, ?_⟩
  · generalize t.nodes = nodes
    induction nodes with
    | nil => rfl
    | cons n rest ih =>
      simp only [nodes_bytes, List.map_cons, List.flatten_cons, ih]
      rfl
  · intro n
    exact ⟨L.float_bytes_length _, L.float_bytes_length _, L.int_bytes_length _,
      L.int_bytes_length _, L.int_bytes_length _⟩

theorem persist_layout_example :
    ∃ bytes, kdtree_persist le_layout small_index [] = .ok bytes ∧ bytes.length = 72 ∧
      bytes.take 4 = KDTREE_MAGIC := by
  obtain ⟨h1, h2, _⟩ := persist_layout le_layout small_index [] (by decide) (by decide)
  refine ⟨_, h1, ?_, ?_⟩
  · rw [List.nil_append]
    have h3 : (12 : Int) + 20 * small_index.len = 72 := by decide
    rw [h3] at h2
    exact_mod_cast h2
  · rw [List.nil_append]
    exact take_append_eq _ _ 4 rfl

/-! ## Theorems: the documentation example -/

theorem doc_index_built :
    kdtree_initialize_array insertion_qsort zero_mem doc_points = .ok doc_index := by
  decide!

/-! ## Theorems: completeness of the k-nearest search -/

theorem KPost.refl_of (nodes : List kdtree_node) (x y : ℚ) (S : Nat → Prop)
    (st : List kresult × ℚ) (h : ∀ j n, S j → nodes[j]? = some n → st.2 ≤ fdist2 x y n) :
    KPost nodes x y S st st :=
  ⟨le_refl _, fun j n hj hn => Or.inr (h j n hj hn), fun _ hr => Or.inl hr,
    fun _ hr => Or.inl hr, fun _ h => h⟩

theorem KPost.compose {nodes : List kdtree_node} {x y : ℚ} {S1 S2 S : Nat → Prop}
    {a b c : List kresult × ℚ} (h1 : KPost nodes x y S1 a b) (h2 : KPost nodes x y S2 b c)
    (hS : ∀ j, S j ↔ S1 j ∨ S2 j) (hdisj : ∀ j, S1 j → ¬ S2 j) : KPost nodes x y S a c := by
  refine ⟨le_trans h2.dist_le h1.dist_le, ?_, ?_, ?_, ?_⟩
  · intro j n hj hn
    rcases (hS j).mp hj with hj | hj
    · rcases h1.seen j n hj hn with hm | hd
      · rcases h2.kept _ hm with hm2 | hd2
        · exact Or.inl hm2
        · exact Or.inr hd2
      · exact Or.inr (le_trans h2.dist_le hd)
    · exact h2.seen j n hj hn
  · intro r hr
    rcases h1.kept r hr with hm | hd
    · exact h2.kept r hm
    · exact Or.inr (le_trans h2.dist_le hd)
  · intro r hr
    rcases h2.source r hr with hm | ⟨j, n, hj, hn, e⟩
    · rcases h1.source r hm with hm1 | ⟨j, n, hj, hn, e⟩
      · exact Or.inl hm1
      · exact Or.inr ⟨j, n, (hS j).mpr (Or.inl hj), hn, e⟩
    · exact Or.inr ⟨j, n, (hS j).mpr (Or.inr hj), hn, e⟩
  · intro hfree hnd
    have hb : (b.1.map kresult.index).Nodup :=
      h1.nodup (fun r hr j hj => hfree r hr j ((hS j).mpr (Or.inl hj))) hnd
    refine h2.nodup ?_ hb
    intro r hr j hj
    rcases h1.source r hr with hm | ⟨j1, n, hj1, _, e⟩
    · exact hfree r hm j ((hS j).mpr (Or.inr hj))
    · rw [e]
      intro heq
      have hcast : (j1 : Int) = (j : Int) := heq
      have : j1 = j := by exact_mod_cast hcast
      rw [this] at hj1
      exact hdisj j hj1 hj

theorem perm_insert (k_list : List kresult) (pos : Nat) (e : kresult) :
    List.Perm (k_list.take pos ++ e :: k_list.drop pos) (e :: k_list) := by
  have h := @List.perm_middle _ e (k_list.take pos) (k_list.drop pos)
  rw [List.take_append_drop] at h
  exact h

/-- The insertion step on a state that satisfies both invariants: it returns when the
buffer that was passed has a free slot, and it accounts for the inserted node. -/
theorem insert_result_post (nodes : List kdtree_node) (x y : ℚ) (k : Int) (cap : Nat)
    (st : List kresult × ℚ) (i : Nat) (n : kdtree_node) (hk : 1 ≤ k)
    (hinv : KInv nodes x y k st) (hbd : KBound k st) (hn : nodes[i]? = some n)
    (hd : fdist2 x y n < st.2) :
    ∃ st1, insert_result k cap st.1 st.2 (i : Int) (fdist2 x y n) =
        (if st.1.length < cap then .ok st1 else .error .bufferOverflow) ∧
      KInv nodes x y k st1 ∧ KBound k st1 ∧ KPost nodes x y (fun j => j = i) st st1 := by
  obtain ⟨pos, hf, hpos, hbefore, hafter⟩ := find_spot_start st.1 (fdist2 x y n) hinv.sorted
  have hlen := length_insert st.1 pos { index := (i : Int), distance := fdist2 x y n } hpos
  have hsorted := sorted_insert st.1 pos { index := (i : Int), distance := fdist2 x y n }
    hinv.sorted hbefore hafter
  have hmem := mem_insert_iff st.1 pos { index := (i : Int), distance := fdist2 x y n }
  have hperm := perm_insert st.1 pos { index := (i : Int), distance := fdist2 x y n }
  have hent : ∀ r ∈ st.1.take pos ++ { index := (i : Int), distance := fdist2 x y n } ::
      st.1.drop pos, ∃ (j : Nat) (m : kdtree_node),
        r.index = (j : Int) ∧ nodes[j]? = some m ∧ r.distance = fdist2 x y m := by
    intro r hr
    rcases (hmem r).mp hr with h | h
    · exact ⟨i, n, by rw [h], hn, by rw [h]⟩
    · exact hinv.entries r h
  have hins : insert_result k cap st.1 st.2 (i : Int) (fdist2 x y n) =
      (if st.1.length < cap then
        (if (st.1.length : Int) < k then
          .ok (st.1.take pos ++ { index := (i : Int), distance := fdist2 x y n } ::
            st.1.drop pos, st.2)
        else
          match result_at (st.1.take pos ++ { index := (i : Int), distance := fdist2 x y n } ::
              st.1.drop pos) (k - 1) with
          | .error e => .error e
          | .ok r => .ok ((st.1.take pos ++ { index := (i : Int), distance := fdist2 x y n } ::
              st.1.drop pos).take st.1.length, r.distance))
       else .error .bufferOverflow) := by
    simp only [insert_result, hf]
  rw [hins]
  have only : ∀ j m, j = i → nodes[j]? = some m → m = n := by
    intro j m hj hm
    rw [hj, hn] at hm
    exact (Option.some.inj hm).symm
  have hnd1 : (∀ r ∈ st.1, ∀ j, j = i → r.index ≠ (j : Int)) →
      (st.1.map kresult.index).Nodup →
      ((st.1.take pos ++ { index := (i : Int), distance := fdist2 x y n } ::
        st.1.drop pos).map kresult.index).Nodup := by
    intro hfree hnd
    have hp := hperm.map kresult.index
    rw [hp.nodup_iff, List.map_cons, List.nodup_cons]
    refine ⟨?_, hnd⟩
    intro hin
    rcases List.mem_map.mp hin with ⟨r, hr, e⟩
    exact hfree r hr i rfl e
  generalize st.1.take pos ++ { index := (i : Int), distance := fdist2 x y n } :: st.1.drop pos
    = L1 at hlen hsorted hent hmem hnd1
  by_cases hgrow : (st.1.length : Int) < k
  · refine ⟨(L1, st.2), by rw [if_pos hgrow], ⟨?_, hsorted, hent⟩, ⟨?_, ?_, hbd.le_max, ?_⟩,
      ⟨le_refl _, ?_, ?_, ?_, hnd1⟩⟩
    · show (L1.length : Int) ≤ k
      rw [hlen]; push_cast; omega
    · intro r hr
      rcases (hmem r).mp hr with h | h
      · rw [h]; exact le_of_lt hd
      · exact hbd.within r h
    · intro r hr
      rcases (hmem r).mp hr with h | h
      · rw [h]; exact lt_of_lt_of_le hd hbd.le_max
      · exact hbd.below_max r h
    · intro _
      exact hbd.unfilled hgrow
    · intro j m hj hm
      rw [only j m hj hm, hj]
      exact Or.inl ((hmem _).mpr (Or.inl rfl))
    · intro r hr
      exact Or.inl ((hmem r).mpr (Or.inr hr))
    · intro r hr
      rcases (hmem r).mp hr with h | h
      · exact Or.inr ⟨i, n, rfl, hn, h⟩
      · exact Or.inl h
  · have hfull : (st.1.length : Int) = k := le_antisymm hinv.len_le (not_lt.mp hgrow)
    have hidx : (k - 1).toNat < L1.length := by
      rw [hlen]; omega
    have hres : result_at L1 (k - 1) = .ok (L1[(k - 1).toNat]) := by
      unfold result_at
      rw [if_pos (by omega), List.getElem?_eq_getElem hidx]
    have hsplit : L1 = L1.take st.1.length ++ L1.drop st.1.length :=
      (List.take_append_drop _ _).symm
    have hpw : List.Pairwise (fun a b : kresult => a.distance ≤ b.distance)
        (L1.take st.1.length ++ L1.drop st.1.length) := by
      rw [← hsplit]; exact hsorted
    rw [List.pairwise_append] at hpw
    have hkm : (k - 1).toNat < st.1.length := by omega
    have hlast_mem : L1[(k - 1).toNat] ∈ L1.take st.1.length := by
      rw [List.mem_iff_getElem?]
      exact ⟨(k - 1).toNat, by
        rw [List.getElem?_take_of_lt hkm, List.getElem?_eq_getElem hidx]⟩
    have hlow : ∀ r ∈ L1.take st.1.length, r.distance ≤ (L1[(k - 1).toNat]).distance := by
      intro r hr
      rcases List.mem_iff_getElem?.mp hr with ⟨a, ha⟩
      rw [List.getElem?_take] at ha
      split_ifs at ha with hlt
      rcases List.getElem?_eq_some.mp ha with ⟨hal, hae⟩
      rcases Nat.lt_or_ge a (k - 1).toNat with h | h
      · have := List.pairwise_iff_getElem.mp hsorted a (k - 1).toNat hal hidx h
        rw [hae] at this
        exact this
      · have e : a = (k - 1).toNat := by omega
        subst e
        rw [← hae]
    have hhigh : ∀ r ∈ L1.drop st.1.length, (L1[(k - 1).toNat]).distance ≤ r.distance :=
      fun r hr => hpw.2.2 _ hlast_mem r hr
    have hmem2 : ∀ r, r ∈ L1 → r ∈ L1.take st.1.length ∨
        (L1[(k - 1).toNat]).distance ≤ r.distance := by
      intro r hr
      rw [hsplit, List.mem_append] at hr
      rcases hr with h | h
      · exact Or.inl h
      · exact Or.inr (hhigh r h)
    have hkd : (L1[(k - 1).toNat]).distance ≤ st.2 := by
      rcases (hmem _).mp (List.getElem_mem hidx) with h | h
      · rw [h]; exact le_of_lt hd
      · exact hbd.within _ h
    refine ⟨(L1.take st.1.length, (L1[(k - 1).toNat]).distance), by rw [if_neg hgrow, hres],
      ⟨?_, hsorted.sublist (List.take_sublist _ _),
        fun r hr => hent r (List.mem_of_mem_take hr)⟩,
      ⟨hlow, ?_, le_trans hkd hbd.le_max, ?_⟩, ⟨hkd, ?_, ?_, ?_, ?_⟩⟩
    · show ((List.take st.1.length L1).length : Int) ≤ k
      rw [List.length_take, hlen]
      have : min st.1.length (st.1.length + 1) = st.1.length := by omega
      rw [this, hfull]
    · intro r hr
      rcases (hmem r).mp (List.mem_of_mem_take hr) with h | h
      · rw [h]; exact lt_of_lt_of_le hd hbd.le_max
      · exact hbd.below_max r h
    · intro hlt
      exfalso
      have : ((List.take st.1.length L1).length : Int) = k := by
        rw [List.length_take, hlen]
        have : min st.1.length (st.1.length + 1) = st.1.length := by omega
        rw [this, hfull]
      exact absurd hlt (by rw [this]; exact lt_irrefl _)
    · intro j m hj hm
      rw [only j m hj hm, hj]
      exact hmem2 _ ((hmem _).mpr (Or.inl rfl))
    · intro r hr
      exact hmem2 r ((hmem r).mpr (Or.inr hr))
    · intro r hr
      rcases (hmem r).mp (List.mem_of_mem_take hr) with h | h
      · exact Or.inr ⟨i, n, rfl, hn, h⟩
      · exact Or.inl h
    · intro hfree hnd
      exact (hnd1 hfree hnd).sublist ((List.take_sublist _ _).map _)

/-- The last step of `kdtree_nearestk0`: the node's own distance against the threshold. -/
theorem nearestk_own_post (nodes : List kdtree_node) (x y : ℚ) (k : Int) (cap : Nat)
    (hk : 1 ≤ k) (hcap : k < (cap : Int)) (i : Nat) (n : kdtree_node)
    (hn : nodes[i]? = some n) (st : List kresult × ℚ) (hinv : KInv nodes x y k st)
    (hbd : KBound k st) :
    ∃ st1, (if fmul (fsub x n.x) (fsub x n.x) < st.2 then
        (if fadd (fmul (fsub x n.x) (fsub x n.x)) (fmul (fsub y n.y) (fsub y n.y)) < st.2 then
          insert_result k cap st.1 st.2 (i : Int)
            (fadd (fmul (fsub x n.x) (fsub x n.x)) (fmul (fsub y n.y) (fsub y n.y)))
         else .ok st)
       else .ok st) = .ok st1 ∧
      KInv nodes x y k st1 ∧ KBound k st1 ∧ KPost nodes x y (fun j => j = i) st st1 := by
  have hd2 : fdist2 x y n = fadd (fmul (fsub x n.x) (fsub x n.x)) (fmul (fsub y n.y) (fsub y n.y)) := rfl
  have hdxle := fdist2_ge_dx x y n
  have only : ∀ j m, j = i → nodes[j]? = some m → m = n := by
    intro j m hj hm
    rw [hj, hn] at hm
    exact (Option.some.inj hm).symm
  by_cases hdx : fmul (fsub x n.x) (fsub x n.x) < st.2
  · rw [if_pos hdx]
    by_cases hd : fadd (fmul (fsub x n.x) (fsub x n.x)) (fmul (fsub y n.y) (fsub y n.y)) < st.2
    · rw [if_pos hd]
      obtain ⟨st1, h1, i1, b1, p1⟩ :=
        insert_result_post nodes x y k cap st i n hk hinv hbd hn hd
      have hc : st.1.length < cap := by
        have := hinv.len_le
        omega
      rw [if_pos hc] at h1
      exact ⟨st1, h1, i1, b1, p1⟩
    · rw [if_neg hd]
      refine ⟨st, rfl, hinv, hbd, KPost.refl_of _ _ _ _ _ ?_⟩
      intro j m hj hm
      rw [only j m hj hm, hd2]
      exact not_lt.mp hd
  · rw [if_neg hdx]
    refine ⟨st, rfl, hinv, hbd, KPost.refl_of _ _ _ _ _ ?_⟩
    intro j m hj hm
    rw [only j m hj hm]
    exact le_trans (not_lt.mp hdx) hdxle

/-- On a range in the built shape the traversal returns, keeps both invariants of the
state, and accounts for every slot of the range: pruning a far half only skips nodes that
are no closer than the threshold. -/
theorem kdtree_nearestk0_post (nodes : List kdtree_node) (x y : ℚ) (k : Int) (cap : Nat)
    (hk : 1 ≤ k) (hcap : k < (cap : Int)) {min max depth : Nat} {root : Int}
    (hb : Built nodes min max depth root) :
    ∀ (fuel : Nat) (st : List kresult × ℚ), max - min < fuel → KInv nodes x y k st →
      KBound k st →
      ∃ st1, kdtree_nearestk0 nodes x y k cap fuel root depth st = .ok st1 ∧
        KInv nodes x y k st1 ∧ KBound k st1 ∧
        KPost nodes x y (fun j => min ≤ j ∧ j < max) st st1 := by
  induction hb with
  | empty min max depth hle =>
    intro fuel st hfuel hinv hbd
    obtain ⟨fuel, rfl⟩ : ∃ f, fuel = f + 1 := ⟨fuel - 1, by omega⟩
    refine ⟨st, by simp only [kdtree_nearestk0, if_true], hinv, hbd,
      KPost.refl_of _ _ _ _ _ ?_⟩
    intro j m hj
    omega
  | node min max depth n hlt hn hl hr hlo hhi ihl ihr =>
    intro fuel st hfuel hinv hbd
    obtain ⟨fuel, rfl⟩ : ∃ f, fuel = f + 1 := ⟨fuel - 1, by omega⟩
    have hm1 : min ≤ (min + max) / 2 := by omega
    have hm2 : (min + max) / 2 < max := by omega
    have hnode := node_at_natCast nodes _ n hn
    have hne := natCast_ne_neg_one ((min + max) / 2)
    have hsplit : ∀ j, (min ≤ j ∧ j < max) ↔
        ((min ≤ j ∧ j < (min + max) / 2) ∨ ((min + max) / 2 + 1 ≤ j ∧ j < max)) ∨
          j = (min + max) / 2 := by
      intro j; omega
    have hsplit2 : ∀ j, (min ≤ j ∧ j < max) ↔
        (((min + max) / 2 + 1 ≤ j ∧ j < max) ∨ (min ≤ j ∧ j < (min + max) / 2)) ∨
          j = (min + max) / 2 := by
      intro j; omega
    by_cases had : (if depth % 2 ≠ 0 then fsub x n.x else fsub y n.y) ≤ 0
    · -- near is the left half, far the right half
      obtain ⟨st2, h2, i2, b2, p2⟩ := ihl fuel st (by omega) hinv hbd
      have hfar : ∀ j m, ((min + max) / 2 + 1 ≤ j ∧ j < max) → nodes[j]? = some m →
          fmul (if depth % 2 ≠ 0 then fsub x n.x else fsub y n.y)
            (if depth % 2 ≠ 0 then fsub x n.x else fsub y n.y) ≤ fdist2 x y m := by
        intro j m hj hm
        exact far_bound_right x y depth n m had (hhi j m (by omega) hj.2 hm)
      have h3 : ∃ st3, (if fmul (if depth % 2 ≠ 0 then fsub x n.x else fsub y n.y)
          (if depth % 2 ≠ 0 then fsub x n.x else fsub y n.y) < st2.2 then
          kdtree_nearestk0 nodes x y k cap fuel n.right (depth + 1) st2 else .ok st2) = .ok st3 ∧
          KInv nodes x y k st3 ∧ KBound k st3 ∧
          KPost nodes x y (fun j => (min + max) / 2 + 1 ≤ j ∧ j < max) st2 st3 := by
        by_cases hpr : fmul (if depth % 2 ≠ 0 then fsub x n.x else fsub y n.y)
            (if depth % 2 ≠ 0 then fsub x n.x else fsub y n.y) < st2.2
        · rw [if_pos hpr]
          exact ihr fuel st2 (by omega) i2 b2
        · rw [if_neg hpr]
          exact ⟨st2, rfl, i2, b2, KPost.refl_of _ _ _ _ _
            (fun j m hj hm => le_trans (not_lt.mp hpr) (hfar j m hj hm))⟩
      obtain ⟨st3, h3, i3, b3, p3⟩ := h3
      obtain ⟨st4, h4, i4, b4, p4⟩ := nearestk_own_post nodes x y k cap hk hcap _ n hn st3 i3 b3
      refine ⟨st4, ?_, i4, b4, KPost.compose (KPost.compose p2 p3 (fun j => Iff.rfl)
        (fun j h1 h2 => by omega)) p4 hsplit (fun j h1 h2 => by omega)⟩
      rw [kdtree_nearestk0, if_neg hne, hnode]
      simp only [if_pos had, h2, h3]
      exact h4
    · -- near is the right half, far the left half
      obtain ⟨st2, h2, i2, b2, p2⟩ := ihr fuel st (by omega) hinv hbd
      have hfar : ∀ j m, (min ≤ j ∧ j < (min + max) / 2) → nodes[j]? = some m →
          fmul (if depth % 2 ≠ 0 then fsub x n.x else fsub y n.y)
            (if depth % 2 ≠ 0 then fsub x n.x else fsub y n.y) ≤ fdist2 x y m := by
        intro j m hj hm
        exact far_bound_left x y depth n m had (hlo j m hj.1 hj.2 hm)
      have h3 : ∃ st3, (if fmul (if depth % 2 ≠ 0 then fsub x n.x else fsub y n.y)
          (if depth % 2 ≠ 0 then fsub x n.x else fsub y n.y) < st2.2 then
          kdtree_nearestk0 nodes x y k cap fuel n.left (depth + 1) st2 else .ok st2) = .ok st3 ∧
          KInv nodes x y k st3 ∧ KBound k st3 ∧
          KPost nodes x y (fun j => min ≤ j ∧ j < (min + max) / 2) st2 st3 := by
        by_cases hpr : fmul (if depth % 2 ≠ 0 then fsub x n.x else fsub y n.y)
            (if depth % 2 ≠ 0 then fsub x n.x else fsub y n.y) < st2.2
        · rw [if_pos hpr]
          exact ihl fuel st2 (by omega) i2 b2
        · rw [if_neg hpr]
          exact ⟨st2, rfl, i2, b2, KPost.refl_of _ _ _ _ _
            (fun j m hj hm => le_trans (not_lt.mp hpr) (hfar j m hj hm))⟩
      obtain ⟨st3, h3, i3, b3, p3⟩ := h3
      obtain ⟨st4, h4, i4, b4, p4⟩ := nearestk_own_post nodes x y k cap hk hcap _ n hn st3 i3 b3
      refine ⟨st4, ?_, i4, b4, KPost.compose (KPost.compose p2 p3 (fun j => Iff.rfl)
        (fun j h1 h2 => by omega)) p4 hsplit2 (fun j h1 h2 => by omega)⟩
      rw [kdtree_nearestk0, if_neg hne, hnode]
      simp only [if_neg had, h2, h3]
      exact h4

theorem KBound.start (k : Int) : KBound k ([], to_float (INT_MAX : ℚ)) :=
  ⟨fun r hr => absurd hr (List.not_mem_nil r), fun r hr => absurd hr (List.not_mem_nil r),
    le_refl _, fun _ => rfl⟩

/-- On a store in the built shape, `kdtree_nearestk_list` returns given a recursion budget
larger than the store.  The buffer is in ascending order, names no slot twice, holds at most
`clamp_k k` entries, each a slot of the store with its computed squared distance, which is
below `(float)INT_MAX`; a node that is left out is no closer than any entry, and while the
buffer holds fewer than `clamp_k k` entries every node left out is at computed squared
distance `(float)INT_MAX` or more. -/
theorem kdtree_nearestk_list_spec (t : kdtree_data) (fuel : Nat) (x y : ℚ) (k : Int)
    (hb : Built t.nodes 0 t.nodes.length 0 t.root) (hfuel : t.nodes.length < fuel) :
    ∃ k_list, kdtree_nearestk_list fuel t x y k = .ok k_list ∧
      SortedResults k_list ∧ (k_list.map kresult.index).Nodup ∧
      (k_list.length : Int) ≤ clamp_k k ∧
      (∀ r ∈ k_list, ∃ (j : Nat) (n : kdtree_node), t.nodes[j]? = some n ∧
        r = { index := (j : Int), distance := fdist2 (to_float x) (to_float y) n } ∧
        fdist2 (to_float x) (to_float y) n < to_float (INT_MAX : ℚ)) ∧
      (∀ (j : Nat) (n : kdtree_node), t.nodes[j]? = some n →
        ({ index := (j : Int), distance := fdist2 (to_float x) (to_float y) n } : kresult) ∉ k_list →
        (∀ r ∈ k_list, r.distance ≤ fdist2 (to_float x) (to_float y) n) ∧
        ((k_list.length : Int) < clamp_k k → to_float (INT_MAX : ℚ) ≤ fdist2 (to_float x) (to_float y) n)) := by
  have hcap : clamp_k k < (((MAX_K + 1).toNat : Nat) : Int) := by
    have := (clamp_k_bounds k).2
    unfold MAX_K
    omega
  have hk := (clamp_k_bounds k).1
  obtain ⟨st1, h1, inv, bd, post⟩ := kdtree_nearestk0_post t.nodes (to_float x) (to_float y) (clamp_k k)
    (MAX_K + 1).toNat hk hcap hb fuel ([], to_float (INT_MAX : ℚ)) (by omega)
    (KInv.init _ _ _ _ _ (by omega)) (KBound.start _)
  refine ⟨st1.1, ?_, inv.sorted, ?_, inv.len_le, ?_, ?_⟩
  · unfold kdtree_nearestk_list
    rw [h1]
  · exact post.nodup (fun r hr => absurd hr (List.not_mem_nil r)) List.nodup_nil
  · intro r hr
    rcases post.source r hr with h | ⟨j, n, _, hn, e⟩
    · exact absurd h (List.not_mem_nil r)
    · refine ⟨j, n, hn, e, ?_⟩
      have := bd.below_max r hr
      rw [e] at this
      exact this
  · intro j n hn hnot
    have hj : j < t.nodes.length := lt_length_of_getElem? hn
    rcases post.seen j n ⟨Nat.zero_le _, hj⟩ hn with h | h
    · exact absurd h hnot
    · refine ⟨fun r hr => le_trans (bd.within r hr) h, ?_⟩
      intro hlt
      rw [← bd.unfilled hlt]
      exact h

/-- The number of slots whose entry passes `p`, counted through their indices. -/
theorem length_filter_range (l : List kdtree_node) (p : kdtree_node → Bool) :
    ((List.range l.length).filter (fun j => (l[j]?).any p)).length = l.countP p := by
  induction l using List.reverseRecOn with
  | nil => rfl
  | append_singleton l a ih =>
    rw [List.length_append, List.length_singleton, List.range_succ, List.filter_append,
      List.length_append, List.countP_append]
    have e1 : (List.range l.length).filter (fun j => ((l ++ [a])[j]?).any p) =
        (List.range l.length).filter (fun j => (l[j]?).any p) := by
      apply List.filter_congr
      intro j hj
      rw [List.getElem?_append_left (List.mem_range.mp hj)]
    rw [e1, ih]
    congr 1
    have e2 : (l ++ [a])[l.length]? = some a := by
      rw [List.getElem?_append_right (le_refl _), Nat.sub_self]
      rfl
    simp only [List.filter_cons, List.filter_nil, e2, Option.any_some, List.countP_cons,
      List.countP_nil]
    cases p a <;> rfl

/-- The length of the result on a built store: `clamp_k k`, or the number of nodes at
computed squared distance below `(float)INT_MAX` when there are fewer of those. -/
theorem kdtree_nearestk_list_length (t : kdtree_data) (fuel : Nat) (x y : ℚ) (k : Int)
    (hb : Built t.nodes 0 t.nodes.length 0 t.root) (hfuel : t.nodes.length < fuel) :
    ∃ k_list, kdtree_nearestk_list fuel t x y k = .ok k_list ∧
      k_list.length = min (clamp_k k).toNat
        (t.nodes.countP (fun n => decide (fdist2 (to_float x) (to_float y) n < to_float (INT_MAX : ℚ)))) := by
  obtain ⟨k_list, h1, _, hnd, hlen, hent, hout⟩ :=
    kdtree_nearestk_list_spec t fuel x y k hb hfuel
  refine ⟨k_list, h1, ?_⟩
  rw [← length_filter_range]
  generalize hG : (List.range t.nodes.length).filter
    (fun j => (t.nodes[j]?).any (fun n => decide (fdist2 (to_float x) (to_float y) n < to_float (INT_MAX : ℚ)))) = G
  have hGmem : ∀ j, j ∈ G ↔ ∃ n, t.nodes[j]? = some n ∧
      fdist2 (to_float x) (to_float y) n < to_float (INT_MAX : ℚ) := by
    intro j
    rw [← hG, List.mem_filter, List.mem_range]
    constructor
    · rintro ⟨hj, hp⟩
      obtain ⟨n, hn⟩ := getElem?_isSome_of_lt t.nodes j hj
      rw [hn] at hp
      exact ⟨n, hn, by simpa using hp⟩
    · rintro ⟨n, hn, hp⟩
      refine ⟨lt_length_of_getElem? hn, ?_⟩
      rw [hn]
      simpa using hp
  have hGnd : G.Nodup := by
    rw [← hG]
    exact (List.nodup_range _).filter _
  have hI : (k_list.map (fun r => r.index.toNat)).Nodup := by
    have e : k_list.map kresult.index =
        (k_list.map (fun r => r.index.toNat)).map (fun j : Nat => (j : Int)) := by
      rw [List.map_map]
      apply List.map_congr_left
      intro r hr
      obtain ⟨j, n, _, e, _⟩ := hent r hr
      rw [e]
      simp
    rw [e] at hnd
    exact List.Nodup.of_map _ hnd
  have hsub : k_list.map (fun r => r.index.toNat) ⊆ G := by
    intro j hj
    rcases List.mem_map.mp hj with ⟨r, hr, e⟩
    obtain ⟨j2, n, hn, er, hp⟩ := hent r hr
    rw [er] at e
    simp only [Int.toNat_natCast] at e
    rw [← e]
    exact (hGmem j2).mpr ⟨n, hn, hp⟩
  have hle : k_list.length ≤ G.length := by
    have := (List.subperm_of_subset hI hsub).length_le
    rw [List.length_map] at this
    exact this
  have hk := (clamp_k_bounds k).1
  by_cases hfull : (k_list.length : Int) < clamp_k k
  · have hsub2 : G ⊆ k_list.map (fun r => r.index.toNat) := by
      intro j hj
      obtain ⟨n, hn, hp⟩ := (hGmem j).mp hj
      by_contra hnot
      have hnotin : ({ index := (j : Int), distance := fdist2 (to_float x) (to_float y) n } : kresult) ∉ k_list := by
        intro hin
        exact hnot (List.mem_map.mpr ⟨_, hin, by simp⟩)
      exact absurd hp (not_lt.mpr ((hout j n hn hnotin).2 hfull))
    have hge : G.length ≤ k_list.length := by
      have := (List.subperm_of_subset hGnd hsub2).length_le
      rw [List.length_map] at this
      exact this
    omega
  · omega

/-- On a store in the built shape `kdtree_nearest` returns, given a recursion budget larger
than the store. -/
theorem kdtree_nearest_ok (t : kdtree_data) (x y : ℚ) (fuel : Nat)
    (hb : Built t.nodes 0 t.nodes.length 0 t.root) (hfuel : t.nodes.length < fuel) :
    ∃ id, kdtree_nearest fuel t x y = .ok id := by
  rcases kdtree_nearest_spec t x y fuel hb hfuel with ⟨_, h⟩ | ⟨n, _, _, _, h⟩
  · exact ⟨_, h⟩
  · exact ⟨_, h⟩

/-- On a store in the built shape `kdtree_nearestk` returns, given a recursion budget larger
than the store. -/
theorem kdtree_nearestk_ok (t : kdtree_data) (x y : ℚ) (k : Int) (fuel : Nat)
    (hb : Built t.nodes 0 t.nodes.length 0 t.root) (hfuel : t.nodes.length < fuel) :
    ∃ ids, kdtree_nearestk fuel t x y k = .ok ids := by
  obtain ⟨k_list, hl⟩ := kdtree_nearestk_list_ok t fuel x y k hb hfuel
  obtain ⟨kd, inv⟩ := kdtree_nearestk_list_inv t fuel x y k k_list hl
  obtain ⟨ns, hns, _⟩ := result_ids_spec t.nodes (to_float x) (to_float y) k_list inv.entries
  refine ⟨ns.map kdtree_node.id, ?_⟩
  unfold kdtree_nearestk
  rw [hl]
  exact hns

/-- A traversal that enters a node whose two links name the node itself never returns. -/
theorem kdtree_nearest0_cycle (x y : ℚ) (n : kdtree_node) (hl : n.left = 0) (hr : n.right = 0) :
    ∀ (fuel depth : Nat) (best : Int × ℚ),
      kdtree_nearest0 [n] x y fuel 0 depth best = .error .outOfFuel := by
  intro fuel
  induction fuel with
  | zero => intro depth best; rfl
  | succ fuel ih =>
    intro depth best
    have hnode : node_at [n] 0 = .ok n := rfl
    have hnear : ∀ ad : ℚ, (if ad ≤ 0 then n.left else n.right) = 0 := by
      intro ad; split_ifs <;> assumption
    simp only [kdtree_nearest0, hnode, hnear, ih]
    rfl

/-- The k-nearest traversal on a node whose two links name the node itself never returns. -/
theorem kdtree_nearestk0_cycle (x y : ℚ) (k : Int) (cap : Nat) (n : kdtree_node)
    (hl : n.left = 0) (hr : n.right = 0) :
    ∀ (fuel depth : Nat) (st : List kresult × ℚ),
      kdtree_nearestk0 [n] x y k cap fuel 0 depth st = .error .outOfFuel := by
  intro fuel
  induction fuel with
  | zero => intro depth st; rfl
  | succ fuel ih =>
    intro depth st
    have hnode : node_at [n] 0 = .ok n := rfl
    have hnear : ∀ ad : ℚ, (if ad ≤ 0 then n.left else n.right) = 0 := by
      intro ad; split_ifs <;> assumption
    simp only [kdtree_nearestk0, hnode, hnear, ih]
    rfl

theorem small_index_built :
    kdtree_initialize_array insertion_qsort zero_mem small_points = .ok small_index := by
  decide!

/-! ## Theorems: the recursion budget -/

/-- A traversal that returns with some recursion budget returns the same with any larger
one: the budget is not part of the behaviour. -/
theorem kdtree_nearest0_fuel (nodes : List kdtree_node) (x y : ℚ) :
    ∀ (fuel fuel2 : Nat) (i : Int) (depth : Nat) (best r : Int × ℚ), fuel ≤ fuel2 →
      kdtree_nearest0 nodes x y fuel i depth best = .ok r →
      kdtree_nearest0 nodes x y fuel2 i depth best = .ok r := by
  intro fuel
  induction fuel with
  | zero =>
    intro fuel2 i depth best r _ h
    simp only [kdtree_nearest0] at h
    cases h
  | succ fuel ih =>
    intro fuel2 i depth best r hle h
    obtain ⟨f2, rfl⟩ : ∃ f2, fuel2 = f2 + 1 := ⟨fuel2 - 1, by omega⟩
    have hle2 : fuel ≤ f2 := by omega
    rw [kdtree_nearest0] at h ⊢
    by_cases hi : i = -1
    · rw [if_pos hi] at h ⊢
      exact h
    · rw [if_neg hi] at h ⊢
      cases hnode : node_at nodes i with
      | error e => rw [hnode] at h; cases h
      | ok n =>
        rw [hnode] at h
        simp only [] at h ⊢
        generalize (if depth % 2 ≠ 0 then fsub x n.x else fsub y n.y) = ad at h ⊢
        generalize (if ad ≤ 0 then n.left else n.right) = near at h ⊢
        generalize (if ad ≤ 0 then n.right else n.left) = far at h ⊢
        cases h2 : kdtree_nearest0 nodes x y fuel near (depth + 1) best with
        | error e => rw [h2] at h; cases h
        | ok best1 =>
          rw [h2] at h
          rw [ih f2 _ _ _ _ hle2 h2]
          simp only [] at h ⊢
          by_cases hp : fmul ad ad < best1.2
          · rw [if_pos hp] at h ⊢
            cases h3 : kdtree_nearest0 nodes x y fuel far (depth + 1) best1 with
            | error e => rw [h3] at h; cases h
            | ok best2 =>
              rw [h3] at h
              rw [ih f2 _ _ _ _ hle2 h3]
              exact h
          · rw [if_neg hp] at h ⊢
            exact h

/-- The k-nearest traversal that returns with some recursion budget returns the same with
any larger one. -/
theorem kdtree_nearestk0_fuel (nodes : List kdtree_node) (x y : ℚ) (k : Int) (cap : Nat) :
    ∀ (fuel fuel2 : Nat) (i : Int) (depth : Nat) (st r : List kresult × ℚ), fuel ≤ fuel2 →
      kdtree_nearestk0 nodes x y k cap fuel i depth st = .ok r →
      kdtree_nearestk0 nodes x y k cap fuel2 i depth st = .ok r := by
  intro fuel
  induction fuel with
  | zero =>
    intro fuel2 i depth st r _ h
    simp only [kdtree_nearestk0] at h
    cases h
  | succ fuel ih =>
    intro fuel2 i depth st r hle h
    obtain ⟨f2, rfl⟩ : ∃ f2, fuel2 = f2 + 1 := ⟨fuel2 - 1, by omega⟩
    have hle2 : fuel ≤ f2 := by omega
    rw [kdtree_nearestk0] at h ⊢
    by_cases hi : i = -1
    · rw [if_pos hi] at h ⊢
      exact h
    · rw [if_neg hi] at h ⊢
      cases hnode : node_at nodes i with
      | error e => rw [hnode] at h; cases h
      | ok n =>
        rw [hnode] at h
        simp only [] at h ⊢
        generalize (if depth % 2 ≠ 0 then fsub x n.x else fsub y n.y) = ad at h ⊢
        generalize (if ad ≤ 0 then n.left else n.right) = near at h ⊢
        generalize (if ad ≤ 0 then n.right else n.left) = far at h ⊢
        cases h2 : kdtree_nearestk0 nodes x y k cap fuel near (depth + 1) st with
        | error e => rw [h2] at h; cases h
        | ok st1 =>
          rw [h2] at h
          rw [ih f2 _ _ _ _ hle2 h2]
          simp only [] at h ⊢
          by_cases hp : fmul ad ad < st1.2
          · rw [if_pos hp] at h ⊢
            cases h3 : kdtree_nearestk0 nodes x y k cap fuel far (depth + 1) st1 with
            | error e => rw [h3] at h; cases h
            | ok st2 =>
              rw [h3] at h
              rw [ih f2 _ _ _ _ hle2 h3]
              exact h
          · rw [if_neg hp] at h ⊢
            exact h

/-- The result of `kdtree_nearest` does not depend on the recursion budget, once it returns. -/
theorem kdtree_nearest_fuel (t : kdtree_data) (x y : ℚ) (fuel fuel2 : Nat) (id : Int)
    (hle : fuel ≤ fuel2) (h : kdtree_nearest fuel t x y = .ok id) :
    kdtree_nearest fuel2 t x y = .ok id := by
  unfold kdtree_nearest at h ⊢
  cases h1 : kdtree_nearest0 t.nodes (to_float x) (to_float y) fuel t.root 0 (-1, to_float (INT_MAX : ℚ)) with
  | error e => rw [h1] at h; cases h
  | ok r =>
    rw [h1] at h
    rw [kdtree_nearest0_fuel t.nodes (to_float x) (to_float y) fuel fuel2 _ _ _ _ hle h1]
    exact h

/-- The result of `kdtree_nearestk` does not depend on the recursion budget, once it
returns. -/
theorem kdtree_nearestk_fuel (t : kdtree_data) (x y : ℚ) (k : Int) (fuel fuel2 : Nat)
    (ids : List Int) (hle : fuel ≤ fuel2) (h : kdtree_nearestk fuel t x y k = .ok ids) :
    kdtree_nearestk fuel2 t x y k = .ok ids := by
  unfold kdtree_nearestk kdtree_nearestk_list at h ⊢
  cases h1 : kdtree_nearestk0 t.nodes (to_float x) (to_float y) (clamp_k k) (MAX_K + 1).toNat fuel t.root 0
      ([], to_float (INT_MAX : ℚ)) with
  | error e => rw [h1] at h; cases h
  | ok r =>
    rw [h1] at h
    rw [kdtree_nearestk0_fuel t.nodes (to_float x) (to_float y) _ _ fuel fuel2 _ _ _ _ hle h1]
    exact h

/-- The contract of `qsort` fixes the result when no two elements compare equal. -/
theorem sort_eq_of_sorted (q : Qsort) (compar : kdtree_node → kdtree_node → Int)
    (hc : Consistent compar) (l s : List kdtree_node) (hperm : List.Perm s l)
    (hs : List.Pairwise (fun a b => compar a b ≤ 0) s)
    (hanti : ∀ a ∈ l, ∀ b ∈ l, compar a b ≤ 0 → compar b a ≤ 0 → a = b) :
    q.sort compar l = s := by
  haveI : IsAntisymm kdtree_node (fun a b => compar a b ≤ 0 ∧ a ∈ l ∧ b ∈ l) :=
    ⟨fun a b h1 h2 => hanti a h1.2.1 b h1.2.2 h1.1 h2.1⟩
  refine @List.eq_of_perm_of_sorted _ (fun a b => compar a b ≤ 0 ∧ a ∈ l ∧ b ∈ l) _ _ _
    ((q.perm compar l).trans hperm.symm) ?_ ?_
  · exact (q.sorted compar l hc).imp_of_mem
      (fun ha hb h => ⟨h, (q.perm compar l).mem_iff.mp ha, (q.perm compar l).mem_iff.mp hb⟩)
  · exact hs.imp_of_mem (fun ha hb h => ⟨h, hperm.mem_iff.mp ha, hperm.mem_iff.mp hb⟩)

theorem sort_singleton (q : Qsort) (compar : kdtree_node → kdtree_node → Int)
    (n : kdtree_node) : q.sort compar [n] = [n] :=
  List.perm_singleton.mp (q.perm compar [n])

theorem sort_nil (q : Qsort) (compar : kdtree_node → kdtree_node → Int) :
    q.sort compar [] = [] :=
  List.perm_nil.mp (q.perm compar [])

/-- The coordinates of the documentation example as `float`s. -/
theorem doc_floats :
    to_float 47.6 = 6239027 / 131072 ∧ to_float 45.5 = 91 / 2 ∧
    to_float 40.7 = 10669261 / 262144 ∧ to_float (-122.3) = -8015053 / 65536 ∧
    to_float (-122.8) = -8047821 / 65536 ∧ to_float (-74.0) = -74 := by
  decide!

/-- The index built from the points of the documentation example does not depend on the
implementation of `qsort` or on what the fresh allocation held: the three `y` coordinates
differ, and the build writes every link. -/
theorem doc_index_built_any (q : Qsort) (mem : Nat → kdtree_node) :
    kdtree_initialize_array q mem doc_points = .ok doc_index := by
  obtain ⟨_, _, _, e1, e2, e3⟩ := doc_floats
  have hsort : ∀ (x1 x2 x3 : ℚ) (l1 r1 l2 r2 l3 r3 : Int),
      q.sort comparey [⟨x1, to_float (-122.3), 1, l1, r1⟩, ⟨x2, to_float (-122.8), 2, l2, r2⟩,
        ⟨x3, to_float (-74.0), 3, l3, r3⟩] =
      [⟨x2, to_float (-122.8), 2, l2, r2⟩, ⟨x1, to_float (-122.3), 1, l1, r1⟩,
        ⟨x3, to_float (-74.0), 3, l3, r3⟩] := by
    intro x1 x2 x3 l1 r1 l2 r2 l3 r3
    rw [e1, e2, e3]
    apply sort_eq_of_sorted q comparey (consistent_depth_compar 0)
    · exact List.Perm.swap _ _ _
    · simp only [List.pairwise_cons, List.mem_cons, List.mem_singleton, forall_eq_or_imp,
        forall_eq, comparey_le, List.not_mem_nil, false_implies, implies_true,
        List.Pairwise.nil, and_true]
      norm_num
    · simp only [List.mem_cons, List.mem_singleton, List.not_mem_nil, or_false, comparey_le]
      rintro a (rfl | rfl | rfl) b (rfl | rfl | rfl) h1 h2 <;> first | rfl | (norm_num at h1 h2)
  simp only [kdtree_initialize_array, doc_points, fill_nodes, store_point, List.length_cons,
    List.length_nil, kdtree_build, qsort_range]
  simp [hsort, sort_singleton, sort_nil, set_left, set_right, doc_index, INT_MAX]

/-! ## Theorems: balance of the built tree -/

theorem tree_size_neg_one (nodes : List kdtree_node) (fuel : Nat) :
    tree_size nodes fuel (-1) = 0 := by
  cases fuel with
  | zero => rfl
  | succ f => simp only [tree_size, node_at_neg_one]

theorem tree_height_neg_one (nodes : List kdtree_node) (fuel : Nat) :
    tree_height nodes fuel (-1) = 0 := by
  cases fuel with
  | zero => rfl
  | succ f => simp only [tree_height, node_at_neg_one]

/-- The height of a balanced tree of `n` nodes: `0` for no node, else `⌊log₂ n⌋ + 1`. -/
theorem log_height_step (n : Nat) (hn : 1 ≤ n) :
    max (if n / 2 = 0 then 0 else Nat.log 2 (n / 2) + 1)
      (if n - 1 - n / 2 = 0 then 0 else Nat.log 2 (n - 1 - n / 2) + 1) + 1 =
    Nat.log 2 n + 1 := by
  by_cases h1 : n = 1
  · subst h1
    simp
  · have h2 : 2 ≤ n := by omega
    have hl : n / 2 ≠ 0 := by omega
    have hlog : 0 < Nat.log 2 n := Nat.log_pos (by omega) h2
    have hdiv : Nat.log 2 (n / 2) = Nat.log 2 n - 1 := Nat.log_div_base 2 n
    have hmono : Nat.log 2 (n - 1 - n / 2) ≤ Nat.log 2 (n / 2) :=
      Nat.log_mono_right (by omega)
    rw [if_neg hl]
    split_ifs <;> omega

/-- A range in the built shape holds one tree node per slot, and its height is that of a
balanced tree. -/
theorem Built.size_height {nodes : List kdtree_node} {min max depth : Nat} {root : Int}
    (hb : Built nodes min max depth root) :
    ∀ fuel, max - min < fuel →
      tree_size nodes fuel root = max - min ∧
      tree_height nodes fuel root =
        (if max - min = 0 then 0 else Nat.log 2 (max - min) + 1) := by
  induction hb with
  | empty min max depth hle =>
    intro fuel _
    rw [tree_size_neg_one, tree_height_neg_one, if_pos (by omega)]
    omega
  | node min max depth n hlt hn hl hr hlo hhi ihl ihr =>
    intro fuel hfuel
    obtain ⟨f, rfl⟩ : ∃ f, fuel = f + 1 := ⟨fuel - 1, by omega⟩
    have hnode := node_at_natCast nodes ((min + max) / 2) n hn
    obtain ⟨sl, hl2⟩ := ihl f (by omega)
    obtain ⟨sr, hr2⟩ := ihr f (by omega)
    simp only [tree_size, tree_height, hnode, sl, sr, hl2, hr2]
    constructor
    · omega
    · have e1 : (min + max) / 2 - min = (max - min) / 2 := by omega
      have e2 : max - ((min + max) / 2 + 1) = (max - min) - 1 - (max - min) / 2 := by omega
      rw [e1, e2, log_height_step (max - min) (by omega), if_neg (by omega)]

/-! ## Theorems: the median -/

/-- The node that a call of `kdtree_build` on a non-empty range leaves at the median slot is
the element that `qsort` placed there: element `(min + max) / 2 - min` of the sorted range,
with the two links written. -/
theorem kdtree_build_median (q : Qsort) (fuel : Nat) (nodes : List kdtree_node)
    (min max depth : Nat) (hmax : max ≤ nodes.length) (hbound : max ≤ 1073741824)
    (hlt : min < max) (hfuel : max - min < fuel) :
    ∃ nodes1 n n0 root,
      kdtree_build q fuel nodes min max depth = .ok (nodes1, root) ∧
      BuildPost nodes nodes1 min max depth root ∧
      root = (((min + max) / 2 : Nat) : Int) ∧
      nodes1[(min + max) / 2]? = some n ∧
      (q.sort (depth_compar depth) (slice nodes min max))[(min + max) / 2 - min]? = some n0 ∧
      payload n = payload n0 ∧
      (∀ j nj, min ≤ j → j < (min + max) / 2 → nodes1[j]? = some nj →
        split_coord depth nj ≤ split_coord depth n) ∧
      (∀ j nj, (min + max) / 2 < j → j < max → nodes1[j]? = some nj →
        split_coord depth n ≤ split_coord depth nj) := by
  obtain ⟨f, rfl⟩ : ∃ f, fuel = f + 1 := ⟨fuel - 1, by omega⟩
  obtain ⟨nodesF, root, hbuild, post⟩ :=
    kdtree_build_spec q (f + 1) nodes min max depth hmax hbound hfuel
  have hinv : ∃ n1, nodesF[(min + max) / 2]? = some n1 ∧
      (∀ j nj, min ≤ j → j < (min + max) / 2 → nodesF[j]? = some nj →
        split_coord depth nj ≤ split_coord depth n1) ∧
      (∀ j nj, (min + max) / 2 < j → j < max → nodesF[j]? = some nj →
        split_coord depth n1 ≤ split_coord depth nj) := by
    cases post.built with
    | empty _ _ _ hle => omega
    | node _ _ _ n1 _ hn1 hl hr hlo hhi => exact ⟨n1, hn1, hlo, hhi⟩
  obtain ⟨nodes1, hq, hlen1, hframe1, hslice1⟩ :=
    qsort_range_spec q nodes min max (depth_compar depth) (by omega) hmax
  obtain ⟨nodes2, l, hb2, post2⟩ :=
    kdtree_build_spec q f nodes1 min ((min + max) / 2) (depth + 1) (by omega) (by omega)
      (by omega)
  obtain ⟨n2, hn2⟩ := getElem?_isSome_of_lt nodes2 ((min + max) / 2)
    (by rw [post2.length_eq]; omega)
  have hs3 := set_left_spec nodes2 ((min + max) / 2) l n2 hn2
  obtain ⟨nodes4, r, hb4, post4⟩ :=
    kdtree_build_spec q f (nodes2.set ((min + max) / 2) { n2 with left := l })
      ((min + max) / 2 + 1) max (depth + 1)
      (by rw [List.length_set, post2.length_eq, hlen1]; omega) hbound (by omega)
  have hn4 : nodes4[(min + max) / 2]? = some { n2 with left := l } := by
    rw [post4.frame _ (Or.inl (by omega))]
    exact getElem?_set_same _ _ _ _ hn2
  have hs5 := set_right_spec nodes4 ((min + max) / 2) r _ hn4
  have hn1 : nodes1[(min + max) / 2]? = some n2 := by
    rw [← post2.frame _ (Or.inr (le_refl _))]; exact hn2
  have hq2 : qsort_range q nodes min (max - min)
      (if depth % 2 ≠ 0 then comparex else comparey) = .ok nodes1 := hq
  have hfinal : kdtree_build q (f + 1) nodes min max depth =
      .ok (nodes4.set ((min + max) / 2) { n2 with left := l, right := r },
        (((min + max) / 2 : Nat) : Int)) := by
    have hov : ¬ INT_MAX < ((min + max : Nat) : Int) := by
      unfold INT_MAX
      omega
    simp only [kdtree_build, if_neg (not_le.mpr hlt), hq2, if_neg hov, hb2, hs3, hb4, hs5]
  rw [hfinal] at hbuild
  cases hbuild
  obtain ⟨n1, hn1, hlo, hhi⟩ := hinv
  have hnF : (nodes4.set ((min + max) / 2) { n2 with left := l, right := r })[(min + max) / 2]? =
      some { n2 with left := l, right := r } := getElem?_set_same _ _ _ _ hn4
  rw [hnF] at hn1
  cases hn1
  refine ⟨_, { n2 with left := l, right := r }, n2, _, hfinal, post, rfl, hnF, ?_, rfl,
    hlo, hhi⟩
  rw [← hslice1, getElem?_slice, if_pos (by omega), show min + ((min + max) / 2 - min) =
    (min + max) / 2 by omega]
  exact hn1

/-! ## Theorems: ties in the k-nearest buffer -/

/-- The insertion step in closed form: given a free slot, the candidate is placed at the
first slot whose distance is not below the candidate's, and the buffer is cut back to its
old length when it already held `k` entries. -/
theorem insert_result_eq (k : Int) (cap : Nat) (k_list : List kresult) (k_dist : ℚ) (i : Int)
    (d : ℚ) (hs : SortedResults k_list) (hk : 1 ≤ k) (hlen : (k_list.length : Int) ≤ k)
    (hcap : k_list.length < cap) :
    ∃ st1 pos, insert_result k cap k_list k_dist i d = .ok st1 ∧ pos ≤ k_list.length ∧
      (∀ r ∈ k_list.take pos, r.distance < d) ∧ (∀ r ∈ k_list.drop pos, d ≤ r.distance) ∧
      st1.1 = (k_list.take pos ++ { index := i, distance := d } :: k_list.drop pos).take
        (if (k_list.length : Int) < k then k_list.length + 1 else k_list.length) := by
  obtain ⟨pos, hf, hpos, hbefore, hafter⟩ := find_spot_start k_list d hs
  have hlen1 : (k_list.take pos ++ { index := i, distance := d } :: k_list.drop pos).length =
      k_list.length + 1 := length_insert k_list pos { index := i, distance := d } hpos
  have hins : insert_result k cap k_list k_dist i d =
      (if k_list.length < cap then
        (if (k_list.length : Int) < k then
          .ok (k_list.take pos ++ { index := i, distance := d } :: k_list.drop pos, k_dist)
        else
          match result_at (k_list.take pos ++ { index := i, distance := d } ::
              k_list.drop pos) (k - 1) with
          | .error e => .error e
          | .ok r => .ok ((k_list.take pos ++ { index := i, distance := d } ::
              k_list.drop pos).take k_list.length, r.distance))
       else .error .bufferOverflow) := by
    simp only [insert_result, hf]
  rw [hins, if_pos hcap]
  generalize hL : k_list.take pos ++ { index := i, distance := d } :: k_list.drop pos = L1
    at hlen1 ⊢
  by_cases hgrow : (k_list.length : Int) < k
  · refine ⟨(L1, k_dist), pos, ?_, hpos, hbefore, hafter, ?_⟩
    · rw [if_pos hgrow]
    · rw [hL, if_pos hgrow, List.take_of_length_le (by omega)]
  · have hidx : (k - 1).toNat < L1.length := by
      rw [hlen1]; omega
    have hres : result_at L1 (k - 1) = .ok (L1[(k - 1).toNat]) := by
      unfold result_at
      rw [if_pos (by omega), List.getElem?_eq_getElem hidx]
    refine ⟨(L1.take k_list.length, (L1[(k - 1).toNat]).distance), pos, ?_, hpos, hbefore,
      hafter, ?_⟩
    · rw [if_neg hgrow, hres]
    · rw [hL, if_neg hgrow]

theorem tie_index_built :
    kdtree_initialize_array insertion_qsort zero_mem tie_points = .ok tie_index := by
  decide!

/-! ## Theorems: the bounds of the result buffer -/

theorem node_at_error {nodes : List kdtree_node} {i : Int} {e : Err}
    (h : node_at nodes i = .error e) : e = .outOfBounds := by
  unfold node_at at h
  split_ifs at h
  · split at h
    · cases h
    · cases h; rfl
  · cases h; rfl

/-- The insertion step does not look at the slots after the first free one. -/
theorem insert_result_cap (k : Int) (cap1 cap2 : Nat) (k_list : List kresult) (k_dist : ℚ)
    (i : Int) (d : ℚ) (h1 : k_list.length < cap1) (h2 : k_list.length < cap2) :
    insert_result k cap1 k_list k_dist i d = insert_result k cap2 k_list k_dist i d := by
  simp only [insert_result, if_pos h1, if_pos h2]

/-- Whatever the node store holds, a traversal that starts from a state with at most `k`
live slots, on a buffer of more than `k` slots, never leaves the buffer. -/
theorem kdtree_nearestk0_no_overflow (nodes : List kdtree_node) (x y : ℚ) (k : Int) (cap : Nat)
    (hk : 1 ≤ k) (hcap : k < (cap : Int)) :
    ∀ (fuel : Nat) (i : Int) (depth : Nat) (st : List kresult × ℚ), KInv nodes x y k st →
      kdtree_nearestk0 nodes x y k cap fuel i depth st ≠ .error .bufferOverflow := by
  intro fuel
  induction fuel with
  | zero =>
    intro i depth st _ h
    simp only [kdtree_nearestk0] at h
    cases h
  | succ fuel ih =>
    intro i depth st hinv h
    rw [kdtree_nearestk0] at h
    by_cases hi : i = -1
    · rw [if_pos hi] at h
      cases h
    · rw [if_neg hi] at h
      cases hnode : node_at nodes i with
      | error e =>
        rw [hnode] at h
        have := node_at_error hnode
        subst this
        cases h
      | ok n =>
        rw [hnode] at h
        obtain ⟨j, hj, hjn⟩ := node_at_ok hnode
        simp only [] at h
        generalize (if depth % 2 ≠ 0 then fsub x n.x else fsub y n.y) = ad at h
        generalize (if ad ≤ 0 then n.left else n.right) = near at h
        generalize (if ad ≤ 0 then n.right else n.left) = far at h
        cases h2 : kdtree_nearestk0 nodes x y k cap fuel near (depth + 1) st with
        | error e =>
          rw [h2] at h
          simp only [] at h
          cases h
          exact ih _ _ _ hinv h2
        | ok st2 =>
          rw [h2] at h
          simp only [] at h
          have inv2 := kdtree_nearestk0_inv nodes x y k cap hk _ _ _ _ _ h2 hinv
          cases h3 : (if fmul ad ad < st2.2 then
              kdtree_nearestk0 nodes x y k cap fuel far (depth + 1) st2 else .ok st2) with
          | error e =>
            rw [h3] at h
            simp only [] at h
            cases h
            by_cases hp : fmul ad ad < st2.2
            · rw [if_pos hp] at h3
              exact ih _ _ _ inv2 h3
            · rw [if_neg hp] at h3
              cases h3
          | ok st3 =>
            rw [h3] at h
            simp only [] at h
            have inv3 : KInv nodes x y k st3 := by
              by_cases hp : fmul ad ad < st2.2
              · rw [if_pos hp] at h3
                exact kdtree_nearestk0_inv nodes x y k cap hk _ _ _ _ _ h3 inv2
              · rw [if_neg hp] at h3
                cases h3; exact inv2
            by_cases hdx : fmul (fsub x n.x) (fsub x n.x) < st3.2
            · rw [if_pos hdx] at h
              by_cases hd : fadd (fmul (fsub x n.x) (fsub x n.x)) (fmul (fsub y n.y) (fsub y n.y)) < st3.2
              · rw [if_pos hd] at h
                obtain ⟨st4, h4, _⟩ := insert_result_spec nodes x y k cap st3 j n hk inv3 hjn
                rw [hj] at h
                have e : fadd (fmul (fsub x n.x) (fsub x n.x)) (fmul (fsub y n.y) (fsub y n.y)) = fdist2 x y n := rfl
                have hlen := inv3.len_le
                rw [e, h4, if_pos (by omega)] at h
                cases h
              · rw [if_neg hd] at h
                cases h
            · rw [if_neg hdx] at h
              cases h

/-- Whatever the node store holds, a traversal that starts from a state with at most `k`
live slots behaves the same on every buffer of more than `k` slots. -/
theorem kdtree_nearestk0_cap (nodes : List kdtree_node) (x y : ℚ) (k : Int) (cap1 cap2 : Nat)
    (hk : 1 ≤ k) (hcap1 : k < (cap1 : Int)) (hcap2 : k < (cap2 : Int)) :
    ∀ (fuel : Nat) (i : Int) (depth : Nat) (st : List kresult × ℚ), KInv nodes x y k st →
      kdtree_nearestk0 nodes x y k cap1 fuel i depth st =
        kdtree_nearestk0 nodes x y k cap2 fuel i depth st := by
  intro fuel
  induction fuel with
  | zero =>
    intro i depth st _
    rfl
  | succ fuel ih =>
    intro i depth st hinv
    rw [kdtree_nearestk0, kdtree_nearestk0]
    by_cases hi : i = -1
    · rw [if_pos hi, if_pos hi]
    · rw [if_neg hi, if_neg hi]
      cases hnode : node_at nodes i with
      | error e => rfl
      | ok n =>
        simp only []
        generalize (if depth % 2 ≠ 0 then fsub x n.x else fsub y n.y) = ad
        generalize (if ad ≤ 0 then n.left else n.right) = near
        generalize (if ad ≤ 0 then n.right else n.left) = far
        rw [← ih near (depth + 1) st hinv]
        cases h2 : kdtree_nearestk0 nodes x y k cap1 fuel near (depth + 1) st with
        | error e => rfl
        | ok st2 =>
          simp only []
          have inv2 := kdtree_nearestk0_inv nodes x y k cap1 hk _ _ _ _ _ h2 hinv
          rw [← ih far (depth + 1) st2 inv2]
          cases h3 : (if fmul ad ad < st2.2 then
              kdtree_nearestk0 nodes x y k cap1 fuel far (depth + 1) st2 else .ok st2) with
          | error e => rfl
          | ok st3 =>
            simp only []
            have inv3 : KInv nodes x y k st3 := by
              by_cases hp : fmul ad ad < st2.2
              · rw [if_pos hp] at h3
                exact kdtree_nearestk0_inv nodes x y k cap1 hk _ _ _ _ _ h3 inv2
              · rw [if_neg hp] at h3
                cases h3; exact inv2
            have hlen := inv3.len_le
            rw [insert_result_cap k cap1 cap2 st3.1 st3.2 i _ (by omega) (by omega)]

theorem result_ids_error {nodes : List kdtree_node} :
    ∀ {k_list : List kresult} {e : Err}, result_ids nodes k_list = .error e → e = .outOfBounds
  | [], e, h => by
    simp only [result_ids] at h
    cases h
  | r :: rest, e, h => by
    simp only [result_ids] at h
    cases hnode : node_at nodes r.index with
    | error e2 =>
      rw [hnode] at h
      cases h
      exact node_at_error hnode
    | ok n =>
      rw [hnode] at h
      simp only [] at h
      cases hrest : result_ids nodes rest with
      | error e2 =>
        rw [hrest] at h
        cases h
        exact result_ids_error hrest
      | ok ids =>
        rw [hrest] at h
        cases h

/-! ## Theorems: the build as a rearrangement -/

/-- A store whose slots outside a range are unchanged and whose range holds the same records
holds the same records as a whole. -/
theorem perm_of_frame (l1 l2 : List kdtree_node) (a b : Nat) (hb : b ≤ l2.length)
    (hlen : l1.length = l2.length)
    (hframe : ∀ j, j < a ∨ b ≤ j → l1[j]? = l2[j]?)
    (hperm : List.Perm ((slice l1 a b).map payload) ((slice l2 a b).map payload)) :
    List.Perm (l1.map payload) (l2.map payload) := by
  by_cases hab : a ≤ b
  · have e1 : l1 = slice l1 0 a ++ (slice l1 a b ++ slice l1 b l1.length) := by
      rw [← slice_append l1 a b l1.length hab (by omega),
        ← slice_append l1 0 a l1.length (Nat.zero_le _) (by omega), slice_all]
    have e2 : l2 = slice l2 0 a ++ (slice l2 a b ++ slice l2 b l2.length) := by
      rw [← slice_append l2 a b l2.length hab (by omega),
        ← slice_append l2 0 a l2.length (Nat.zero_le _) (by omega), slice_all]
    have f1 : slice l1 0 a = slice l2 0 a :=
      slice_congr l1 l2 0 a (fun j _ h => hframe j (Or.inl h))
    have f2 : slice l1 b l1.length = slice l2 b l2.length := by
      rw [hlen]
      exact slice_congr l1 l2 b l2.length (fun j h _ => hframe j (Or.inr h))
    rw [e1, e2, f1, f2]
    simp only [List.map_append]
    exact List.Perm.append_left _ (List.Perm.append_right _ hperm)
  · have e : l1 = l2 := by
      apply List.ext_getElem?
      intro j
      exact hframe j (by omega)
    rw [e]

/-! ## Theorems: pruning -/

/-- The check `ids_fit` is sound. -/
theorem ids_fit_spec (points : List (Option Point)) (h : ids_fit points = true) :
    ∀ p, some p ∈ points → IsInt32 p.id := by
  intro p hp
  unfold ids_fit at h
  rw [List.all_eq_true] at h
  have := h (some p) hp
  simp only [decide_eq_true_eq] at this
  exact this

theorem replicate_ids_fit (n : Nat) (p0 : Point) (h0 : IsInt32 p0.id) :
    ∀ p, some p ∈ List.replicate n (some p0) → IsInt32 p.id := by
  intro p hp
  have := List.eq_of_mem_replicate hp
  cases this
  exact h0

theorem map_some_ids_fit (pts : List Point) (h : ∀ p ∈ pts, IsInt32 p.id) :
    ∀ p, some p ∈ pts.map some → IsInt32 p.id := by
  intro p hp
  rcases List.mem_map.mp hp with ⟨p1, hp1, e⟩
  cases e
  exact h p hp1

/-- A call of `kdtree_build` on a non-empty range that ends above slot `2 ^ 30` computes a
sum `min + max` outside `int`, in this call or in one of the calls on the right halves. -/
theorem kdtree_build_overflow (q : Qsort) :
    ∀ (fuel : Nat) (nodes : List kdtree_node) (min max depth : Nat),
      max ≤ nodes.length → 1073741824 < max → min < max → max - min < fuel →
      kdtree_build q fuel nodes min max depth = .error .intOverflow := by
  intro fuel
  induction fuel with
  | zero => intro _ _ _ _ _ _ _ h; omega
  | succ fuel ih =>
    intro nodes min max depth hmax hbig hlt hfuel
    have hle : ¬ max ≤ min := by omega
    obtain ⟨nodes1, hq, hlen1, hframe1, hslice1⟩ :=
      qsort_range_spec q nodes min max (depth_compar depth) (by omega) hmax
    have hq2 : qsort_range q nodes min (max - min)
        (if depth % 2 ≠ 0 then comparex else comparey) = .ok nodes1 := hq
    by_cases hov : INT_MAX < ((min + max : Nat) : Int)
    · simp only [kdtree_build, if_neg hle, hq2, if_pos hov]
    · have hsum : min + max ≤ 2147483647 := by
        unfold INT_MAX at hov
        omega
      obtain ⟨nodes2, l, hb2, post2⟩ :=
        kdtree_build_spec q fuel nodes1 min ((min + max) / 2) (depth + 1) (by omega) (by omega)
          (by omega)
      obtain ⟨n2, hn2⟩ := getElem?_isSome_of_lt nodes2 ((min + max) / 2)
        (by rw [post2.length_eq]; omega)
      have hs3 := set_left_spec nodes2 ((min + max) / 2) l n2 hn2
      have hb4 := ih (nodes2.set ((min + max) / 2) { n2 with left := l })
        ((min + max) / 2 + 1) max (depth + 1)
        (by rw [List.length_set, post2.length_eq, hlen1]; omega) hbig (by omega) (by omega)
      simp only [kdtree_build, if_neg hle, hq2, if_neg hov, hb2, hs3, hb4]

/-- The array branch of `kdtree_initialize` does not return an index for an array of more
than `2 ^ 30` entries: the build leaves the range of `int`. -/
theorem kdtree_initialize_array_overflow (q : Qsort) (mem : Nat → kdtree_node)
    (points : List (Option Point)) (hbig : 1073741824 < points.length) :
    ∀ t, kdtree_initialize_array q mem points ≠ .ok t := by
  intro t h
  unfold kdtree_initialize_array at h
  split_ifs at h with hov
  cases hf : fill_nodes mem 0 points with
  | error e => rw [hf] at h; cases h
  | ok nodes =>
    rw [hf] at h
    simp only [] at h
    have hlen : nodes.length = points.length := by
      by_cases hid : ∀ p, some p ∈ points → IsInt32 p.id
      · rw [fill_nodes_ok mem points 0 hid] at hf
        cases hf
        exact filled_length mem points 0
      · push_neg at hid
        rw [fill_nodes_range_error mem points 0 hid] at hf
        cases hf
    rw [kdtree_build_overflow q (points.length + 1) nodes 0 points.length 0 (by omega) hbig
      (by omega) (by omega)] at h
    cases h

/-! ## The claims -/

/-- C1 (code bug): on the index built from the single point `(100000, 0)` with id 7,
`kdtree_nearest` at the query `(0, 0)` returns `-1` instead of the id 7 of the only, hence
nearest, point: its squared distance `10000000000` is not below the initial
`n_dist = INT_MAX`, so the candidate is never accepted. -/
theorem nearest_misses_far_point :
    kdtree_initialize_array insertion_qsort zero_mem [some ⟨100000, 0, 7⟩] =
        .ok { root := 0, len := 1, nodes := [⟨100000, 0, 7, -1, -1⟩] } ∧
      kdtree_nearest 2 { root := 0, len := 1, nodes := [⟨100000, 0, 7, -1, -1⟩] } 0 0 =
        .ok (-1) := by
  decide!

/-- C2 (code bug): on the index built from the points `(0, 1)` (id 1) and `(0, 100000)`
(id 2), `kdtree_nearestk` at the query `(0, 0)` with `k = 2` returns only `[1]`: the two
smallest squared distances of the list are `1` and `10000000000`, but the second one is not
below the initial `k_dist = INT_MAX` and is dropped. -/
theorem nearestk_drops_far_point :
    kdtree_initialize_array insertion_qsort zero_mem [some ⟨0, 1, 1⟩, some ⟨0, 100000, 2⟩] =
        .ok { root := 1, len := 2,
              nodes := [⟨0, 1, 1, -1, -1⟩, ⟨0, 100000, 2, 0, -1⟩] } ∧
      kdtree_nearestk 3
          { root := 1, len := 2, nodes := [⟨0, 1, 1, -1, -1⟩, ⟨0, 100000, 2, 0, -1⟩] }
          0 0 2 = .ok [1] := by
  decide!

/-- C3 (code bug): on the index built from the single point `(0, 100000)` with id 7,
`kdtree_nearestk` at the query `(0, 0)` with `k = 1` returns the empty sequence, of length
`0` and not `min(clamp(1, 1, 255), 1) = 1`. -/
theorem nearestk_length_far_point :
    kdtree_initialize_array insertion_qsort zero_mem [some ⟨0, 100000, 7⟩] =
        .ok { root := 0, len := 1, nodes := [⟨0, 100000, 7, -1, -1⟩] } ∧
      kdtree_nearestk 2 { root := 0, len := 1, nodes := [⟨0, 100000, 7, -1, -1⟩] } 0 0 1 =
        .ok [] := by
  decide!

/-- C4, counterexample: on the index built from `(18.75, 4097.25, id 1)` and
`(49, 4097, id 2)`, whose coordinates are `float` values, `nearestk(0, 0, 2)` returns
`[2, 1]` although the point with id 2 is farther from the origin than the point with id 1
(squared distances `16787810` and `16787809.125`): in single precision the two squared
distances come out as `16787808` and `16787810`. -/
theorem nearestk_rounding_inversion :
    kdtree_initialize_array insertion_qsort zero_mem
        [some ⟨18.75, 4097.25, 1⟩, some ⟨49, 4097, 2⟩] =
      .ok ⟨1, 2, [⟨49, 4097, 2, -1, -1⟩, ⟨18.75, 4097.25, 1, 0, -1⟩]⟩ ∧
    kdtree_nearestk 3 ⟨1, 2, [⟨49, 4097, 2, -1, -1⟩, ⟨18.75, 4097.25, 1, 0, -1⟩]⟩ 0 0 2 =
      .ok [2, 1] ∧
    point_dist2 0 0 ⟨18.75, 4097.25, 1⟩ < point_dist2 0 0 ⟨49, 4097, 2⟩ ∧
    point_fdist2 0 0 ⟨49, 4097, 2⟩ = 16787808 ∧
    point_fdist2 0 0 ⟨18.75, 4097.25, 1⟩ = 16787810 := by
  decide!

/-- C4, amended: the ids returned by `kdtree_nearestk` are in ascending order of the squared
distance as the search computes it, in single precision from the `float` query and the
stored `float` coordinates.  Whatever the index holds, when the call returns `ids` there is
a list `ns` of nodes such that `ns` are the nodes named by the result buffer slot by slot
(each slot stores its node's computed squared distance), `ids` are their ids in the same
order, and the computed squared distance never decreases along `ns`; every insertion leaves
an ascending buffer ascending; and on the index made by `kdtree_initialize` from an array of
at most `2 ^ 30` entries whose ids fit `int` the call does return, for every recursion
budget above `len`. -/
theorem nearestk_ascending :
    (∀ (t : kdtree_data) (fuel : Nat) (x y : ℚ) (k : Int) (ids : List Int),
      kdtree_nearestk fuel t x y k = .ok ids →
      ∃ (k_list : List kresult) (ns : List kdtree_node),
        kdtree_nearestk_list fuel t x y k = .ok k_list ∧
        List.Forall₂ (fun r n => node_at t.nodes r.index = .ok n ∧
          r.distance = fdist2 (to_float x) (to_float y) n) k_list ns ∧
        ids = ns.map kdtree_node.id ∧
        List.Pairwise (fun a b =>
          fdist2 (to_float x) (to_float y) a ≤ fdist2 (to_float x) (to_float y) b) ns) ∧
    (∀ (k : Int) (cap : Nat) (k_list : List kresult) (k_dist : ℚ) (i : Int) (d : ℚ)
      (st1 : List kresult × ℚ), SortedResults k_list →
      insert_result k cap k_list k_dist i d = .ok st1 → SortedResults st1.1) ∧
    (∀ (q : Qsort) (mem : Nat → kdtree_node) (points : List (Option Point))
      (fuel : Nat) (x y : ℚ) (k : Int),
      points.length ≤ 1073741824 → (∀ p, some p ∈ points → IsInt32 p.id) →
      points.length < fuel →
      ∃ t ids, kdtree_initialize_array q mem points = .ok t ∧
        kdtree_nearestk fuel t x y k = .ok ids) := by
  refine ⟨?_, ?_, ?_⟩
  · intro t fuel x y k ids h
    unfold kdtree_nearestk at h
    cases hl : kdtree_nearestk_list fuel t x y k with
    | error e => rw [hl] at h; cases h
    | ok k_list =>
      rw [hl] at h
      simp only [] at h
      obtain ⟨kd, inv⟩ := kdtree_nearestk_list_inv t fuel x y k k_list hl
      obtain ⟨ns, hns, hall⟩ := result_ids_spec t.nodes (to_float x) (to_float y) k_list
        inv.entries
      rw [hns] at h
      cases h
      exact ⟨k_list, ns, rfl, hall, rfl, pairwise_of_forall₂ hall inv.sorted⟩
  · intro k cap k_list k_dist i d st1 hs h
    exact insert_result_sorted k cap k_list k_dist i d st1 hs h
  · intro q mem points fuel x y k hlen hid hfuel
    obtain ⟨t, h1, _, hlen2, _, hb⟩ := kdtree_initialize_array_spec q mem points hlen hid
    rw [← hlen2] at hb hfuel
    obtain ⟨ids, hids⟩ := kdtree_nearestk_ok t x y k fuel hb hfuel
    exact ⟨t, ids, h1, hids⟩

theorem nearestk_ascending_witness :
    (∃ (k_list : List kresult) (ns : List kdtree_node),
        kdtree_nearestk_list 4 doc_index 34.1 (-118.2) 2 = .ok k_list ∧
        List.Forall₂ (fun r n => node_at doc_index.nodes r.index = .ok n ∧
          r.distance = fdist2 (to_float 34.1) (to_float (-118.2)) n) k_list ns ∧
        [2, 1] = ns.map kdtree_node.id ∧
        List.Pairwise (fun a b => fdist2 (to_float 34.1) (to_float (-118.2)) a ≤
          fdist2 (to_float 34.1) (to_float (-118.2)) b) ns) ∧
    SortedResults (([⟨0, 3⟩, ⟨1, 4⟩], (5 : ℚ)) : List kresult × ℚ).1 ∧
    (∃ t ids, kdtree_initialize_array insertion_qsort zero_mem doc_points = .ok t ∧
      kdtree_nearestk 4 t 34.1 (-118.2) 2 = .ok ids) :=
  ⟨nearestk_ascending.1 doc_index 4 34.1 (-118.2) 2 [2, 1] (by decide!),
   nearestk_ascending.2.1 2 3 [⟨0, 3⟩] 5 1 4 ([⟨0, 3⟩, ⟨1, 4⟩], 5)
     (List.pairwise_singleton _ _) (by decide!),
   nearestk_ascending.2.2 insertion_qsort zero_mem doc_points 4 34.1 (-118.2) 2
     (by decide) (ids_fit_spec doc_points (by decide)) (by decide)⟩

/-- C6: `kdtree_initialize` builds an index from every array of `n ≤ 2 ^ 30` entries whose
ids fit `int`, and in that index the store has `n` slots; `root` is `-1` when `n = 0` and a
slot index otherwise; every `left` / `right` link is `-1` or the index of a slot other than the node's own; every
slot is reached from `root` by exactly one walk along the links; no walk of one or more
links returns to the slot it started from; every slot other than the root is the target of
exactly one link, and the root of none. -/
theorem build_tree_shape (q : Qsort) (mem : Nat → kdtree_node) (points : List (Option Point))
    (hlen30 : points.length ≤ 1073741824) (hid : ∀ p, some p ∈ points → IsInt32 p.id) :
    ∃ t, kdtree_initialize_array q mem points = .ok t ∧
      t.len = (points.length : Int) ∧ t.nodes.length = points.length ∧
      ((t.root = -1 ∧ points.length = 0) ∨ ∃ r : Nat, t.root = (r : Int) ∧ r < points.length) ∧
      (∀ (i : Nat) (n : kdtree_node), t.nodes[i]? = some n →
        (n.left = -1 ∨ ∃ j : Nat, n.left = (j : Int) ∧ j < points.length ∧ j ≠ i) ∧
        (n.right = -1 ∨ ∃ j : Nat, n.right = (j : Int) ∧ j < points.length ∧ j ≠ i)) ∧
      (∀ j : Nat, j < points.length → ∃! path, descend t.nodes t.root path = some j) ∧
      (∀ (i : Nat) (path : List Bool), i < points.length →
        descend t.nodes (i : Int) path = some i → path = []) ∧
      (∀ j : Nat, j < points.length → (j : Int) ≠ t.root →
        ∃! p : Nat × Bool, ∃ m, t.nodes[p.1]? = some m ∧
          (if p.2 then m.right else m.left) = (j : Int)) ∧
      (∀ (i : Nat) (m : kdtree_node), t.nodes[i]? = some m →
        m.left ≠ t.root ∧ m.right ≠ t.root) := by
  obtain ⟨t, h1, hlen0, hlen, _, hb⟩ := kdtree_initialize_array_spec q mem points hlen30 hid
  have hpath := hb.unique_path
  have hnode : ∀ j : Nat, j < points.length → ∃ m, t.nodes[j]? = some m := by
    intro j hj
    exact getElem?_isSome_of_lt t.nodes j (by omega)
  refine ⟨t, h1, hlen0, hlen, ?_, ?_, ?_, ?_, ?_, ?_⟩
  · rcases hb.root_mem with ⟨e, h⟩ | ⟨r, e, _, h⟩
    · exact Or.inl ⟨e, by omega⟩
    · exact Or.inr ⟨r, e, h⟩
  · intro i n hn
    have hi : i < points.length := by
      have := lt_length_of_getElem? hn
      omega
    obtain ⟨a, b⟩ := hb.links i n (Nat.zero_le _) hi hn
    constructor
    · rcases a with a | ⟨j, e, _, c2, c3⟩
      · exact Or.inl a
      · exact Or.inr ⟨j, e, c2, c3⟩
    · rcases b with b | ⟨j, e, _, c2, c3⟩
      · exact Or.inl b
      · exact Or.inr ⟨j, e, c2, c3⟩
  · intro j hj
    exact hpath j (Nat.zero_le _) hj
  · intro i path hi hloop
    obtain ⟨P, hP, huniq⟩ := hpath i (Nat.zero_le _) hi
    have h2 : descend t.nodes t.root (P ++ path) = some i := by
      rw [descend_append t.nodes P t.root i path hP]
      exact hloop
    have := huniq (P ++ path) h2
    exact List.append_right_eq_self.mp this
  · intro j hj hroot
    obtain ⟨P, hP, huniq⟩ := hpath j (Nat.zero_le _) hj
    obtain ⟨mj, hmj⟩ := hnode j hj
    rcases List.eq_nil_or_concat P with e | ⟨P1, b, e⟩
    · rw [e] at hP
      exact absurd (descend_nil_inv hP).1.symm hroot
    · rw [e, List.concat_eq_append] at hP
      obtain ⟨i, m, hPi, hm, hlink⟩ := descend_snoc t.nodes P1 t.root b j hP
      refine ⟨(i, b), ⟨m, hm, hlink⟩, ?_⟩
      rintro ⟨i2, b2⟩ ⟨m2, hm2, hlink2⟩
      have hi2 : i2 < points.length := by
        have := lt_length_of_getElem? hm2
        omega
      obtain ⟨P2, hP2, _⟩ := hpath i2 (Nat.zero_le _) hi2
      have h3 : descend t.nodes t.root (P2 ++ [b2]) = some j := by
        rw [descend_append t.nodes P2 t.root i2 [b2] hP2,
          descend_cons_natCast t.nodes i2 m2 hm2]
        simp only [] at hlink2
        rw [hlink2]
        exact descend_nil_natCast t.nodes j mj hmj
      have h4 := huniq (P2 ++ [b2]) h3
      rw [e, List.concat_eq_append] at h4
      obtain ⟨e1, e2⟩ := List.append_inj' h4 rfl
      have hb2 : b2 = b := by
        cases e2; rfl
      rw [e1] at hP2
      rw [hPi] at hP2
      cases hP2
      rw [hb2]
  · -- a link to the root would give the root a second walk
    have key : ∀ (i : Nat) (m : kdtree_node) (b : Bool), t.nodes[i]? = some m →
        (if b then m.right else m.left) ≠ t.root := by
      intro i m b hm heq
      have hi : i < points.length := by
        have := lt_length_of_getElem? hm
        omega
      rcases hb.root_mem with ⟨_, h⟩ | ⟨r, er, _, hr⟩
      · omega
      · obtain ⟨mr, hmr⟩ := hnode r hr
        obtain ⟨P0, _, huniq⟩ := hpath r (Nat.zero_le _) hr
        have h0 : descend t.nodes t.root [] = some r := by
          rw [er]; exact descend_nil_natCast t.nodes r mr hmr
        obtain ⟨P, hP, _⟩ := hpath i (Nat.zero_le _) hi
        have h3 : descend t.nodes t.root (P ++ [b]) = some r := by
          rw [descend_append t.nodes P t.root i [b] hP, descend_cons_natCast t.nodes i m hm,
            heq]
          exact h0
        have e1 := huniq [] h0
        have e2 := huniq (P ++ [b]) h3
        rw [← e1] at e2
        exact absurd e2 (by simp)
    intro i m hm
    exact ⟨key i m false hm, key i m true hm⟩

theorem build_tree_shape_witness :
    (∀ j : Nat, j < 3 → ∃! path, descend doc_index.nodes doc_index.root path = some j) ∧
    (∀ (i : Nat) (path : List Bool), i < 3 →
      descend doc_index.nodes (i : Int) path = some i → path = []) := by
  obtain ⟨t, h1, _, _, _, _, h2, h3, _⟩ :=
    build_tree_shape insertion_qsort zero_mem doc_points (by decide)
      (ids_fit_spec doc_points (by decide))
  rw [doc_index_built] at h1
  cases h1
  exact ⟨h2, h3⟩

/-- C7 (code bug): the index built from 107374183 points cannot be written, so there is
nothing to reload.  Its node array takes `20 * 107374183 = 2147483660` bytes, a count that
`write_all` receives in its `int len` as `-2147483636`, and `rb_str_new` rejects the
negative length after the tag and the header have gone out. -/
theorem persist_fails_above_int_max :
    ∃ t, kdtree_initialize_array insertion_qsort zero_mem
        (List.replicate 107374183 (some ⟨0, 0, 0⟩)) = .ok t ∧
      kdtree_persist le_layout t [] = .error .negativeSize := by
  obtain ⟨t, h1, hlen, _, _, _⟩ := kdtree_initialize_array_spec insertion_qsort zero_mem
    (List.replicate 107374183 (some ⟨0, 0, 0⟩))
    (by rw [List.length_replicate]; decide)
    (replicate_ids_fit _ _ (by unfold IsInt32; decide))
  refine ⟨t, h1, kdtree_persist_negative le_layout t [] ?_⟩
  rw [hlen, List.length_replicate]
  decide

/-- C8 (code bug): two streams whose tag matches and which hold far fewer bytes than their
header declares, yet do not end in the end-of-stream error.  A header declaring
`len = 107374183` makes the byte count `20 * len` reach `read_all` in its `int len` as a
negative number, which `IO#read` rejects before reading; a header declaring
`len = 214748365` followed by 4 bytes makes it arrive as `4`, so `read_all` is satisfied
and an index is returned. -/
theorem short_stream_not_eof :
    kdtree_initialize_io le_layout zero_junk
        (KDTREE_MAGIC ++ le_int_bytes (-1) ++ le_int_bytes 107374183) =
      .error .negativeSize ∧
    ∃ t, kdtree_initialize_io le_layout zero_junk
        (KDTREE_MAGIC ++ le_int_bytes (-1) ++ le_int_bytes 214748365 ++ [0, 0, 0, 0]) =
      .ok t ∧ t.len = 214748365 := by
  constructor
  · decide!
  · rw [kdtree_initialize_io_header le_layout zero_junk _ (by decide) (by decide)]
    have e1 : le_layout.int_value (List.drop 4 (List.take 8 (List.drop 4
        (KDTREE_MAGIC ++ le_int_bytes (-1) ++ le_int_bytes 214748365 ++ [0, 0, 0, 0])))) =
        214748365 := by decide
    have e2 : List.drop 8 (List.drop 4
        (KDTREE_MAGIC ++ le_int_bytes (-1) ++ le_int_bytes 214748365 ++ [0, 0, 0, 0])) =
        [0, 0, 0, 0] := by decide
    have e3 : to_int (20 * 214748365) = 4 := by decide
    have e4 : read_all ([0, 0, 0, 0] : List Byte) 4 = .ok ([0, 0, 0, 0], []) := by decide
    rw [e1, e2, e3, e4, if_neg (by decide)]
    exact ⟨_, rfl, rfl⟩

/-- C9 (code bug): the index built from 214748365 points is written as 16 bytes, not as
`12 + 20 * 214748365`: the byte count of the node array, `4294967300`, reaches `write_all`
in its `int len` as `4`. -/
theorem persist_truncates_above_int_max :
    ∃ t bytes, kdtree_initialize_array insertion_qsort zero_mem
        (List.replicate 214748365 (some ⟨0, 0, 0⟩)) = .ok t ∧
      kdtree_persist le_layout t [] = .ok bytes ∧ bytes.length = 16 := by
  obtain ⟨t, h1, hlen, hnodes, _, _⟩ := kdtree_initialize_array_spec insertion_qsort zero_mem
    (List.replicate 214748365 (some ⟨0, 0, 0⟩))
    (by rw [List.length_replicate]; decide)
    (replicate_ids_fit _ _ (by unfold IsInt32; decide))
  rw [List.length_replicate] at hlen hnodes
  have hw := kdtree_persist_wrapped le_layout t [] 4 (by rw [hlen]; decide)
    (by rw [hnodes]; decide)
  refine ⟨t, _, h1, hw, ?_⟩
  simp only [List.length_append, List.length_take, nodes_bytes_length, hnodes,
    le_layout.int_bytes_length, KDTREE_MAGIC, List.length_cons, List.length_nil]
  decide

/-- C10: building from the empty array yields `root = -1`, `len = 0` and no nodes; on that
index `kdtree_nearest` returns `-1` for every query and `kdtree_nearestk` returns the empty
sequence for every query and every `k` (for every non-zero recursion budget). -/
theorem empty_index (q : Qsort) (mem : Nat → kdtree_node) (fuel : Nat) (x y : ℚ) (k : Int) :
    kdtree_initialize_array q mem [] = .ok { root := -1, len := 0, nodes := [] } ∧
    kdtree_nearest (fuel + 1) { root := -1, len := 0, nodes := [] } x y = .ok (-1) ∧
    kdtree_nearestk (fuel + 1) { root := -1, len := 0, nodes := [] } x y k = .ok [] := by
  refine ⟨?_, ?_, ?_⟩
  · simp only [kdtree_initialize_array, fill_nodes, List.length_nil, kdtree_build, le_refl,
      if_true]
    rfl
  · simp only [kdtree_nearest, kdtree_nearest0, if_true]
  · simp only [kdtree_nearestk, kdtree_nearestk_list, kdtree_nearestk0, if_true, result_ids]

/-- C11 (code bug): on the array `[[0.0, 0.0, 1], [1.0, 2.0]]` the build keeps the malformed
entry's slot.  For every `qsort` and every content of the fresh allocation the index has
`len = 2` and two nodes, one of which carries the record that the allocation held in slot 1;
with the left-over record `(1, 1, 99)` there, `nearest(1, 1)` returns the id 99, which no
input point has. -/
theorem malformed_entry_kept :
    (∀ (q : Qsort) (mem : Nat → kdtree_node),
      ∃ t, kdtree_initialize_array q mem mixed_points = .ok t ∧ t.len = 2 ∧
        t.nodes.length = 2 ∧ payload (mem 1) ∈ t.nodes.map payload) ∧
    kdtree_initialize_array insertion_qsort stale_mem mixed_points =
      .ok ⟨1, 2, [⟨0, 0, 1, -1, -1⟩, ⟨1, 1, 99, 0, -1⟩]⟩ ∧
    kdtree_nearest 3 ⟨1, 2, [⟨0, 0, 1, -1, -1⟩, ⟨1, 1, 99, 0, -1⟩]⟩ 1 1 = .ok 99 := by
  refine ⟨?_, by decide!, by decide!⟩
  intro q mem
  obtain ⟨t, h1, h2, h3, h4, _⟩ := kdtree_initialize_array_spec q mem mixed_points
    (by decide) (ids_fit_spec mixed_points (by decide))
  refine ⟨t, h1, h2, h3, ?_⟩
  rw [h4.mem_iff]
  simp [mixed_points, filled]

/-- C12, counterexample: two streams that the stream branch of `kdtree_initialize` accepts.
The first holds one node whose links name the node itself: `nearest` and `nearestk` recurse
without end (no recursion budget suffices).  The second declares `root = 5` and no nodes:
both queries read slot 5 of an empty node array. -/
theorem garbage_stream_queries :
    (kdtree_initialize_io le_layout zero_junk cyclic_stream =
        .ok ⟨0, 1, [⟨0, 0, 7, 0, 0⟩]⟩ ∧
      (∀ fuel, kdtree_nearest fuel ⟨0, 1, [⟨0, 0, 7, 0, 0⟩]⟩ 0 0 = .error .outOfFuel) ∧
      (∀ fuel k, kdtree_nearestk fuel ⟨0, 1, [⟨0, 0, 7, 0, 0⟩]⟩ 0 0 k = .error .outOfFuel)) ∧
    (kdtree_initialize_io le_layout zero_junk dangling_stream = .ok ⟨5, 0, []⟩ ∧
      (∀ fuel, kdtree_nearest (fuel + 1) ⟨5, 0, []⟩ 0 0 = .error .outOfBounds) ∧
      (∀ fuel k, kdtree_nearestk (fuel + 1) ⟨5, 0, []⟩ 0 0 k = .error .outOfBounds)) := by
  refine ⟨⟨by decide!, ?_, ?_⟩, ⟨by decide!, ?_, ?_⟩⟩
  · intro fuel
    simp only [kdtree_nearest, kdtree_nearest0_cycle _ _ ⟨0, 0, 7, 0, 0⟩ rfl rfl]
  · intro fuel k
    simp only [kdtree_nearestk, kdtree_nearestk_list,
      kdtree_nearestk0_cycle _ _ _ _ ⟨0, 0, 7, 0, 0⟩ rfl rfl]
  · intro fuel
    rfl
  · intro fuel k
    rfl

/-- C12, amended: `nearest` and `nearestk` have total, defined behaviour on every index
made by the build (from an array of at most `2 ^ 30` entries whose ids fit `int`, the arrays
for which `kdtree_initialize` returns an index), and on every index reloaded from the
stream that `kdtree_persist` wrote for such an index (an index the C struct can hold, with a node array of at most `INT_MAX`
bytes).  On both, `len` is the number of allocated nodes and, for every query, every `k`
and every recursion budget above `len`, both calls return a value: in this model any
dereference of a node index outside `[0, len)` is the result `Err.outOfBounds` and a
recursion that does not end is `Err.outOfFuel`. -/
theorem queries_total (q : Qsort) (L : Layout) (mem : Nat → kdtree_node) (junk : Nat → Byte)
    (points : List (Option Point)) (fuel : Nat) (x y : ℚ) (k : Int)
    (hlen30 : points.length ≤ 1073741824) (hid : ∀ p, some p ∈ points → IsInt32 p.id)
    (hfuel : points.length < fuel) :
    ∃ t, kdtree_initialize_array q mem points = .ok t ∧
      t.len = (t.nodes.length : Int) ∧ t.nodes.length = points.length ∧
      (∃ id, kdtree_nearest fuel t x y = .ok id) ∧
      (∃ ids, kdtree_nearestk fuel t x y k = .ok ids) ∧
      (StorableIndex L t → 20 * t.len ≤ 2147483647 →
        ∃ bytes t2, kdtree_persist L t [] = .ok bytes ∧
          kdtree_initialize_io L junk bytes = .ok t2 ∧
          t2.len = (t2.nodes.length : Int) ∧ t2.nodes.length = points.length ∧
          (∃ id, kdtree_nearest fuel t2 x y = .ok id) ∧
          (∃ ids, kdtree_nearestk fuel t2 x y k = .ok ids)) := by
  obtain ⟨t, h1, hlen0, hlen, _, hb⟩ := kdtree_initialize_array_spec q mem points hlen30 hid
  rw [← hlen] at hb hfuel
  have hn := kdtree_nearest_ok t x y fuel hb hfuel
  have hk := kdtree_nearestk_ok t x y k fuel hb hfuel
  refine ⟨t, h1, by rw [hlen0, hlen], hlen, hn, hk, ?_⟩
  intro hst hsize
  obtain ⟨bytes, t2, hp, hi, e1, e2, e3, hq⟩ := persist_roundtrip L junk t hst hsize
  refine ⟨bytes, t2, hp, hi, ?_, ?_, ?_, ?_⟩
  · rw [e1, e3, hlen0, hlen]
  · rw [e3, hlen]
  · rw [(hq fuel x y k).1]; exact hn
  · rw [(hq fuel x y k).2]; exact hk

theorem queries_total_witness :
    ∃ bytes t2, kdtree_persist le_layout small_index [] = .ok bytes ∧
      kdtree_initialize_io le_layout zero_junk bytes = .ok t2 ∧
      t2.len = (t2.nodes.length : Int) ∧ t2.nodes.length = 3 ∧
      (∃ id, kdtree_nearest 4 t2 34 (-118) = .ok id) ∧
      (∃ ids, kdtree_nearestk 4 t2 34 (-118) 2 = .ok ids) := by
  obtain ⟨t, h1, _, _, _, _, h2⟩ :=
    queries_total insertion_qsort le_layout zero_mem zero_junk small_points 4 34 (-118) 2
      (by decide) (ids_fit_spec small_points (by decide)) (by decide)
  rw [small_index_built] at h1
  cases h1
  exact h2 small_index_storable (by decide)

/-- C13: the example of the class documentation.  Whatever the implementation of `qsort` and
whatever the fresh allocation held, the index built from the points `(47.6, -122.3, 1)`,
`(45.5, -122.8, 2)`, `(40.7, -74.0, 3)` is `doc_index`; on it `nearest(34.1, -118.2)` returns
the id 2 and `nearestk(34.1, -118.2, 2)` returns `[2, 1]`, for every recursion budget of 4
or more. -/
theorem doc_example (q : Qsort) (mem : Nat → kdtree_node) (fuel : Nat) :
    ∃ t, kdtree_initialize_array q mem doc_points = .ok t ∧
      kdtree_nearest (fuel + 4) t 34.1 (-118.2) = .ok 2 ∧
      kdtree_nearestk (fuel + 4) t 34.1 (-118.2) 2 = .ok [2, 1] :=
  ⟨doc_index, doc_index_built_any q mem,
    kdtree_nearest_fuel doc_index 34.1 (-118.2) 4 (fuel + 4) 2 (by omega) (by decide!),
    kdtree_nearestk_fuel doc_index 34.1 (-118.2) 2 4 (fuel + 4) [2, 1] (by omega) (by decide!)⟩

/-- C14: the tree that the build produces is balanced.  Every call of `kdtree_build` on a
range of `n = max - min ≥ 1` slots that ends at or below slot `2 ^ 30` (so that `min + max`
fits `int`) returns the index `(min + max) / 2` as the subtree root;
the subtrees on its `left` and `right` links hold `⌊n / 2⌋` and `n - 1 - ⌊n / 2⌋` nodes, so
the right one is never larger and the left one larger by at most one; and the height of the
subtree is `⌊log₂ n⌋ + 1`.  In particular the index built from `n ≥ 1` points has height
`⌊log₂ n⌋ + 1`, for `n ≤ 2 ^ 30` points whose ids fit `int`. -/
theorem build_balanced (q : Qsort) :
    (∀ (fuel : Nat) (nodes : List kdtree_node) (min max depth : Nat),
      max ≤ nodes.length → max ≤ 1073741824 → min < max → max - min < fuel →
      ∃ nodes1 n,
        kdtree_build q fuel nodes min max depth = .ok (nodes1, (((min + max) / 2 : Nat) : Int)) ∧
        nodes1[(min + max) / 2]? = some n ∧
        tree_size nodes1 fuel n.left = (max - min) / 2 ∧
        tree_size nodes1 fuel n.right = max - min - 1 - (max - min) / 2 ∧
        tree_size nodes1 fuel n.right ≤ tree_size nodes1 fuel n.left ∧
        tree_size nodes1 fuel n.left ≤ tree_size nodes1 fuel n.right + 1 ∧
        tree_height nodes1 fuel (((min + max) / 2 : Nat) : Int) = Nat.log 2 (max - min) + 1) ∧
    (∀ (mem : Nat → kdtree_node) (points : List (Option Point)) (fuel : Nat),
      1 ≤ points.length → points.length ≤ 1073741824 →
      (∀ p, some p ∈ points → IsInt32 p.id) → points.length < fuel →
      ∃ t, kdtree_initialize_array q mem points = .ok t ∧
        tree_size t.nodes fuel t.root = points.length ∧
        tree_height t.nodes fuel t.root = Nat.log 2 points.length + 1) := by
  constructor
  · intro fuel nodes min max depth hmax hbound hlt hfuel
    obtain ⟨nodes1, root, h1, post⟩ :=
      kdtree_build_spec q fuel nodes min max depth hmax hbound hfuel
    have hb := post.built
    have hsh := hb.size_height fuel hfuel
    cases hb with
    | empty _ _ _ hle => omega
    | node _ _ _ n _ hn hl hr hlo hhi =>
      have sl := (hl.size_height fuel (by omega)).1
      have sr := (hr.size_height fuel (by omega)).1
      refine ⟨nodes1, n, h1, hn, ?_, ?_, ?_, ?_, ?_⟩
      · rw [sl]; omega
      · rw [sr]; omega
      · rw [sl, sr]; omega
      · rw [sl, sr]; omega
      · rw [hsh.2, if_neg (by omega)]
  · intro mem points fuel hn hlen30 hid hfuel
    obtain ⟨t, h1, _, _, _, hb⟩ := kdtree_initialize_array_spec q mem points hlen30 hid
    have hsh := hb.size_height fuel (by omega)
    refine ⟨t, h1, ?_, ?_⟩
    · rw [hsh.1]; omega
    · rw [hsh.2, if_neg (by omega)]; rfl

theorem build_balanced_witness :
    (∃ nodes1 n,
      kdtree_build insertion_qsort 5 (filled zero_mem 0 doc_points) 0 3 0 =
        .ok (nodes1, 1) ∧
      nodes1[1]? = some n ∧ tree_size nodes1 5 n.left = 1 ∧ tree_size nodes1 5 n.right = 1 ∧
      tree_size nodes1 5 n.right ≤ tree_size nodes1 5 n.left ∧
      tree_size nodes1 5 n.left ≤ tree_size nodes1 5 n.right + 1 ∧
      tree_height nodes1 5 1 = 2) ∧
    (∃ t, kdtree_initialize_array insertion_qsort zero_mem doc_points = .ok t ∧
      tree_size t.nodes 4 t.root = 3 ∧ tree_height t.nodes 4 t.root = 2) := by
  have hlog : Nat.log 2 3 = 1 := by
    rw [Nat.log_eq_iff] <;> norm_num
  have h1 := (build_balanced insertion_qsort).1 5 (filled zero_mem 0 doc_points) 0 3 0
    (by decide) (by decide) (by decide) (by decide)
  have h2 := (build_balanced insertion_qsort).2 zero_mem doc_points 4 (by decide) (by decide)
    (ids_fit_spec doc_points (by decide)) (by decide)
  have e : doc_points.length = 3 := rfl
  rw [Nat.sub_zero, hlog] at h1
  rw [e, hlog] at h2
  exact ⟨h1, h2⟩

/-- C15, counterexample: on the two points `(0, 1, id 1)` and `(0, 2, id 2)` the range `[0, 2)`
is sorted on `y` to `(0, 1, 1), (0, 2, 2)`, and the node made the root (slot 1) carries
`(0, 2, 2)`, the upper of the two middle elements; the lower one, `(0, 1, 1)`, is its left
child. -/
theorem lower_median_refuted :
    insertion_qsort.sort (depth_compar 0) (slice (filled zero_mem 0 two_points) 0 2) =
      [⟨0, 1, 1, 0, 0⟩, ⟨0, 2, 2, 0, 0⟩] ∧
    kdtree_initialize_array insertion_qsort zero_mem two_points =
      .ok ⟨1, 2, [⟨0, 1, 1, -1, -1⟩, ⟨0, 2, 2, 0, -1⟩]⟩ ∧
    node_at [⟨0, 1, 1, -1, -1⟩, ⟨0, 2, 2, 0, -1⟩] 1 = .ok ⟨0, 2, 2, 0, -1⟩ ∧
    payload ⟨0, 2, 2, 0, -1⟩ ≠ payload ⟨0, 1, 1, 0, 0⟩ := by
  decide!

/-- C15, amended: for every even-length range `[min, max)` of `2 * m` slots (`m ≥ 1`) handled
by `kdtree_build` that ends at or below slot `2 ^ 30` (so that `min + max` fits `int`), the
call returns the index `(min + max) / 2 = min + m`, and the node left
there is the upper median of the sorted range: it carries the coordinates and id of element
`m` (counting from 0) of the range as `qsort` ordered it, the upper of the two middle
elements `m - 1` and `m`, that is the `(m + 1)`-th smallest by the split coordinate.  In the
finished range the `m` slots before it hold split coordinates no larger than its own and
the `m - 1` slots after it hold split coordinates no smaller. -/
theorem root_is_upper_median (q : Qsort) (fuel : Nat) (nodes : List kdtree_node)
    (min max depth m : Nat) (hmax : max ≤ nodes.length) (hbound : max ≤ 1073741824)
    (hm : 1 ≤ m)
    (heven : max - min = 2 * m) (hfuel : 2 * m < fuel) :
    (min + max) / 2 = min + m ∧
    ∃ nodes1 n lo hi,
      kdtree_build q fuel nodes min max depth = .ok (nodes1, ((min + m : Nat) : Int)) ∧
      nodes1[min + m]? = some n ∧
      List.Pairwise (fun a b => split_coord depth a ≤ split_coord depth b)
        (q.sort (depth_compar depth) (slice nodes min max)) ∧
      (q.sort (depth_compar depth) (slice nodes min max)).length = 2 * m ∧
      (q.sort (depth_compar depth) (slice nodes min max))[m - 1]? = some lo ∧
      (q.sort (depth_compar depth) (slice nodes min max))[m]? = some hi ∧
      payload n = payload hi ∧
      split_coord depth lo ≤ split_coord depth n ∧
      (∀ j nj, min ≤ j → j < min + m → nodes1[j]? = some nj →
        split_coord depth nj ≤ split_coord depth n) ∧
      (∀ j nj, min + m < j → j < max → nodes1[j]? = some nj →
        split_coord depth n ≤ split_coord depth nj) := by
  have hmed : (min + max) / 2 = min + m := by omega
  refine ⟨hmed, ?_⟩
  obtain ⟨nodes1, n, n0, root, hbuild, post, hroot, hn, hs, hpay, hlo2, hhi2⟩ :=
    kdtree_build_median q fuel nodes min max depth hmax hbound (by omega) (by omega)
  rw [hmed] at hroot hn hs
  rw [show min + m - min = m by omega] at hs
  subst hroot
  have hlen : (q.sort (depth_compar depth) (slice nodes min max)).length = 2 * m := by
    rw [(q.perm _ _).length_eq, length_slice nodes min max hmax, heven]
  have hsorted : List.Pairwise (fun a b => split_coord depth a ≤ split_coord depth b)
      (q.sort (depth_compar depth) (slice nodes min max)) :=
    (q.sorted _ _ (consistent_depth_compar depth)).imp
      (fun {a b} h => (depth_compar_le depth a b).mp h)
  obtain ⟨lo, hlo⟩ : ∃ lo, (q.sort (depth_compar depth) (slice nodes min max))[m - 1]? =
      some lo := by
    rw [List.getElem?_eq_getElem (by omega)]
    exact ⟨_, rfl⟩
  have hlohi : split_coord depth lo ≤ split_coord depth n0 := by
    have h1 := List.getElem?_eq_some_iff.mp hlo
    have h2 := List.getElem?_eq_some_iff.mp hs
    obtain ⟨p1, e1⟩ := h1
    obtain ⟨p2, e2⟩ := h2
    rw [← e1, ← e2]
    exact List.pairwise_iff_getElem.mp hsorted (m - 1) m p1 p2 (by omega)
  have hsplit : split_coord depth n = split_coord depth n0 :=
    split_coord_payload depth n n0 hpay
  refine ⟨nodes1, n, lo, n0, hbuild, hn, hsorted, hlen, hlo, hs, hpay, ?_, ?_, ?_⟩
  · rw [hsplit]; exact hlohi
  · intro j nj h1 h2 h3
    exact hlo2 j nj h1 (by omega) h3
  · intro j nj h1 h2 h3
    exact hhi2 j nj (by omega) h2 h3

theorem root_is_upper_median_witness :
    (0 + 2) / 2 = 0 + 1 ∧
    ∃ nodes1 n lo hi,
      kdtree_build insertion_qsort 3 (filled zero_mem 0 two_points) 0 2 0 =
        .ok (nodes1, ((0 + 1 : Nat) : Int)) ∧
      nodes1[0 + 1]? = some n ∧
      List.Pairwise (fun a b => split_coord 0 a ≤ split_coord 0 b)
        (insertion_qsort.sort (depth_compar 0) (slice (filled zero_mem 0 two_points) 0 2)) ∧
      (insertion_qsort.sort (depth_compar 0)
        (slice (filled zero_mem 0 two_points) 0 2)).length = 2 * 1 ∧
      (insertion_qsort.sort (depth_compar 0)
        (slice (filled zero_mem 0 two_points) 0 2))[1 - 1]? = some lo ∧
      (insertion_qsort.sort (depth_compar 0)
        (slice (filled zero_mem 0 two_points) 0 2))[1]? = some hi ∧
      payload n = payload hi ∧
      split_coord 0 lo ≤ split_coord 0 n ∧
      (∀ j nj, 0 ≤ j → j < 0 + 1 → nodes1[j]? = some nj →
        split_coord 0 nj ≤ split_coord 0 n) ∧
      (∀ j nj, 0 + 1 < j → j < 2 → nodes1[j]? = some nj →
        split_coord 0 n ≤ split_coord 0 nj) :=
  root_is_upper_median insertion_qsort 3 (filled zero_mem 0 two_points) 0 2 0 1
    (by decide) (by decide) (by decide) (by decide) (by decide)

/-- C16, counterexample: a candidate at squared distance 1 is inserted before the entry at
squared distance 1 that the buffer already holds.  On the index built from `(0, 1, id 1)` and
`(0, -1, id 2)`, queried at the origin with `k = 2`, the traversal enters slot 0 (id 2) first
and the root, slot 1 (id 1), afterwards; the result is `[1, 2]`: the node found later comes
first. -/
theorem tie_inserted_first :
    insert_result 2 256 [⟨0, 1⟩] 2147483647 1 1 = .ok ([⟨1, 1⟩, ⟨0, 1⟩], 2147483647) ∧
    kdtree_initialize_array insertion_qsort zero_mem tie_points = .ok tie_index ∧
    kdtree_nearestk0 tie_index.nodes 0 0 2 256 2 0 1 ([], 2147483647) =
      .ok ([⟨0, 1⟩], 2147483647) ∧
    kdtree_nearestk_list 3 tie_index 0 0 2 = .ok [⟨1, 1⟩, ⟨0, 1⟩] ∧
    kdtree_nearestk 3 tie_index 0 0 2 = .ok [1, 2] := by
  decide!

/-- C16, amended: in the k-nearest insertion step, a candidate whose squared distance equals
that of entries already in the sorted buffer is inserted before all of those equal entries.
For every sorted buffer of at most `k` entries with a free slot, `insert_result` returns, and
the new buffer is the old one with the candidate put at a position `pos` such that every
entry before it is strictly closer and every entry after it is at the candidate's distance or
farther (cut back to `k` entries when the buffer was full). -/
theorem tie_inserted_before (k : Int) (cap : Nat) (k_list : List kresult) (k_dist : ℚ)
    (i : Int) (d : ℚ) (hs : SortedResults k_list) (hk : 1 ≤ k)
    (hlen : (k_list.length : Int) ≤ k) (hcap : k_list.length < cap) :
    ∃ st1 pos, insert_result k cap k_list k_dist i d = .ok st1 ∧ pos ≤ k_list.length ∧
      (∀ r ∈ k_list.take pos, r.distance < d) ∧
      (∀ r ∈ k_list, r.distance = d → r ∈ k_list.drop pos) ∧
      (∀ r ∈ k_list.drop pos, d ≤ r.distance) ∧
      st1.1 = (k_list.take pos ++ { index := i, distance := d } :: k_list.drop pos).take
        (if (k_list.length : Int) < k then k_list.length + 1 else k_list.length) := by
  obtain ⟨st1, pos, h1, h2, h3, h4, h5⟩ := insert_result_eq k cap k_list k_dist i d hs hk hlen hcap
  refine ⟨st1, pos, h1, h2, h3, ?_, h4, h5⟩
  intro r hr hd
  rw [← List.take_append_drop pos k_list] at hr
  rcases List.mem_append.mp hr with h | h
  · have := h3 r h
    rw [hd] at this
    exact absurd this (lt_irrefl _)
  · exact h

theorem tie_inserted_before_witness :
    ∃ st1 pos, insert_result 2 256 [⟨0, 1⟩, ⟨3, 2⟩] 2147483647 1 1 = .ok st1 ∧
      pos ≤ ([⟨0, 1⟩, ⟨3, 2⟩] : List kresult).length ∧
      (∀ r ∈ ([⟨0, 1⟩, ⟨3, 2⟩] : List kresult).take pos, r.distance < 1) ∧
      (∀ r ∈ ([⟨0, 1⟩, ⟨3, 2⟩] : List kresult), r.distance = 1 →
        r ∈ ([⟨0, 1⟩, ⟨3, 2⟩] : List kresult).drop pos) ∧
      (∀ r ∈ ([⟨0, 1⟩, ⟨3, 2⟩] : List kresult).drop pos, (1 : ℚ) ≤ r.distance) ∧
      st1.1 = (([⟨0, 1⟩, ⟨3, 2⟩] : List kresult).take pos ++ { index := 1, distance := 1 } ::
        ([⟨0, 1⟩, ⟨3, 2⟩] : List kresult).drop pos).take
        (if ((([⟨0, 1⟩, ⟨3, 2⟩] : List kresult).length : Nat) : Int) < 2 then
          ([⟨0, 1⟩, ⟨3, 2⟩] : List kresult).length + 1
         else ([⟨0, 1⟩, ⟨3, 2⟩] : List kresult).length) :=
  tie_inserted_before 2 256 [⟨0, 1⟩, ⟨3, 2⟩] 2147483647 1 1
    (by unfold SortedResults; decide!) (by decide)
    (by decide) (by decide)

/-- C17: the result buffer is never indexed out of bounds.  The clamped `k` lies in
`[1, 255]`.  Whatever the node store holds, every traversal that starts from a state with
at most `k` live slots, on a buffer of more than `k` slots: never reads or writes a slot
outside the buffer (in this model the binary search, the shift and the insertion report
such an access as `Err.bufferOverflow`, and an error ends the traversal), returns a state
with at most `k` live slots, and behaves the same as on a buffer of exactly `k + 1` slots.
Every insertion into a sorted buffer of at most `k` entries succeeds on `k + 1` slots and
leaves at most `k` entries.  So `kdtree_nearestk`, which passes 256 slots, never leaves its
buffer. -/
theorem nearestk_buffer_bounds (nodes : List kdtree_node) (x y : ℚ) (k : Int) :
    1 ≤ clamp_k k ∧ clamp_k k ≤ 255 ∧ (clamp_k k).toNat + 1 ≤ (MAX_K + 1).toNat ∧
    (∀ (cap fuel : Nat) (i : Int) (depth : Nat) (st : List kresult × ℚ),
      clamp_k k < (cap : Int) → KInv nodes x y (clamp_k k) st →
      kdtree_nearestk0 nodes x y (clamp_k k) cap fuel i depth st ≠ .error .bufferOverflow ∧
      kdtree_nearestk0 nodes x y (clamp_k k) cap fuel i depth st =
        kdtree_nearestk0 nodes x y (clamp_k k) ((clamp_k k).toNat + 1) fuel i depth st ∧
      ∀ st1, kdtree_nearestk0 nodes x y (clamp_k k) cap fuel i depth st = .ok st1 →
        (st1.1.length : Int) ≤ clamp_k k) ∧
    (∀ (k_list : List kresult) (k_dist : ℚ) (i : Int) (d : ℚ),
      SortedResults k_list → (k_list.length : Int) ≤ clamp_k k →
      ∃ st1, insert_result (clamp_k k) ((clamp_k k).toNat + 1) k_list k_dist i d = .ok st1 ∧
        (st1.1.length : Int) ≤ clamp_k k) ∧
    (∀ (root len : Int) (fuel : Nat),
      kdtree_nearestk fuel ⟨root, len, nodes⟩ x y k ≠ .error .bufferOverflow) := by
  obtain ⟨hk1, hk2⟩ := clamp_k_bounds k
  have hself : clamp_k k < (((clamp_k k).toNat + 1 : Nat) : Int) := by
    push_cast
    omega
  refine ⟨hk1, hk2, ?_, ?_, ?_, ?_⟩
  · have : (MAX_K + 1).toNat = 256 := rfl
    omega
  · intro cap fuel i depth st hcap hinv
    refine ⟨kdtree_nearestk0_no_overflow nodes x y _ cap hk1 hcap fuel i depth st hinv,
      kdtree_nearestk0_cap nodes x y _ cap _ hk1 hcap hself fuel i depth st hinv, ?_⟩
    intro st1 h
    exact (kdtree_nearestk0_inv nodes x y _ cap hk1 fuel i depth st st1 h hinv).len_le
  · intro k_list k_dist i d hs hlen
    obtain ⟨st1, pos, h1, hpos, _, _, h5⟩ :=
      insert_result_eq (clamp_k k) ((clamp_k k).toNat + 1) k_list k_dist i d hs hk1 hlen
        (by omega)
    refine ⟨st1, h1, ?_⟩
    rw [h5, List.length_take]
    split_ifs <;> omega
  · intro root len fuel h
    unfold kdtree_nearestk kdtree_nearestk_list at h
    simp only [] at h
    cases h1 : kdtree_nearestk0 nodes (to_float x) (to_float y) (clamp_k k) (MAX_K + 1).toNat
        fuel root 0 ([], to_float (INT_MAX : ℚ)) with
    | error e =>
      rw [h1] at h
      cases h
      have hcap : clamp_k k < (((MAX_K + 1).toNat : Nat) : Int) := by
        have : (MAX_K + 1).toNat = 256 := rfl
        rw [this]
        push_cast
        omega
      exact kdtree_nearestk0_no_overflow nodes (to_float x) (to_float y) _ _ hk1 hcap fuel
        root 0 _ (KInv.init nodes (to_float x) (to_float y) _ _ (by omega)) h1
    | ok st1 =>
      rw [h1] at h
      have := result_ids_error h
      cases this

theorem nearestk_buffer_bounds_witness :
    (kdtree_nearestk0 doc_index.nodes 34.1 (-118.2) (clamp_k 2) 256 4 1 0 ([], 2147483647) ≠
        .error .bufferOverflow ∧
      kdtree_nearestk0 doc_index.nodes 34.1 (-118.2) (clamp_k 2) 256 4 1 0 ([], 2147483647) =
        kdtree_nearestk0 doc_index.nodes 34.1 (-118.2) (clamp_k 2) ((clamp_k 2).toNat + 1) 4 1 0
          ([], 2147483647) ∧
      ∀ st1, kdtree_nearestk0 doc_index.nodes 34.1 (-118.2) (clamp_k 2) 256 4 1 0
          ([], 2147483647) = .ok st1 → (st1.1.length : Int) ≤ clamp_k 2) ∧
    (∃ st1, insert_result (clamp_k 2) ((clamp_k 2).toNat + 1) [⟨0, 1⟩, ⟨3, 2⟩] 2147483647 1 1 =
        .ok st1 ∧ (st1.1.length : Int) ≤ clamp_k 2) :=
  ⟨(nearestk_buffer_bounds doc_index.nodes 34.1 (-118.2) 2).2.2.2.1 256 4 1 0
      ([], 2147483647) (by decide) (KInv.init _ _ _ _ _ (by decide)),
    (nearestk_buffer_bounds doc_index.nodes 34.1 (-118.2) 2).2.2.2.2.1 [⟨0, 1⟩, ⟨3, 2⟩]
      2147483647 1 1 (by unfold SortedResults; decide!) (by decide)⟩

/-- C18, counterexample: the store holds `float`s and `int`s, not the caller's values.  The
coordinate `16777217 = 2 ^ 24 + 1`, a `double` that is not a `float`, is stored as
`16777216`: the index built from the single point `(16777217, 0, id 1)` holds the record
`(16777216, 0, 1)`, which is not an input record.  And an id outside `int` makes
`kdtree_initialize` raise `RangeError`, so that no index is built. -/
theorem build_narrows_coordinates :
    kdtree_initialize_array insertion_qsort zero_mem [some ⟨16777217, 0, 1⟩] =
      .ok ⟨0, 1, [⟨16777216, 0, 1, -1, -1⟩]⟩ ∧
    ¬ List.Perm ([⟨16777216, 0, 1, -1, -1⟩].map payload) [⟨16777217, 0, 1⟩] ∧
    kdtree_initialize_array insertion_qsort zero_mem [some ⟨0, 0, 2147483648⟩] =
      .error .rangeError := by
  refine ⟨by decide!, ?_, by decide!⟩
  intro h
  have := List.perm_singleton.mp h
  exact absurd this (by decide!)

/-- C18, amended: the build only reorders the node store, which holds the input records
converted to the stored types.  For every list of at most `2 ^ 30` points whose ids fit
`int`, the index built from it has `len` and a node count equal to the length of the list,
and the `(x, y, id)` records of its nodes are a rearrangement (equal as multisets) of the
input records with `x` and `y` converted to `float`, so every id stays attached to its own
coordinates; when all coordinates are `float` values the records are a rearrangement of the
input records themselves.  More generally every call of `kdtree_build` on a range that ends
at or below slot `2 ^ 30` returns a store of the same length that holds the same records,
and does not touch the slots outside its range (it writes links inside the range only). -/
theorem build_reorders (q : Qsort) (mem : Nat → kdtree_node) :
    (∀ pts : List Point, pts.length ≤ 1073741824 → (∀ p ∈ pts, IsInt32 p.id) →
      ∃ t, kdtree_initialize_array q mem (pts.map some) = .ok t ∧
        t.len = (pts.length : Int) ∧ t.nodes.length = pts.length ∧
        List.Perm (t.nodes.map payload) (pts.map stored) ∧
        (∀ p : Point, (t.nodes.map payload).count p = (pts.map stored).count p) ∧
        ((∀ p ∈ pts, to_float p.x = p.x ∧ to_float p.y = p.y) →
          List.Perm (t.nodes.map payload) pts)) ∧
    (∀ (fuel : Nat) (nodes : List kdtree_node) (min max depth : Nat),
      max ≤ nodes.length → max ≤ 1073741824 → max - min < fuel →
      ∃ nodes1 root, kdtree_build q fuel nodes min max depth = .ok (nodes1, root) ∧
        nodes1.length = nodes.length ∧
        List.Perm (nodes1.map payload) (nodes.map payload) ∧
        List.Perm ((slice nodes1 min max).map payload) ((slice nodes min max).map payload) ∧
        ∀ j, j < min ∨ max ≤ j → nodes1[j]? = nodes[j]?) := by
  constructor
  · intro pts hlen hid
    obtain ⟨t, h1, h2, h3, h4, _⟩ := kdtree_initialize_array_spec q mem (pts.map some)
      (by rw [List.length_map]; exact hlen) (map_some_ids_fit pts hid)
    rw [filled_payload] at h4
    rw [List.length_map] at h2 h3
    refine ⟨t, h1, h2, h3, h4, fun p => h4.count_eq p, ?_⟩
    intro hfl
    have e : pts.map stored = pts := by
      conv_rhs => rw [← List.map_id pts]
      apply List.map_congr_left
      intro p hp
      obtain ⟨ex, ey⟩ := hfl p hp
      show ({ x := to_float p.x, y := to_float p.y, id := p.id } : Point) = p
      rw [ex, ey]
    rw [e] at h4
    exact h4
  · intro fuel nodes min max depth hmax hbound hfuel
    obtain ⟨nodes1, root, h1, post⟩ :=
      kdtree_build_spec q fuel nodes min max depth hmax hbound hfuel
    exact ⟨nodes1, root, h1, post.length_eq,
      perm_of_frame nodes1 nodes min max hmax post.length_eq post.frame post.perm,
      post.perm, post.frame⟩

theorem build_reorders_witness :
    (∃ t, kdtree_initialize_array insertion_qsort zero_mem
        ([(⟨16777217, 0, 1⟩ : Point)].map some) = .ok t ∧
      t.len = (([(⟨16777217, 0, 1⟩ : Point)].length : Nat) : Int) ∧
      t.nodes.length = [(⟨16777217, 0, 1⟩ : Point)].length ∧
      List.Perm (t.nodes.map payload) ([(⟨16777217, 0, 1⟩ : Point)].map stored) ∧
      (∀ p : Point, (t.nodes.map payload).count p =
        ([(⟨16777217, 0, 1⟩ : Point)].map stored).count p) ∧
      ((∀ p ∈ [(⟨16777217, 0, 1⟩ : Point)], to_float p.x = p.x ∧ to_float p.y = p.y) →
        List.Perm (t.nodes.map payload) [(⟨16777217, 0, 1⟩ : Point)])) ∧
    ∃ nodes1 root,
      kdtree_build insertion_qsort 4 (filled zero_mem 0 doc_points) 0 3 0 =
        .ok (nodes1, root) ∧
      nodes1.length = (filled zero_mem 0 doc_points).length ∧
      List.Perm (nodes1.map payload) ((filled zero_mem 0 doc_points).map payload) ∧
      List.Perm ((slice nodes1 0 3).map payload)
        ((slice (filled zero_mem 0 doc_points) 0 3).map payload) ∧
      ∀ j, j < 0 ∨ 3 ≤ j → nodes1[j]? = (filled zero_mem 0 doc_points)[j]? :=
  ⟨(build_reorders insertion_qsort zero_mem).1 [⟨16777217, 0, 1⟩] (by decide)
      (by
        intro p hp
        rw [List.mem_singleton] at hp
        rw [hp]
        unfold IsInt32
        decide),
    (build_reorders insertion_qsort zero_mem).2 4 (filled zero_mem 0 doc_points) 0 3 0
      (by decide) (by decide) (by decide)⟩

end Kdtree
